import Mathlib

/-!
# ntpTime: consensus NTP query (`main.go`)

A shallow embedding of `getNTPTime`, `getAccurateNTPTime` and `main`.

* `time.Duration` and `int64` values are integers; where Go arithmetic can leave the
  64-bit range the wrap is explicit (`wrapInt64`).
* `float64` values are modelled exactly: a finite binary64 number is a pair
  `man * 2 ^ exp`, and every arithmetic operation computes the exact result and rounds
  it to 53 significant bits, ties to even (`F64.roundQ`).  Each operation is rounded on
  its own (no fused multiply-add), as the gc compiler does on amd64.
* The transport `ntp.Query`, the clock `time.Now` and `Time.Format` are outside the
  repository; they are the fields of `World`.
-/

namespace NtpTime

/-! ## binary64 arithmetic -/

/-- A finite binary64 value `man * 2 ^ exp`.  Every operation below returns the
canonical form (`man = 0 ∧ exp = 0`, or `2 ^ 52 ≤ |man| < 2 ^ 53`).  The sign of zero is
not represented (the program only compares with zero), and the exponent is unbounded:
for int64 inputs and a roster of six sources every nonzero intermediate magnitude lies
between `2 ^ (-200)` and `2 ^ 200`, far inside the normal range of binary64, so that
neither overflow nor gradual underflow occurs. -/
structure F64 where
  man : Int
  exp : Int
deriving DecidableEq, Repr

namespace F64

/-- The constant `0.0` (also the zero value of a `float64` variable). -/
def zero : F64 := ⟨0, 0⟩

/-- The constant `1.0`. -/
def one : F64 := ⟨1, 0⟩

/-- The rational number denoted by a value. -/
def toRat (f : F64) : ℚ := (f.man : ℚ) * (2 : ℚ) ^ f.exp

/-- Canonical representation: zero, or a 53-bit significand. -/
def Canonical (f : F64) : Prop :=
  (f.man = 0 ∧ f.exp = 0) ∨ (2 ^ 52 ≤ f.man.natAbs ∧ f.man.natAbs < 2 ^ 53)

/-- Relative error of at most `2 ^ (-53)`: `a` is the rounding of the exact value `b`. -/
def Near (a b : ℚ) : Prop := |a - b| ≤ |b| / 2 ^ 53

/-- The quantity `a` lies within the factor `r` of the positive quantity `x`. -/
def Within (r a x : ℚ) : Prop := x / r ≤ a ∧ a ≤ x * r

/-- Quotient `N / D` rounded to the nearest natural number, ties to even. -/
def roundNat (N D : Nat) : Nat :=
  let q := N / D
  let r := N % D
  if 2 * r < D then q
  else if D < 2 * r then q + 1
  else if q % 2 = 0 then q else q + 1

/-- Binary logarithm by halving; the first argument bounds the number of steps. -/
def log2Fuel : Nat → Nat → Nat
  | 0, _ => 0
  | fuel + 1, n => if n < 2 then 0 else log2Fuel fuel (n / 2) + 1

/-- Position of the leading bit: `⌊log₂ n⌋` for `n ≠ 0`. -/
def log2 (n : Nat) : Nat := log2Fuel n n

/-- The integer `k` with `2 ^ k ≤ a / d < 2 ^ (k + 1)`, for `a, d ≠ 0`. -/
def ilog2 (a d : Nat) : Int :=
  if d * 2 ^ log2 a ≤ a * 2 ^ log2 d then (log2 a : Int) - log2 d
  else (log2 a : Int) - log2 d - 1

/-- Attach the sign and renormalise a significand that rounded up to `2 ^ 53`. -/
def norm (neg : Bool) (q : Nat) (s : Int) : F64 :=
  let f : F64 := if q = 2 ^ 53 then ⟨2 ^ 52, s + 1⟩ else ⟨q, s⟩
  if neg then ⟨-f.man, f.exp⟩ else f

/-- The quotient `(a / d) / 2 ^ s` rounded to the nearest natural number, ties to
even. -/
def scaledRound (a d : Nat) (s : Int) : Nat :=
  if 0 ≤ s then roundNat a (d * 2 ^ s.toNat) else roundNat (a * 2 ^ (-s).toNat) d

/-- Round the exact value `(n / d) * 2 ^ x` to binary64 (nearest, ties to even):
the quotient is scaled so that its integer part has exactly 53 bits and then rounded
to an integer. -/
def roundQ (n : Int) (d : Nat) (x : Int) : F64 :=
  if n = 0 then zero else
    let a := n.natAbs
    let s := ilog2 a d - 52
    norm (decide (n < 0)) (scaledRound a d s) (s + x)

/-- Conversion `float64(i)` of an integer. -/
def ofInt (i : Int) : F64 := roundQ i 1 0

/-- Product `a * b`. -/
def mul (a b : F64) : F64 := roundQ (a.man * b.man) 1 (a.exp + b.exp)

/-- Sum `a + b`. -/
def add (a b : F64) : F64 :=
  let e := min a.exp b.exp
  roundQ (a.man * 2 ^ (a.exp - e).toNat + b.man * 2 ^ (b.exp - e).toNat) 1 e

/-- Quotient `a / b` for `b ≠ 0` (the program never divides by zero). -/
def div (a b : F64) : F64 :=
  roundQ (if b.man < 0 then -a.man else a.man) b.man.natAbs (a.exp - b.exp)

/-- Comparison `f == 0`. -/
def isZero (f : F64) : Bool := decide (f.man = 0)

/-- Comparison `a < b`, decided on integers after aligning the exponents. -/
def blt (a b : F64) : Bool :=
  let e := min a.exp b.exp
  decide (a.man * 2 ^ (a.exp - e).toNat < b.man * 2 ^ (b.exp - e).toNat)

/-- The integer part of a value (rounding toward zero). -/
def trunc (f : F64) : Int :=
  if 0 ≤ f.exp then f.man * 2 ^ f.exp.toNat else Int.tdiv f.man (2 ^ (-f.exp).toNat)

/-- Conversion `int64(f)`: truncation toward zero.  A value outside the int64 range
gives `-2 ^ 63`, the result of the conversion instruction on amd64 (the Go
specification leaves that case to the implementation). -/
def toInt64 (f : F64) : Int :=
  let t := trunc f
  if -2 ^ 63 ≤ t ∧ t < 2 ^ 63 then t else -2 ^ 63

end F64

/-! ## data model -/

/-- One second as a `time.Duration` (nanoseconds). -/
def Second : Int := 1000000000

/-- One millisecond as a `time.Duration`. -/
def Millisecond : Int := 1000000

/-- Two-complement wrap of an integer into the int64 range. -/
def wrapInt64 (x : Int) : Int := (x + 2 ^ 63) % 2 ^ 64 - 2 ^ 63

/-- Method `Duration.Milliseconds`: `int64(d) / 1e6`, truncated toward zero. -/
def Milliseconds (d : Int) : Int := Int.tdiv d 1000000

/-- The fields of `ntp.Response` that the program reads. -/
structure Response where
  Stratum : Nat
  RTT : Int
  ClockOffset : Int
deriving DecidableEq, Repr

/-- Record `ntpServer`. -/
structure ntpServer where
  address : String
  stratum : Int
  rtt : Int
  offset : Int
deriving DecidableEq, Repr

/-- Lines written through package `log`, with their arguments. -/
inductive LogLine where
  | unavailable (server err : String)
  | used (validResponses : Int) (address : String) (stratum : Int) (rtt : Int)
  | fallback (err : String)
  | fatal (msg : String)
deriving DecidableEq, Repr

/-- The environment of one run: `query k server` is the answer of the transport to
the `k`-th call of `ntp.Query` (counted from zero) when asked for `server`, `now` the
reading of `time.Now()` in nanoseconds, and `format` is `Time.Format(time.RFC3339)`. -/
structure World where
  query : Nat → String → Except String Response
  now : Int
  format : Int → String

/-- Effects accumulated so far: the servers passed to `ntp.Query`, in call order, and
the log. -/
structure Sys where
  calls : List String
  logs : List LogLine
deriving DecidableEq, Repr

/-- Result of a Go function returning `(T, error)`, or a run-time panic. -/
inductive Outcome (α : Type) where
  | value (v : α)
  | error (msg : String)
  | panic (msg : String)
deriving DecidableEq, Repr

/-! ## the program -/

/-- The roster of `getAccurateNTPTime`. -/
def servers : List String :=
  ["time.nist.gov", "time-a-g.nist.gov", "time-b-g.nist.gov",
   "0.beevik-ntp.pool.ntp.org", "1.beevik-ntp.pool.ntp.org", "2.beevik-ntp.pool.ntp.org"]

/-- The server that `main` passes to `getNTPTime`. -/
def fallbackServer : String := "0.beevik-ntp.pool.ntp.org"

/-- The message of the error returned when no response was accepted. -/
def noReliable : String := "no reliable NTP servers available"

/-- Function `getNTPTime`: one transport call; its error is returned unchanged,
otherwise the local time plus the clock offset is formatted. -/
def getNTPTime (w : World) (st : Sys) (server : String) : Outcome String × Sys :=
  let st1 : Sys := { st with calls := st.calls ++ [server] }
  match w.query st.calls.length server with
  | .error err => (.error err, st1)
  | .ok response => (.value (w.format (w.now + response.ClockOffset)), st1)

/-- The condition under which `getAccurateNTPTime` appends a response:
`response.Stratum > 0 && response.Stratum <= 4 && response.RTT < 2*time.Second`. -/
def accepts (response : Response) : Bool :=
  decide (response.Stratum > 0 ∧ response.Stratum ≤ 4 ∧ response.RTT < 2 * Second)

/-- The record appended for an accepted response. -/
def mkServer (server : String) (response : Response) : ntpServer :=
  { address := server, stratum := (response.Stratum : Int), rtt := response.RTT,
    offset := response.ClockOffset }

/-- State of the query loop: effects, `responses` and `validResponses`. -/
structure Acquired where
  sys : Sys
  responses : List ntpServer
  validResponses : Int
deriving DecidableEq, Repr

/-- One iteration of the query loop of `getAccurateNTPTime`. -/
def queryStep (w : World) (acc : Acquired) (server : String) : Acquired :=
  let sys1 : Sys := { acc.sys with calls := acc.sys.calls ++ [server] }
  match w.query acc.sys.calls.length server with
  | .error err =>
    { acc with sys := { sys1 with logs := sys1.logs ++ [LogLine.unavailable server err] } }
  | .ok response =>
    if accepts response then
      { sys := sys1, responses := acc.responses ++ [mkServer server response],
        validResponses := acc.validResponses + 1 }
    else { acc with sys := sys1 }

/-- The query loop over a list of servers. -/
def queryLoop (w : World) (acc : Acquired) (roster : List String) : Acquired :=
  roster.foldl (queryStep w) acc

/-- The comparison passed to `sort.Slice`. -/
def less (a b : ntpServer) : Bool :=
  if a.stratum ≠ b.stratum then decide (a.stratum < b.stratum) else decide (a.rtt < b.rtt)

/-- Inner loop of the insertion sort: `x` moves left past every element it is less
than.  The sorted prefix is held in reverse, nearest neighbour first. -/
def sinkLeft (x : ntpServer) : List ntpServer → List ntpServer
  | [] => [x]
  | y :: ys => if less x y then y :: sinkLeft x ys else x :: y :: ys

/-- Call `sort.Slice(responses, less)`.  For slices of at most twelve elements
(the roster has six) the library runs a plain insertion sort, which is what is
modelled. -/
def sortSlice (responses : List ntpServer) : List ntpServer :=
  (responses.foldl (fun sortedRev x => sinkLeft x sortedRev) []).reverse

/-- The value `rttMs` of the weighting loop: whole milliseconds, with 0 replaced by 1. -/
def rttMsOf (resp : ntpServer) : Int :=
  let rttMs := Milliseconds resp.rtt
  if rttMs = 0 then 1 else rttMs

/-- The weight as a function of the stratum and of `rttMs`:
`(1.0 / float64(stratum)) * (1.0 / float64(rttMs))`. -/
def weightFor (stratum rttMs : Int) : F64 :=
  let stratumWeight := F64.div F64.one (F64.ofInt stratum)
  let rttWeight := F64.div F64.one (F64.ofInt rttMs)
  F64.mul stratumWeight rttWeight

/-- The value `weight` of the weighting loop: `stratumWeight * rttWeight`. -/
def weightOf (resp : ntpServer) : F64 := weightFor resp.stratum (rttMsOf resp)

/-- The term `float64(resp.offset.Nanoseconds()) * weight` added to `weightedOffsetNs`. -/
def termOf (resp : ntpServer) : F64 := F64.mul (F64.ofInt resp.offset) (weightOf resp)

/-- The two accumulators of the weighting loop. -/
structure Weights where
  totalWeight : F64
  weightedOffsetNs : F64
deriving DecidableEq, Repr

/-- One iteration of the weighting loop. -/
def weightStep (acc : Weights) (resp : ntpServer) : Weights :=
  let weight := weightOf resp
  { totalWeight := F64.add acc.totalWeight weight,
    weightedOffsetNs := F64.add acc.weightedOffsetNs (F64.mul (F64.ofInt resp.offset) weight) }

/-- The weighting loop. -/
def weightLoop (responses : List ntpServer) : Weights :=
  responses.foldl weightStep { totalWeight := F64.zero, weightedOffsetNs := F64.zero }

/-- The sum `totalOffset` of the zero-weight branch, in int64 arithmetic. -/
def totalOffsetOf (responses : List ntpServer) : Int :=
  responses.foldl (fun total resp => wrapInt64 (total + resp.offset)) 0

/-- The offset resolution (the `if totalWeight == 0` statement): the truncated mean of
the offsets when the total weight is zero, otherwise the weighted quotient converted
to a `Duration`.  Dividing by a zero length is a run-time panic. -/
def resolveOffset (wts : Weights) (responses : List ntpServer) : Outcome Int :=
  if wts.totalWeight.isZero then
    if responses.length = 0 then Outcome.panic "integer divide by zero"
    else Outcome.value (Int.tdiv (totalOffsetOf responses) (responses.length : Int))
  else Outcome.value (F64.toInt64 (F64.div wts.weightedOffsetNs wts.totalWeight))

/-- The value `finalOffset` computed from a list of responses. -/
def finalOffset (responses : List ntpServer) : Outcome Int :=
  resolveOffset (weightLoop responses) responses

/-- Function `getAccurateNTPTime`. -/
def getAccurateNTPTime (w : World) (st : Sys) : Outcome String × Sys :=
  let acq := queryLoop w { sys := st, responses := [], validResponses := 0 } servers
  if acq.validResponses = 0 then (Outcome.error noReliable, acq.sys)
  else
    let responses := sortSlice acq.responses
    match finalOffset responses with
    | Outcome.value off =>
      match responses.head? with
      | none => (Outcome.panic "index out of range", acq.sys)
      | some best =>
        (Outcome.value (w.format (w.now + off)),
         { acq.sys with
           logs := acq.sys.logs ++
             [LogLine.used acq.validResponses best.address best.stratum best.rtt] })
    | Outcome.error msg => (Outcome.error msg, acq.sys)
    | Outcome.panic msg => (Outcome.panic msg, acq.sys)

/-- What one run of the process leaves behind: effects, the lines printed on standard
output and the exit status (1 after `log.Fatal`, 2 after a panic). -/
structure Process where
  sys : Sys
  stdout : List String
  exitCode : Nat
deriving DecidableEq, Repr

/-- Function `main`. -/
def main (w : World) : Process :=
  match getAccurateNTPTime w { calls := [], logs := [] } with
  | (Outcome.value timeStr, st) => { sys := st, stdout := [timeStr], exitCode := 0 }
  | (Outcome.panic _, st) => { sys := st, stdout := [], exitCode := 2 }
  | (Outcome.error err, st) =>
    let st1 : Sys := { st with logs := st.logs ++ [LogLine.fallback err] }
    match getNTPTime w st1 fallbackServer with
    | (Outcome.value timeStr, st2) => { sys := st2, stdout := [timeStr], exitCode := 0 }
    | (Outcome.error err2, st2) =>
      { sys := { st2 with logs := st2.logs ++ [LogLine.fatal err2] }, stdout := [], exitCode := 1 }
    | (Outcome.panic _, st2) => { sys := st2, stdout := [], exitCode := 2 }

/-! ## auxiliary notions used in the statements -/

/-- The readings that the query loop accepts from `roster` when the first transport
call has index `k`: the successful answers that pass `accepts`, in roster order. -/
def acceptedFrom (w : World) : Nat → List String → List ntpServer
  | _, [] => []
  | k, server :: rest =>
    match w.query k server with
    | .ok response =>
      if accepts response then mkServer server response :: acceptedFrom w (k + 1) rest
      else acceptedFrom w (k + 1) rest
    | .error _ => acceptedFrom w (k + 1) rest

/-- Whether the answer of the transport to call `k` for `server` is a response that
passes the acceptance test. -/
def acceptedAt (w : World) (k : Nat) (server : String) : Bool :=
  match w.query k server with
  | .ok response => accepts response
  | .error _ => false

/-- The acceptance test on a stored reading: `1 ≤ stratum ≤ 4` and `rtt < 2 s`. -/
def Accepted (r : ntpServer) : Prop :=
  1 ≤ r.stratum ∧ r.stratum ≤ 4 ∧ r.rtt < 2 * Second

instance (r : ntpServer) : Decidable (Accepted r) := by
  unfold Accepted
  infer_instance

/-- Ascending lexicographic order on `(stratum, rtt)`. -/
def lexLE (a b : ntpServer) : Prop :=
  a.stratum < b.stratum ∨ (a.stratum = b.stratum ∧ a.rtt ≤ b.rtt)

/-- The world in which the answer to call `k`, if it is a response, reports the clock
offset `off` instead; everything else is unchanged. -/
def World.withOffset (w : World) (k : Nat) (off : Int) : World :=
  { w with
    query := fun j server =>
      if j = k then
        match w.query j server with
        | .ok response => .ok { response with ClockOffset := off }
        | .error err => .error err
      else w.query j server }

/-- The three readings of the concrete scenario, in the order the specification lists
them (offsets and round-trip times in nanoseconds). -/
def scenario : List ntpServer :=
  [{ address := "a", stratum := 1, rtt := 10000000, offset := 50000000 },
   { address := "b", stratum := 2, rtt := 20000000, offset := -10000000 },
   { address := "c", stratum := 2, rtt := 5000000, offset := 5000000 }]

/-- The exact sum of the weights of a list of readings. -/
def weightSum (l : List ntpServer) : ℚ := (l.map (fun r => F64.toRat (weightOf r))).sum

/-- The exact sum of the terms `float64(offset) * weight` of a list of readings. -/
def termSum (l : List ntpServer) : ℚ := (l.map (fun r => F64.toRat (termOf r))).sum

/-- The exact sum of the magnitudes of the terms of a list of readings. -/
def termAbsSum (l : List ntpServer) : ℚ := (l.map (fun r => |F64.toRat (termOf r)|)).sum

/-- Three accepted readings in roster order for which the ranking changes the result
(offsets and round-trip times in nanoseconds). -/
def rosterOrder : List ntpServer :=
  [{ address := "time.nist.gov", stratum := 2, rtt := 37000000, offset := 9000000 },
   { address := "time-a-g.nist.gov", stratum := 1, rtt := 10000000, offset := -34000000 },
   { address := "time-b-g.nist.gov", stratum := 2, rtt := 15000000, offset := -25000000 }]

/-- A duration in nanoseconds rounded to tenths of a millisecond (half up). -/
def roundTenthMs (d : Int) : Int := (d + 50000) / 100000

/-- The effects at the start of a run: no transport call made, nothing logged. -/
def freshSys : Sys := { calls := [], logs := [] }

/-- A sample environment: the first source answers with stratum 1, the second with
stratum 5 (outside the acceptance envelope), every later call times out. -/
def sampleWorld : World :=
  { query := fun k _ =>
      if k = 0 then .ok { Stratum := 1, RTT := 10000000, ClockOffset := 50000000 }
      else if k = 1 then .ok { Stratum := 5, RTT := 10000000, ClockOffset := 999 }
      else .error "timeout"
    now := 1705321845000000000
    format := fun t => if t = 1705321845050000000 then "2024-01-15T12:30:45Z" else "other" }

/-- A sample environment in which every transport call fails. -/
def deadWorld : World :=
  { query := fun _ _ => .error "timeout"
    now := 1705321845000000000
    format := fun _ => "other" }

/-- A sample environment in which only the seventh transport call (the fallback
query of `main`) is answered. -/
def fallbackWorld : World :=
  { query := fun k _ =>
      if k = 6 then .ok { Stratum := 2, RTT := 10000000, ClockOffset := 50000000 }
      else .error "timeout"
    now := 1705321845000000000
    format := fun t => if t = 1705321845050000000 then "2024-01-15T12:30:45Z" else "other" }

/-- Two accepted readings that report the same offset, one millisecond, for which the
computed offset is below it (offsets and round-trip times in nanoseconds). -/
def equalOffsets : List ntpServer :=
  [{ address := "time.nist.gov", stratum := 1, rtt := 3000000, offset := 1000000 },
   { address := "time-a-g.nist.gov", stratum := 2, rtt := 7000000, offset := 1000000 }]

/-- Two accepted readings whose weights cancel, so that the weighting loop ends with
`totalWeight == 0`: the same stratum, and round-trip times of 5 ms and -5 ms. -/
def cancelling : List ntpServer :=
  [{ address := "time.nist.gov", stratum := 1, rtt := 5000000, offset := 30000001 },
   { address := "time-a-g.nist.gov", stratum := 1, rtt := -5000000, offset := -10000000 }]

/-- Two readings as in `cancelling`, both with the offset `2 ^ 62` ns. -/
def cancellingLarge : List ntpServer :=
  [{ address := "time.nist.gov", stratum := 1, rtt := 5000000, offset := 4611686018427387904 },
   { address := "time-a-g.nist.gov", stratum := 1, rtt := -5000000,
     offset := 4611686018427387904 }]

/-- Two accepted readings with a round-trip time of 5 ms and the offset `2 ^ 62` ns. -/
def largeOffsets : List ntpServer :=
  [{ address := "time.nist.gov", stratum := 1, rtt := 5000000, offset := 4611686018427387904 },
   { address := "time-a-g.nist.gov", stratum := 1, rtt := 5000000,
     offset := 4611686018427387904 }]

/-! ## the timestamp layout -/

/-- Modelled from the spec: the leap years of the calendar in which the timestamp is
written.  The timestamp is produced by `Time.Format(time.RFC3339)` of the Go standard
library, which is not among the sources; this and the following definitions model the
ISO-8601 / RFC 3339 layout with a `Z` or numeric zone offset that the specification
names, the way that library computes it. -/
def isLeap (year : Int) : Bool :=
  decide (year % 4 = 0 ∧ (year % 100 ≠ 0 ∨ year % 400 = 0))

/-- Modelled from the spec: the number of days of a non-leap year before the end of
month `m` (`0` for `m = 0`, `365` for `m = 12`). -/
def daysBefore (m : Int) : Int :=
  if m ≤ 0 then 0 else if m = 1 then 31 else if m = 2 then 59 else if m = 3 then 90
  else if m = 4 then 120 else if m = 5 then 151 else if m = 6 then 181
  else if m = 7 then 212 else if m = 8 then 243 else if m = 9 then 273
  else if m = 10 then 304 else if m = 11 then 334 else 365

/-- Modelled from the spec: the number of days of month `m` of `year`. -/
def daysIn (m year : Int) : Int :=
  if m = 2 ∧ isLeap year = true then 29 else daysBefore m - daysBefore (m - 1)

/-- Modelled from the spec: the year and the day within the year (from zero) of the
day numbered `d`, counted from 1 January of year 1, by cutting off cycles of 400, 100,
4 and 1 years. -/
def absYear (d : Int) : Int × Int :=
  let n400 := d / 146097
  let d1 := d - 146097 * n400
  let c := d1 / 36524
  let n100 := c - c / 4
  let d2 := d1 - 36524 * n100
  let n4 := d2 / 1461
  let d3 := d2 - 1461 * n4
  let q := d3 / 365
  let n1 := q - q / 4
  (400 * n400 + 100 * n100 + 4 * n4 + n1 + 1, d3 - 365 * n1)

/-- Modelled from the spec: the month and the day of the month of day `yday` (from
zero) of a leap or non-leap year. -/
def monthDay (leap : Bool) (yday : Int) : Int × Int :=
  if leap = true ∧ yday = 59 then (2, 29)
  else
    let day := if leap = true ∧ yday > 59 then yday - 1 else yday
    let month := day / 31
    let e := daysBefore (month + 1)
    if day ≥ e then (month + 2, day - e + 1) else (month + 1, day - daysBefore month + 1)

/-- Modelled from the spec: year, month and day of the day numbered `d`, counted from
1 January of year 1. -/
def absDate (d : Int) : Int × Int × Int :=
  let yy := absYear d
  let md := monthDay (isLeap yy.1) yy.2
  (yy.1, md.1, md.2)

/-- Modelled from the spec: the number of days from 1 January of year 1 to 1 January
of `year`. -/
def daysSinceEpoch (year : Int) : Int :=
  let y := year - 1
  let n400 := y / 400
  let y1 := y - 400 * n400
  let n100 := y1 / 100
  let y2 := y1 - 100 * n100
  let n4 := y2 / 4
  let y3 := y2 - 4 * n4
  146097 * n400 + 36524 * n100 + 1461 * n4 + 365 * y3

/-- Modelled from the spec: the Unix time in seconds of a date and clock reading in
UTC with fields in their ranges (`time.Date` of the library); 719162 days lie between
1 January of year 1 and 1 January 1970. -/
def dateUnix (year month day hour min sec : Int) : Int :=
  let d := daysSinceEpoch year + daysBefore (month - 1) +
    (if isLeap year = true ∧ month ≥ 3 then 1 else 0) + (day - 1)
  (d - 719162) * 86400 + hour * 3600 + min * 60 + sec

/-- Modelled from the spec: the character of a decimal digit. -/
def digitChar (n : Nat) : Char := Char.ofNat (48 + n % 10)

/-- Modelled from the spec: the decimal representation of `x`, with a minus sign when
negative, padded with zeros to `width` digits (`appendInt` of the library, with its
separate paths for fields of two and four digits). -/
def appendInt (x : Int) (width : Nat) : List Char :=
  let u := x.natAbs
  let sign : List Char := if x < 0 then ['-'] else []
  if width = 2 ∧ u < 100 then sign ++ [digitChar (u / 10), digitChar (u % 10)]
  else if width = 4 ∧ u < 10000 then
    sign ++ [digitChar (u / 100 / 10), digitChar (u / 100 % 10),
      digitChar (u % 100 / 10), digitChar (u % 100 % 10)]
  else
    let ds := Nat.toDigits 10 u
    sign ++ (List.replicate (width - ds.length) '0' ++ ds)

/-- Modelled from the spec: the characters of the timestamp of the instant `unixSec`
(seconds since 1 January 1970 UTC) in a zone `offset` seconds east of UTC:
`YYYY-MM-DDTHH:MM:SS` in local time followed by `Z` when the offset is zero and
otherwise by the sign, hours and minutes of the offset. -/
def appendFormatRFC3339 (offset unixSec : Int) : List Char :=
  let abs := unixSec + offset
  let date := absDate (abs / 86400 + 719162)
  let clock := abs % 86400
  let b := appendInt date.1 4 ++ '-' :: appendInt date.2.1 2 ++ '-' :: appendInt date.2.2 2 ++
    'T' :: appendInt (clock / 3600) 2 ++ ':' :: appendInt (clock % 3600 / 60) 2 ++
    ':' :: appendInt (clock % 60) 2
  if offset = 0 then b ++ ['Z']
  else
    let zone := Int.tdiv offset 60
    let sign : Char := if zone < 0 then '-' else '+'
    let z : Int := if zone < 0 then -zone else zone
    b ++ sign :: appendInt (z / 60) 2 ++ ':' :: appendInt (z % 60) 2

/-- Modelled from the spec: `Time.Format(time.RFC3339)` for the instant `t`, in
nanoseconds since 1 January 1970 UTC, in a location whose zone offset at the Unix
time `s` is `loc s` seconds. -/
def formatRFC3339 (loc : Int → Int) (t : Int) : String :=
  String.mk (appendFormatRFC3339 (loc (t / 1000000000)) (t / 1000000000))

/-- Modelled from the spec: an unsigned decimal number within `lo .. hi`, or nothing
when a character is not a digit or the number is out of range. -/
def parseUint (s : List Char) (lo hi : Int) : Option Int :=
  let step : Option Int → Char → Option Int := fun acc c =>
    match acc with
    | none => none
    | some x => if c.toNat < 48 ∨ 57 < c.toNat then none else some (x * 10 + ((c.toNat - 48 : Nat) : Int))
  match s.foldl step (some 0) with
  | none => none
  | some x => if x < lo ∨ hi < x then none else some x

/-- Modelled from the spec: whether a character is a decimal digit. -/
def isDigit (c : Char) : Bool := decide (48 ≤ c.toNat ∧ c.toNat ≤ 57)

/-- Modelled from the spec: an optional fraction of a second at the head of `s`, a
period followed by digits; the nanoseconds (from at most nine digits) and the rest. -/
def parseFraction (s : List Char) : Int × List Char :=
  match s with
  | '.' :: c :: rest =>
    if isDigit c then
      let ds := (c :: rest).takeWhile isDigit
      let front := ds.take 9
      let ns := front.foldl (fun (x : Int) (d : Char) => x * 10 + ((d.toNat - 48 : Nat) : Int)) 0
      (ns * 10 ^ (9 - front.length), (c :: rest).dropWhile isDigit)
    else (0, s)
  | _ => (0, s)

/-- The result of parsing a timestamp: the instant in nanoseconds since 1 January
1970 UTC and the zone offset in seconds. -/
structure Parsed where
  unixNano : Int
  offset : Int
deriving DecidableEq, Repr

/-- Modelled from the spec: the zone designator, `Z` or sign, hours and minutes; the
result is the zone offset in seconds. -/
def parseZone (s : List Char) : Option Int :=
  match s with
  | ['Z'] => some 0
  | [sg, z1, z2, c3, z4, z5] =>
    match parseUint [z1, z2] 0 23, parseUint [z4, z5] 0 59 with
    | some hr, some mm =>
      if (sg = '-' ∨ sg = '+') ∧ c3 = ':' then
        some (if sg = '-' then -((hr * 60 + mm) * 60) else (hr * 60 + mm) * 60)
      else none
    | _, _ => none
  | _ => none

/-- Modelled from the spec: `time.Parse(time.RFC3339, s)`, the parser of the same
layout (the path of the library for this layout): four digits of the year from 0 to
9999, month, day of that month, `T`, hour, minute and second in their ranges, an
optional fraction of a second, and a zone designator.  Nothing is returned for a
string that is not of this form. -/
def parseRFC3339 (s : String) : Option Parsed :=
  match s.data with
  | y1 :: y2 :: y3 :: y4 :: c4 :: m1 :: m2 :: c7 :: d1 :: d2 :: c10 :: h1 :: h2 :: c13 ::
      n1 :: n2 :: c16 :: s1 :: s2 :: rest =>
    match parseUint [y1, y2, y3, y4] 0 9999, parseUint [m1, m2] 1 12 with
    | some year, some month =>
      match parseUint [d1, d2] 1 (daysIn month year), parseUint [h1, h2] 0 23,
        parseUint [n1, n2] 0 59, parseUint [s1, s2] 0 59 with
      | some day, some hour, some min, some sec =>
        if c4 = '-' ∧ c7 = '-' ∧ c10 = 'T' ∧ c13 = ':' ∧ c16 = ':' then
          let frac := parseFraction rest
          match parseZone frac.2 with
          | some zoneOffset =>
            some { unixNano := (dateUnix year month day hour min sec - zoneOffset) * 1000000000 +
                     frac.1,
                   offset := zoneOffset }
          | none => none
        else none
      | _, _, _, _ => none
    | _, _ => none
  | _ => none

/-- Function `getNTPTime` with the two results of the Go function side by side: the
string and the error (`none` for `nil`). -/
def getNTPTimeResult (w : World) (st : Sys) (server : String) :
    (String × Option String) × Sys :=
  let st1 : Sys := { st with calls := st.calls ++ [server] }
  match w.query st.calls.length server with
  | .error err => (("", some err), st1)
  | .ok response => ((w.format (w.now + response.ClockOffset), none), st1)

/-- The location UTC: zone offset zero at every instant. -/
def utc : Int → Int := fun _ => 0

/-- The timestamps that the layout can represent: the year of the local date is from
0 to 9999 and the zone offset is a whole number of minutes, less than a day. -/
def Representable (loc : Int → Int) (t : Int) : Prop :=
  -62167219200 ≤ t / 1000000000 + loc (t / 1000000000) ∧
  t / 1000000000 + loc (t / 1000000000) < 253402300800 ∧
  loc (t / 1000000000) % 60 = 0 ∧
  -86400 < loc (t / 1000000000) ∧ loc (t / 1000000000) < 86400

instance (loc : Int → Int) (t : Int) : Decidable (Representable loc t) := by
  unfold Representable
  infer_instance

/-- A sample environment whose timestamps are written in UTC: the first transport
call is answered, every later one times out. -/
def utcWorld : World :=
  { query := fun k _ =>
      if k = 0 then .ok { Stratum := 1, RTT := 10000000, ClockOffset := 50000000 }
      else .error "timeout"
    now := 1705321845000000000
    format := formatRFC3339 utc }

/-! ## the query loop -/

theorem queryStep_calls (w : World) (acc : Acquired) (server : String) :
    (queryStep w acc server).sys.calls = acc.sys.calls ++ [server] := by
  unfold queryStep
  cases w.query acc.sys.calls.length server with
  | error err => rfl
  | ok response => dsimp only; split <;> rfl

theorem queryStep_responses (w : World) (acc : Acquired) (server : String) :
    (queryStep w acc server).responses =
      acc.responses ++ acceptedFrom w acc.sys.calls.length [server] := by
  unfold queryStep
  cases h : w.query acc.sys.calls.length server with
  | error err => simp [acceptedFrom, h]
  | ok response =>
    dsimp only
    split <;> simp_all [acceptedFrom]

theorem queryStep_valid (w : World) (acc : Acquired) (server : String) :
    (queryStep w acc server).validResponses =
      acc.validResponses + (acceptedFrom w acc.sys.calls.length [server]).length := by
  unfold queryStep
  cases h : w.query acc.sys.calls.length server with
  | error err => simp [acceptedFrom, h]
  | ok response =>
    dsimp only
    split <;> simp_all [acceptedFrom]

theorem acceptedFrom_cons (w : World) (k : Nat) (server : String) (rest : List String) :
    acceptedFrom w k (server :: rest) =
      acceptedFrom w k [server] ++ acceptedFrom w (k + 1) rest := by
  simp only [acceptedFrom]
  cases w.query k server with
  | error err => simp
  | ok response => dsimp only; split <;> simp

theorem queryLoop_calls (w : World) (roster : List String) (acc : Acquired) :
    (queryLoop w acc roster).sys.calls = acc.sys.calls ++ roster := by
  induction roster generalizing acc with
  | nil => simp [queryLoop]
  | cons server rest ih =>
    have := ih (queryStep w acc server)
    simp only [queryLoop, List.foldl_cons] at this ⊢
    rw [this, queryStep_calls]; simp

theorem queryLoop_responses (w : World) (roster : List String) (acc : Acquired) :
    (queryLoop w acc roster).responses =
      acc.responses ++ acceptedFrom w acc.sys.calls.length roster := by
  induction roster generalizing acc with
  | nil => simp [queryLoop, acceptedFrom]
  | cons server rest ih =>
    have := ih (queryStep w acc server)
    simp only [queryLoop, List.foldl_cons] at this ⊢
    rw [this, queryStep_responses, queryStep_calls, acceptedFrom_cons w _ server rest]
    simp

theorem queryLoop_valid (w : World) (roster : List String) (acc : Acquired) :
    (queryLoop w acc roster).validResponses =
      acc.validResponses + (acceptedFrom w acc.sys.calls.length roster).length := by
  induction roster generalizing acc with
  | nil => simp [queryLoop, acceptedFrom]
  | cons server rest ih =>
    have := ih (queryStep w acc server)
    simp only [queryLoop, List.foldl_cons] at this ⊢
    rw [this, queryStep_valid, queryStep_calls, acceptedFrom_cons w _ server rest]
    simp; omega

/-! ## the ranking -/

theorem lexLE_refl (a : ntpServer) : lexLE a a := Or.inr ⟨rfl, le_refl _⟩

theorem lexLE_trans {a b c : ntpServer} (h₁ : lexLE a b) (h₂ : lexLE b c) : lexLE a c := by
  unfold lexLE at *
  omega

theorem lexLE_of_less {a b : ntpServer} (h : less a b = true) : lexLE a b := by
  unfold less at h
  unfold lexLE
  split at h <;> simp at h <;> omega

theorem lexLE_of_not_less {a b : ntpServer} (h : less a b = false) : lexLE b a := by
  unfold less at h
  unfold lexLE
  split at h <;> simp at h <;> omega

theorem sinkLeft_perm (x : ntpServer) (l : List ntpServer) :
    (sinkLeft x l).Perm (x :: l) := by
  induction l with
  | nil => simp [sinkLeft]
  | cons y ys ih =>
    simp only [sinkLeft]
    split
    · exact ((List.Perm.cons y ih).trans (List.Perm.swap x y ys))
    · exact List.Perm.refl _

theorem sinkLeft_sorted (x : ntpServer) (l : List ntpServer)
    (h : l.Pairwise (fun a b => lexLE b a)) :
    (sinkLeft x l).Pairwise (fun a b => lexLE b a) := by
  induction l with
  | nil => simp [sinkLeft]
  | cons y ys ih =>
    rw [List.pairwise_cons] at h
    simp only [sinkLeft]
    split
    · rename_i hlt
      rw [List.pairwise_cons]
      refine ⟨?_, ih h.2⟩
      intro z hz
      rcases (List.mem_cons.mp ((sinkLeft_perm x ys).mem_iff.mp hz)) with hzx | hzy
      · subst hzx; exact lexLE_of_less hlt
      · exact h.1 z hzy
    · rename_i hlt
      have hyx : lexLE y x := lexLE_of_not_less (by simpa using hlt)
      rw [List.pairwise_cons]
      refine ⟨?_, List.pairwise_cons.mpr h⟩
      intro z hz
      rcases List.mem_cons.mp hz with hzy | hzy
      · subst hzy; exact hyx
      · exact lexLE_trans (h.1 z hzy) hyx

theorem sortFold_perm (l init : List ntpServer) :
    (l.foldl (fun sortedRev x => sinkLeft x sortedRev) init).Perm (l ++ init) := by
  induction l generalizing init with
  | nil => simp
  | cons x xs ih =>
    simp only [List.foldl_cons]
    refine (ih (sinkLeft x init)).trans ?_
    refine (List.Perm.append_left xs (sinkLeft_perm x init)).trans ?_
    simp

theorem sortFold_sorted (l init : List ntpServer)
    (h : init.Pairwise (fun a b => lexLE b a)) :
    (l.foldl (fun sortedRev x => sinkLeft x sortedRev) init).Pairwise
      (fun a b => lexLE b a) := by
  induction l generalizing init with
  | nil => simpa using h
  | cons x xs ih =>
    simp only [List.foldl_cons]
    exact ih _ (sinkLeft_sorted x init h)

theorem sortSlice_perm (l : List ntpServer) : (sortSlice l).Perm l := by
  unfold sortSlice
  refine (List.reverse_perm _).trans ?_
  simpa using sortFold_perm l []

theorem sortSlice_sorted (l : List ntpServer) : (sortSlice l).Pairwise lexLE := by
  unfold sortSlice
  rw [List.pairwise_reverse]
  exact sortFold_sorted l [] List.Pairwise.nil

theorem sortSlice_length (l : List ntpServer) : (sortSlice l).length = l.length :=
  (sortSlice_perm l).length_eq

namespace F64

/-! ## binary64: rounding lemmas -/

theorem log2Fuel_spec (fuel n : Nat) (hn : n ≠ 0) (hf : n ≤ fuel) :
    2 ^ log2Fuel fuel n ≤ n ∧ n < 2 ^ (log2Fuel fuel n + 1) := by
  induction fuel generalizing n with
  | zero => omega
  | succ fuel ih =>
    unfold log2Fuel
    split
    · constructor <;> simp <;> omega
    · have h2 : n / 2 ≠ 0 := by omega
      have := ih (n / 2) h2 (by omega)
      rw [pow_succ, pow_succ]
      omega

theorem log2_spec (n : Nat) (hn : n ≠ 0) : 2 ^ log2 n ≤ n ∧ n < 2 ^ (log2 n + 1) :=
  log2Fuel_spec n n hn (le_refl n)

theorem log2_eq (n k : Nat) (h₁ : 2 ^ k ≤ n) (h₂ : n < 2 ^ (k + 1)) : log2 n = k := by
  have hn : n ≠ 0 := by
    have : 0 < 2 ^ k := by positivity
    omega
  obtain ⟨h₃, h₄⟩ := log2_spec n hn
  have a : log2 n < k + 1 := (Nat.pow_lt_pow_iff_right (by norm_num)).mp (lt_of_le_of_lt h₃ h₂)
  have b : k < log2 n + 1 := (Nat.pow_lt_pow_iff_right (by norm_num)).mp (lt_of_le_of_lt h₁ h₄)
  omega

theorem roundNat_err (N D : Nat) (hD : 0 < D) :
    |((roundNat N D : ℕ) : ℚ) - (N : ℚ) / D| ≤ 1 / 2 := by
  have hD' : (0 : ℚ) < D := by exact_mod_cast hD
  have hdm : (N : ℚ) = (D : ℚ) * ((N / D : ℕ) : ℚ) + ((N % D : ℕ) : ℚ) := by
    exact_mod_cast (Nat.div_add_mod N D).symm
  have hr : ((N % D : ℕ) : ℚ) < D := by exact_mod_cast Nat.mod_lt N hD
  have hr0 : (0 : ℚ) ≤ ((N % D : ℕ) : ℚ) := by positivity
  have key : (N : ℚ) / D = ((N / D : ℕ) : ℚ) + ((N % D : ℕ) : ℚ) / D := by
    rw [hdm]; field_simp; ring
  rw [key, abs_le]
  unfold roundNat
  dsimp only
  have e1 : ∀ h : 2 * (N % D) < D, ((N % D : ℕ) : ℚ) / D ≤ 1 / 2 := by
    intro h
    rw [div_le_iff₀ hD']
    have : (2 : ℚ) * ((N % D : ℕ) : ℚ) < D := by exact_mod_cast h
    linarith
  have e2 : ∀ h : D ≤ 2 * (N % D), (1 : ℚ) / 2 ≤ ((N % D : ℕ) : ℚ) / D := by
    intro h
    rw [le_div_iff₀ hD']
    have : (D : ℚ) ≤ (2 : ℚ) * ((N % D : ℕ) : ℚ) := by exact_mod_cast h
    linarith
  have e3 : ((N % D : ℕ) : ℚ) / D < 1 := by
    rw [div_lt_one hD']; exact hr
  have e4 : (0 : ℚ) ≤ ((N % D : ℕ) : ℚ) / D := by positivity
  split
  · rename_i h
    have := e1 h
    constructor <;> linarith
  · rename_i h
    split
    · rename_i h'
      have := e2 (by omega)
      push_cast
      constructor <;> linarith
    · rename_i h'
      have h1 := e2 (by omega)
      have h2 : ((N % D : ℕ) : ℚ) / D ≤ 1 / 2 := by
        rw [div_le_iff₀ hD']
        have : (2 : ℚ) * ((N % D : ℕ) : ℚ) ≤ D := by exact_mod_cast (show 2 * (N % D) ≤ D by omega)
        linarith
      split
      · constructor <;> linarith
      · push_cast
        constructor <;> linarith


theorem ilog2_spec (a d : Nat) (ha : a ≠ 0) (hd : d ≠ 0) :
    (2 : ℚ) ^ ilog2 a d ≤ (a : ℚ) / d ∧ (a : ℚ) / d < (2 : ℚ) ^ (ilog2 a d + 1) := by
  obtain ⟨a1, a2⟩ := log2_spec a ha
  obtain ⟨d1, d2⟩ := log2_spec d hd
  have hd' : (0 : ℚ) < d := by exact_mod_cast Nat.pos_of_ne_zero hd
  have qa1 : (2 : ℚ) ^ log2 a ≤ a := by exact_mod_cast a1
  have qa2 : (a : ℚ) < 2 ^ (log2 a + 1) := by exact_mod_cast a2
  have qd1 : (2 : ℚ) ^ log2 d ≤ d := by exact_mod_cast d1
  have qd2 : (d : ℚ) < 2 ^ (log2 d + 1) := by exact_mod_cast d2
  have pa : (0 : ℚ) < 2 ^ log2 a := by positivity
  have pd : (0 : ℚ) < 2 ^ log2 d := by positivity
  have two : (2 : ℚ) ≠ 0 := two_ne_zero
  have z1 : (2 : ℚ) ^ ((log2 a : ℤ) - (log2 d : ℤ)) = 2 ^ log2 a / 2 ^ log2 d := by
    rw [zpow_sub₀ two, zpow_natCast, zpow_natCast]
  have z2 : (2 : ℚ) ^ ((log2 a : ℤ) - (log2 d : ℤ) + 1) = 2 ^ (log2 a + 1) / 2 ^ log2 d := by
    rw [show ((log2 a : ℤ) - (log2 d : ℤ) + 1) = ((log2 a + 1 : ℕ) : ℤ) - (log2 d : ℤ) by
      push_cast; ring]
    rw [zpow_sub₀ two, zpow_natCast, zpow_natCast]
  have z3 : (2 : ℚ) ^ ((log2 a : ℤ) - (log2 d : ℤ) - 1) = 2 ^ log2 a / 2 ^ (log2 d + 1) := by
    rw [show ((log2 a : ℤ) - (log2 d : ℤ) - 1) = (log2 a : ℤ) - ((log2 d + 1 : ℕ) : ℤ) by
      push_cast; ring]
    rw [zpow_sub₀ two, zpow_natCast, zpow_natCast]
  unfold ilog2
  split
  · rename_i h
    have hq : (d : ℚ) * 2 ^ log2 a ≤ a * 2 ^ log2 d := by exact_mod_cast h
    rw [z1, z2]
    constructor
    · rw [div_le_div_iff₀ pd hd']; linarith
    · rw [div_lt_div_iff₀ hd' pd]
      have : (a : ℚ) * 2 ^ log2 d < 2 ^ (log2 a + 1) * 2 ^ log2 d :=
        mul_lt_mul_of_pos_right qa2 pd
      have : (2 : ℚ) ^ (log2 a + 1) * 2 ^ log2 d ≤ 2 ^ (log2 a + 1) * d :=
        mul_le_mul_of_nonneg_left qd1 (by positivity)
      linarith
  · rename_i h
    have hq : (a : ℚ) * 2 ^ log2 d < d * 2 ^ log2 a := by
      exact_mod_cast (show a * 2 ^ log2 d < d * 2 ^ log2 a by omega)
    rw [show ((log2 a : ℤ) - (log2 d : ℤ) - 1 + 1) = (log2 a : ℤ) - (log2 d : ℤ) by ring]
    rw [z1, z3]
    constructor
    · rw [div_le_div_iff₀ (by positivity) hd']
      have : (2 : ℚ) ^ log2 a * d ≤ a * d := mul_le_mul_of_nonneg_right qa1 hd'.le
      have : (a : ℚ) * d ≤ a * 2 ^ (log2 d + 1) :=
        mul_le_mul_of_nonneg_left qd2.le (by positivity)
      linarith
    · rw [div_lt_div_iff₀ hd' pd]; linarith

theorem scaledRound_err (a d : Nat) (s : Int) (hd : d ≠ 0) :
    |((scaledRound a d s : ℕ) : ℚ) - (a : ℚ) / d / (2 : ℚ) ^ s| ≤ 1 / 2 := by
  have hd' : 0 < d := Nat.pos_of_ne_zero hd
  unfold scaledRound
  split
  · rename_i h
    have hs : s = ((s.toNat : ℕ) : ℤ) := (Int.toNat_of_nonneg h).symm
    have := roundNat_err a (d * 2 ^ s.toNat) (by positivity)
    rw [hs, zpow_natCast, div_div]
    rw [← hs]
    push_cast at this
    exact this
  · rename_i h
    have hs : s = -((((-s).toNat : ℕ)) : ℤ) := by
      rw [Int.toNat_of_nonneg (by omega)]; ring
    have := roundNat_err (a * 2 ^ (-s).toNat) d hd'
    have e : (a : ℚ) / d / (2 : ℚ) ^ s = ((a * 2 ^ (-s).toNat : ℕ) : ℚ) / d := by
      rw [hs, zpow_neg, zpow_natCast]
      rw [← hs]
      push_cast
      field_simp
    rw [e]
    exact this

theorem toRat_norm (neg : Bool) (q : Nat) (s : Int) :
    toRat (norm neg q s) = (if neg then -1 else 1) * (q : ℚ) * (2 : ℚ) ^ s := by
  unfold norm
  by_cases hq : q = 2 ^ 53
  · simp only [hq, if_true]
    have : (2 : ℚ) ^ (s + 1) = 2 ^ s * 2 := by
      rw [zpow_add₀ two_ne_zero, zpow_one]
    cases neg <;> simp [toRat, this] <;> ring
  · simp only [hq, if_false]
    cases neg <;> simp [toRat]


theorem toRat_zero : toRat zero = 0 := by simp [toRat, zero]

theorem roundQ_zero (d : Nat) (x : Int) : roundQ 0 d x = zero := by simp [roundQ]

theorem roundQ_ne (n : Int) (d : Nat) (x : Int) (hn : n ≠ 0) :
    roundQ n d x =
      norm (decide (n < 0)) (scaledRound n.natAbs d (ilog2 n.natAbs d - 52))
        (ilog2 n.natAbs d - 52 + x) := by
  simp [roundQ, hn]

theorem scaledRound_bounds (a d : Nat) (ha : a ≠ 0) (hd : d ≠ 0) :
    2 ^ 52 ≤ scaledRound a d (ilog2 a d - 52) ∧ scaledRound a d (ilog2 a d - 52) ≤ 2 ^ 53 := by
  obtain ⟨h1, h2⟩ := ilog2_spec a d ha hd
  have err := scaledRound_err a d (ilog2 a d - 52) hd
  have P : (0 : ℚ) < (2 : ℚ) ^ (ilog2 a d - 52) := by positivity
  have e1 : (2 : ℚ) ^ ilog2 a d = (2 : ℚ) ^ (ilog2 a d - 52) * 2 ^ 52 := by
    rw [zpow_sub₀ two_ne_zero]; norm_num
  have e2 : (2 : ℚ) ^ (ilog2 a d + 1) = (2 : ℚ) ^ (ilog2 a d - 52) * 2 ^ 53 := by
    rw [zpow_add₀ two_ne_zero, zpow_sub₀ two_ne_zero]; norm_num; ring
  have r1 : (2 : ℚ) ^ 52 ≤ (a : ℚ) / d / (2 : ℚ) ^ (ilog2 a d - 52) := by
    rw [le_div_iff₀ P]; rw [e1] at h1; linarith
  have r2 : (a : ℚ) / d / (2 : ℚ) ^ (ilog2 a d - 52) < (2 : ℚ) ^ 53 := by
    rw [div_lt_iff₀ P]; rw [e2] at h2; linarith
  rw [abs_le] at err
  constructor
  · by_contra hlt
    have hlt' : scaledRound a d (ilog2 a d - 52) + 1 ≤ 2 ^ 52 := by omega
    have : ((scaledRound a d (ilog2 a d - 52) : ℕ) : ℚ) + 1 ≤ 2 ^ 52 := by exact_mod_cast hlt'
    linarith [err.1]
  · by_contra hlt
    have hlt' : 2 ^ 53 + 1 ≤ scaledRound a d (ilog2 a d - 52) := by omega
    have : (2 : ℚ) ^ 53 + 1 ≤ ((scaledRound a d (ilog2 a d - 52) : ℕ) : ℚ) := by
      exact_mod_cast hlt'
    linarith [err.2]

theorem norm_canonical (neg : Bool) (q : Nat) (s : Int) (h1 : 2 ^ 52 ≤ q) (h2 : q ≤ 2 ^ 53) :
    Canonical (norm neg q s) := by
  unfold norm Canonical
  right
  by_cases hq : q = 2 ^ 53
  · simp only [hq, if_true]
    cases neg <;> simp
  · simp only [hq, if_false]
    cases neg <;> simp <;> omega

theorem roundQ_canonical (n : Int) (d : Nat) (x : Int) (hd : d ≠ 0) :
    Canonical (roundQ n d x) := by
  by_cases hn : n = 0
  · subst hn; rw [roundQ_zero]; left; simp [zero]
  · rw [roundQ_ne n d x hn]
    have ha : n.natAbs ≠ 0 := by simpa using hn
    obtain ⟨h1, h2⟩ := scaledRound_bounds n.natAbs d ha hd
    exact norm_canonical _ _ _ h1 h2

/-- The value of a rounded nonzero quantity: sign, 53-bit significand, exponent. -/
theorem roundQ_toRat (n : Int) (d : Nat) (x : Int) (hn : n ≠ 0) :
    toRat (roundQ n d x) =
      (if n < 0 then -1 else 1) * ((scaledRound n.natAbs d (ilog2 n.natAbs d - 52) : ℕ) : ℚ) *
        (2 : ℚ) ^ (ilog2 n.natAbs d - 52 + x) := by
  rw [roundQ_ne n d x hn, toRat_norm]
  by_cases h : n < 0 <;> simp [h]

theorem cast_eq_sign_mul (n : Int) :
    (n : ℚ) = (if n < 0 then -1 else 1) * ((n.natAbs : ℕ) : ℚ) := by
  have h : ((n.natAbs : ℕ) : ℚ) = |(n : ℚ)| := by rw [Nat.cast_natAbs, Int.cast_abs]
  rw [h]
  by_cases hn : n < 0
  · have : (n : ℚ) < 0 := by exact_mod_cast hn
    simp only [hn, if_true]
    rw [abs_of_neg this]; ring
  · have : (0 : ℚ) ≤ n := by exact_mod_cast (not_lt.mp hn)
    simp only [hn, if_false]
    rw [abs_of_nonneg this]; ring

/-- Rounding error: at most `2 ^ (-53)` relative to the exact value. -/
theorem roundQ_err (n : Int) (d : Nat) (x : Int) (hd : d ≠ 0) :
    |toRat (roundQ n d x) - (n : ℚ) / d * (2 : ℚ) ^ x| ≤ |(n : ℚ) / d * (2 : ℚ) ^ x| / 2 ^ 53 := by
  by_cases hn : n = 0
  · subst hn; simp [roundQ_zero, toRat_zero]
  · have ha : n.natAbs ≠ 0 := by simpa using hn
    obtain ⟨h1, _⟩ := ilog2_spec n.natAbs d ha hd
    have err := scaledRound_err n.natAbs d (ilog2 n.natAbs d - 52) hd
    rw [roundQ_toRat n d x hn]
    set q : ℚ := ((scaledRound n.natAbs d (ilog2 n.natAbs d - 52) : ℕ) : ℚ) with hq
    set r : ℚ := ((n.natAbs : ℕ) : ℚ) / d with hr
    set P : ℚ := (2 : ℚ) ^ (ilog2 n.natAbs d - 52) with hP
    set X : ℚ := (2 : ℚ) ^ x with hX
    set σ : ℚ := (if n < 0 then -1 else 1) with hσ
    have Ppos : 0 < P := by positivity
    have Xpos : 0 < X := by positivity
    have e1 : (2 : ℚ) ^ ilog2 n.natAbs d = P * 2 ^ 52 := by
      rw [hP, zpow_sub₀ two_ne_zero]; norm_num
    have e2 : (2 : ℚ) ^ (ilog2 n.natAbs d - 52 + x) = P * X := by
      rw [zpow_add₀ two_ne_zero]
    have e3 : (n : ℚ) / d = σ * r := by
      rw [hr, hσ, cast_eq_sign_mul n]; ring
    have σabs : |σ| = 1 := by
      rw [hσ]; by_cases h : n < 0 <;> simp [h]
    have rpos : 0 ≤ r := by positivity
    rw [e1] at h1
    rw [e2, e3]
    have d1 : σ * q * (P * X) - σ * r * X = σ * (P * X) * (q - r / P) := by
      field_simp; ring
    have lhs : |σ * (P * X) * (q - r / P)| = P * X * |q - r / P| := by
      rw [abs_mul, abs_mul, σabs, abs_of_pos (mul_pos Ppos Xpos)]; ring
    have rhs : |σ * r * X| = r * X := by
      rw [abs_mul, abs_mul, σabs, abs_of_pos Xpos, abs_of_nonneg rpos]; ring
    rw [d1, lhs, rhs]
    have : P * X * |q - r / P| ≤ P * X * (1 / 2) :=
      mul_le_mul_of_nonneg_left err (by positivity)
    have : P * 2 ^ 52 * X ≤ r * X := mul_le_mul_of_nonneg_right h1 Xpos.le
    rw [le_div_iff₀ (by positivity)]
    nlinarith


/-! ## binary64: the operations -/

theorem toRat_eq_zero_iff (f : F64) : toRat f = 0 ↔ f.man = 0 := by
  unfold toRat
  have : (2 : ℚ) ^ f.exp ≠ 0 := by positivity
  constructor
  · intro h
    rcases mul_eq_zero.mp h with h | h
    · exact_mod_cast h
    · exact absurd h this
  · intro h; simp [h]

theorem isZero_iff (f : F64) : f.isZero = true ↔ toRat f = 0 := by
  rw [toRat_eq_zero_iff]; simp [isZero]

theorem toRat_one : toRat one = 1 := by simp [toRat, one]

theorem Near.ne_zero {a b : ℚ} (h : Near a b) (hb : b ≠ 0) : a ≠ 0 := by
  intro ha
  unfold Near at h
  rw [ha, zero_sub, abs_neg] at h
  have hb' : 0 < |b| := abs_pos.mpr hb
  have : |b| / 2 ^ 53 < |b| := by
    rw [div_lt_iff₀ (by positivity)]
    nlinarith
  linarith

theorem Near.pos_of_pos {a b : ℚ} (h : Near a b) (hb : 0 < b) : 0 < a := by
  unfold Near at h
  rw [abs_of_pos hb, abs_le] at h
  have : b / 2 ^ 53 < b := by
    rw [div_lt_iff₀ (by positivity)]
    nlinarith
  linarith [h.1]

theorem ofInt_near (i : Int) : Near (toRat (ofInt i)) i := by
  have := roundQ_err i 1 0 one_ne_zero
  simpa [Near, ofInt] using this

theorem mul_near (a b : F64) : Near (toRat (mul a b)) (toRat a * toRat b) := by
  have := roundQ_err (a.man * b.man) 1 (a.exp + b.exp) one_ne_zero
  have e : ((a.man * b.man : ℤ) : ℚ) / ((1 : ℕ) : ℚ) * (2 : ℚ) ^ (a.exp + b.exp) =
      toRat a * toRat b := by
    unfold toRat
    rw [zpow_add₀ two_ne_zero]; push_cast; ring
  rw [e] at this
  exact this

theorem div_near (a b : F64) (hb : b.man ≠ 0) : Near (toRat (div a b)) (toRat a / toRat b) := by
  have hd : b.man.natAbs ≠ 0 := by simpa using hb
  have := roundQ_err (if b.man < 0 then -a.man else a.man) b.man.natAbs (a.exp - b.exp) hd
  have e : (((if b.man < 0 then -a.man else a.man : ℤ)) : ℚ) / ((b.man.natAbs : ℕ) : ℚ) *
      (2 : ℚ) ^ (a.exp - b.exp) = toRat a / toRat b := by
    unfold toRat
    have hb' : (b.man : ℚ) ≠ 0 := by exact_mod_cast hb
    have h2 : (2 : ℚ) ^ b.exp ≠ 0 := by positivity
    have hab : ((b.man.natAbs : ℕ) : ℚ) = |(b.man : ℚ)| := by
      rw [Nat.cast_natAbs, Int.cast_abs]
    rw [zpow_sub₀ two_ne_zero, hab]
    by_cases h : b.man < 0
    · have : (b.man : ℚ) < 0 := by exact_mod_cast h
      simp only [h, if_true]
      rw [abs_of_neg this]
      push_cast
      field_simp
    · have : (0 : ℚ) ≤ b.man := by exact_mod_cast (not_lt.mp h)
      simp only [h, if_false]
      rw [abs_of_nonneg this]
      field_simp
  rw [e] at this
  exact this

theorem add_near (a b : F64) : Near (toRat (add a b)) (toRat a + toRat b) := by
  have := roundQ_err (a.man * 2 ^ (a.exp - min a.exp b.exp).toNat +
    b.man * 2 ^ (b.exp - min a.exp b.exp).toNat) 1 (min a.exp b.exp) one_ne_zero
  have e : ((a.man * 2 ^ (a.exp - min a.exp b.exp).toNat +
      b.man * 2 ^ (b.exp - min a.exp b.exp).toNat : ℤ) : ℚ) / ((1 : ℕ) : ℚ) *
      (2 : ℚ) ^ (min a.exp b.exp) = toRat a + toRat b := by
    have pa : (2 : ℚ) ^ a.exp =
        2 ^ (a.exp - min a.exp b.exp).toNat * 2 ^ (min a.exp b.exp) := by
      rw [← zpow_natCast, ← zpow_add₀ two_ne_zero, Int.toNat_of_nonneg (by omega)]
      congr 1; ring
    have pb : (2 : ℚ) ^ b.exp =
        2 ^ (b.exp - min a.exp b.exp).toNat * 2 ^ (min a.exp b.exp) := by
      rw [← zpow_natCast, ← zpow_add₀ two_ne_zero, Int.toNat_of_nonneg (by omega)]
      congr 1; ring
    unfold toRat
    rw [pa, pb]
    push_cast
    ring
  rw [e] at this
  exact this

theorem mul_canonical (a b : F64) : Canonical (mul a b) := roundQ_canonical _ _ _ one_ne_zero

theorem add_canonical (a b : F64) : Canonical (add a b) := roundQ_canonical _ _ _ one_ne_zero

theorem ofInt_canonical (i : Int) : Canonical (ofInt i) := roundQ_canonical _ _ _ one_ne_zero

theorem div_canonical (a b : F64) (hb : b.man ≠ 0) : Canonical (div a b) :=
  roundQ_canonical _ _ _ (by simpa using hb)


theorem roundNat_exact (q D : Nat) (hD : 0 < D) : roundNat (q * D) D = q := by
  unfold roundNat
  have h1 : q * D / D = q := Nat.mul_div_cancel q hD
  have h2 : q * D % D = 0 := Nat.mul_mod_left q D
  simp only [h1, h2]
  simp [hD]

/-- Rounding a value that already has a 53-bit significand returns it unchanged. -/
theorem roundQ_exact (m : Int) (j : Nat) (x : Int)
    (h1 : 2 ^ 52 ≤ m.natAbs) (h2 : m.natAbs < 2 ^ 53) :
    roundQ (m * 2 ^ j) 1 x = ⟨m, j + x⟩ := by
  have hm : m ≠ 0 := by
    intro h; subst h; simp at h1
  have hpow : (2 : ℤ) ^ j ≠ 0 := by positivity
  have hn : m * 2 ^ j ≠ 0 := mul_ne_zero hm hpow
  have habs : (m * 2 ^ j).natAbs = m.natAbs * 2 ^ j := by
    rw [Int.natAbs_mul, Int.natAbs_pow]; rfl
  have hlog : log2 (m.natAbs * 2 ^ j) = 52 + j := by
    apply log2_eq
    · rw [pow_add]; exact Nat.mul_le_mul_right _ h1
    · rw [show 52 + j + 1 = 53 + j by omega, pow_add]
      exact Nat.mul_lt_mul_of_pos_right h2 (by positivity)
  have hlog1 : log2 1 = 0 := log2_eq 1 0 (by norm_num) (by norm_num)
  have hil : ilog2 (m.natAbs * 2 ^ j) 1 = 52 + j := by
    unfold ilog2
    rw [hlog, hlog1]
    have : 1 * 2 ^ (52 + j) ≤ m.natAbs * 2 ^ j * 2 ^ 0 := by
      rw [pow_add]; simpa using Nat.mul_le_mul_right (2 ^ j) h1
    simp only [this, if_true]
    push_cast; ring
  have hsr : scaledRound (m.natAbs * 2 ^ j) 1 (52 + (j : ℤ) - 52) = m.natAbs := by
    unfold scaledRound
    have : (52 + (j : ℤ) - 52) = (j : ℤ) := by ring
    rw [this]
    simp only [Int.natCast_nonneg, if_true, Int.toNat_ofNat, one_mul]
    exact roundNat_exact _ _ (by positivity)
  rw [roundQ_ne _ _ _ hn, habs, hil, hsr]
  unfold norm
  have hq : ¬ m.natAbs = 2 ^ 53 := by omega
  simp only [hq, if_false]
  have hsign : (m * 2 ^ j < 0) ↔ m < 0 := by
    constructor
    · intro h
      by_contra hc
      have : 0 ≤ m * 2 ^ j := mul_nonneg (by omega) (by positivity)
      omega
    · intro h
      exact mul_neg_of_neg_of_pos h (by positivity)
  by_cases hneg : m < 0
  · have : m * 2 ^ j < 0 := hsign.mpr hneg
    simp only [this, decide_True, if_true]
    congr 1
    · omega
    · ring
  · have : ¬ m * 2 ^ j < 0 := fun h => hneg (hsign.mp h)
    simp only [this, decide_False]
    simp only [Bool.false_eq_true, if_false]
    congr 1
    · omega
    · ring

/-- Adding to zero is exact. -/
theorem add_zero_left (f : F64) (hf : Canonical f) : add zero f = f := by
  rcases hf with ⟨h1, h2⟩ | ⟨h1, h2⟩
  · have : f = zero := by
      cases f; simp only [zero] at *; simp_all
    subst this
    simp [add, zero, roundQ]
  · unfold add zero
    simp only [zero_mul, zero_add]
    have := roundQ_exact f.man (f.exp - min 0 f.exp).toNat (min 0 f.exp) h1 h2
    rw [this]
    cases f with
    | mk man exp =>
      simp only
      congr 1
      rw [Int.toNat_of_nonneg (by omega)]
      ring

theorem add_comm (a b : F64) : add a b = add b a := by
  unfold add
  simp only [min_comm a.exp b.exp]
  rw [Int.add_comm]


theorem tdiv_bounds_nonneg (a D : ℤ) (ha : 0 ≤ a) (hD : 0 < D) :
    0 ≤ a.tdiv D ∧ a.tdiv D * D ≤ a ∧ a < (a.tdiv D + 1) * D := by
  rw [Int.tdiv_eq_ediv ha hD.le]
  have h1 := Int.emod_add_ediv a D
  have h2 := Int.emod_nonneg a hD.ne'
  have h3 := Int.emod_lt_of_pos a hD
  have h4 : 0 ≤ a / D := Int.ediv_nonneg ha hD.le
  refine ⟨h4, ?_, ?_⟩ <;> nlinarith

/-- The integer part lies between zero and the value, less than one away from it. -/
theorem trunc_spec (f : F64) :
    (0 ≤ toRat f → 0 ≤ trunc f ∧ (trunc f : ℚ) ≤ toRat f ∧ toRat f < trunc f + 1) ∧
    (toRat f ≤ 0 → trunc f ≤ 0 ∧ toRat f ≤ trunc f ∧ (trunc f : ℚ) - 1 < toRat f) := by
  unfold trunc
  by_cases he : 0 ≤ f.exp
  · simp only [he, if_true]
    have hv : toRat f = ((f.man * 2 ^ f.exp.toNat : ℤ) : ℚ) := by
      unfold toRat
      push_cast
      rw [← zpow_natCast, Int.toNat_of_nonneg he]
    rw [hv]
    constructor
    · intro h
      refine ⟨by exact_mod_cast h, le_refl _, by linarith⟩
    · intro h
      refine ⟨by exact_mod_cast h, le_refl _, by linarith⟩
  · simp only [he, if_false]
    set m := (-f.exp).toNat with hm
    have hD : (0 : ℤ) < 2 ^ m := by positivity
    have hDq : (0 : ℚ) < 2 ^ m := by positivity
    have hv : toRat f = (f.man : ℚ) / 2 ^ m := by
      unfold toRat
      have : f.exp = -((m : ℕ) : ℤ) := by
        rw [hm, Int.toNat_of_nonneg (by omega)]; ring
      rw [this, zpow_neg, zpow_natCast]; rfl
    rw [hv]
    constructor
    · intro h
      have hman : 0 ≤ f.man := by
        have : (0 : ℚ) ≤ f.man := by
          have := mul_nonneg h hDq.le
          rwa [div_mul_cancel₀ _ hDq.ne'] at this
        exact_mod_cast this
      obtain ⟨b0, b1, b2⟩ := tdiv_bounds_nonneg f.man (2 ^ m) hman hD
      have c1 : ((f.man.tdiv (2 ^ m) : ℤ) : ℚ) * 2 ^ m ≤ f.man := by exact_mod_cast b1
      have c2 : (f.man : ℚ) < (((f.man.tdiv (2 ^ m) : ℤ) : ℚ) + 1) * 2 ^ m := by
        exact_mod_cast b2
      refine ⟨b0, ?_, ?_⟩
      · rw [le_div_iff₀ hDq]; exact c1
      · rw [div_lt_iff₀ hDq]; exact c2
    · intro h
      have hman : f.man ≤ 0 := by
        have : (f.man : ℚ) ≤ 0 := by
          have := mul_nonpos_of_nonpos_of_nonneg h hDq.le
          rwa [div_mul_cancel₀ _ hDq.ne'] at this
        exact_mod_cast this
      obtain ⟨b0, b1, b2⟩ := tdiv_bounds_nonneg (-f.man) (2 ^ m) (by omega) hD
      rw [Int.neg_tdiv] at b0 b1 b2
      have c1 : (-((f.man.tdiv (2 ^ m) : ℤ) : ℚ)) * 2 ^ m ≤ -(f.man : ℚ) := by
        exact_mod_cast b1
      have c2 : -(f.man : ℚ) < (-((f.man.tdiv (2 ^ m) : ℤ) : ℚ) + 1) * 2 ^ m := by
        exact_mod_cast b2
      refine ⟨by omega, ?_, ?_⟩
      · rw [div_le_iff₀ hDq]; linarith
      · rw [lt_div_iff₀ hDq]; linarith

/-- Conversion of a value less than one away from an integer `x`: the result is `x`, or
the neighbour of `x` on the side of zero. -/
theorem toInt64_near (f : F64) (x : ℤ) (hx : |x| < 2 ^ 62) (h : |toRat f - x| < 1) :
    toInt64 f = x ∨ (0 < x ∧ toInt64 f = x - 1) ∨ (x < 0 ∧ toInt64 f = x + 1) := by
  obtain ⟨sp, sn⟩ := trunc_spec f
  rw [abs_lt] at h hx
  have key : trunc f = x ∨ (0 < x ∧ trunc f = x - 1) ∨ (x < 0 ∧ trunc f = x + 1) := by
    rcases le_total 0 (toRat f) with hv | hv
    · obtain ⟨t0, t1, t2⟩ := sp hv
      have a1 : ((trunc f : ℤ) : ℚ) < (x : ℚ) + 1 := by linarith [h.2]
      have a2 : (x : ℚ) - 1 < (trunc f : ℚ) + 1 := by linarith [h.1]
      have a1' : trunc f < x + 1 := by exact_mod_cast a1
      have a2' : x - 1 < trunc f + 1 := by exact_mod_cast a2
      omega
    · obtain ⟨t0, t1, t2⟩ := sn hv
      have a1 : ((trunc f : ℤ) : ℚ) - 1 < (x : ℚ) + 1 := by linarith [h.2]
      have a2 : (x : ℚ) - 1 < (trunc f : ℚ) := by linarith [h.1]
      have a1' : trunc f - 1 < x + 1 := by exact_mod_cast a1
      have a2' : x - 1 < trunc f := by exact_mod_cast a2
      omega
  have hr : -2 ^ 63 ≤ trunc f ∧ trunc f < 2 ^ 63 := by
    have : (2 : ℤ) ^ 62 = 4611686018427387904 := by norm_num
    have : (2 : ℤ) ^ 63 = 9223372036854775808 := by norm_num
    omega
  unfold toInt64
  simp only [hr, and_self, if_true]
  exact key

theorem blt_iff (a b : F64) : blt a b = true ↔ toRat a < toRat b := by
  have pa : (2 : ℚ) ^ a.exp =
      2 ^ (a.exp - min a.exp b.exp).toNat * 2 ^ (min a.exp b.exp) := by
    rw [← zpow_natCast, ← zpow_add₀ two_ne_zero, Int.toNat_of_nonneg (by omega)]
    congr 1; ring
  have pb : (2 : ℚ) ^ b.exp =
      2 ^ (b.exp - min a.exp b.exp).toNat * 2 ^ (min a.exp b.exp) := by
    rw [← zpow_natCast, ← zpow_add₀ two_ne_zero, Int.toNat_of_nonneg (by omega)]
    congr 1; ring
  have hE : (0 : ℚ) < 2 ^ (min a.exp b.exp) := by positivity
  unfold blt toRat
  rw [pa, pb]
  simp only [decide_eq_true_eq]
  rw [← mul_assoc, ← mul_assoc, mul_lt_mul_right hE]
  constructor
  · intro h; exact_mod_cast h
  · intro h; exact_mod_cast h

end F64

/-! ## the consensus query as a whole -/

theorem acceptedFrom_eq_nil (w : World) (roster : List String) (k : Nat) :
    acceptedFrom w k roster = [] ↔
      ∀ i server, roster.get? i = some server → acceptedAt w (k + i) server = false := by
  induction roster generalizing k with
  | nil => simp [acceptedFrom]
  | cons s rest ih =>
    constructor
    · intro h i server hi
      cases i with
      | zero =>
        simp only [List.get?_cons_zero, Option.some.injEq] at hi
        subst hi
        simp only [acceptedFrom] at h
        unfold acceptedAt
        simp only [Nat.add_zero]
        cases hq : w.query k s with
        | error err => rfl
        | ok response =>
          rw [hq] at h
          dsimp only at h ⊢
          by_cases ha : accepts response = true
          · simp [ha] at h
          · simpa using ha
      | succ j =>
        simp only [List.get?_cons_succ] at hi
        have hrest : acceptedFrom w (k + 1) rest = [] := by
          simp only [acceptedFrom] at h
          cases hq : w.query k s with
          | error err => rw [hq] at h; exact h
          | ok response =>
            rw [hq] at h
            dsimp only at h
            by_cases ha : accepts response = true
            · simp [ha] at h
            · simpa [ha] using h
        have := (ih (k + 1)).mp hrest j server hi
        rwa [show k + 1 + j = k + (j + 1) by omega] at this
    · intro h
      have h0 := h 0 s (by simp)
      have hrest : acceptedFrom w (k + 1) rest = [] := by
        apply (ih (k + 1)).mpr
        intro i server hi
        have := h (i + 1) server (by simpa using hi)
        rwa [show k + (i + 1) = k + 1 + i by omega] at this
      simp only [acceptedFrom]
      unfold acceptedAt at h0
      simp only [Nat.add_zero] at h0
      cases hq : w.query k s with
      | error err => exact hrest
      | ok response =>
        rw [hq] at h0
        dsimp only at h0 ⊢
        simp [h0, hrest]

theorem finalOffset_value (l : List ntpServer) (hl : l ≠ []) :
    ∃ off, finalOffset l = Outcome.value off := by
  unfold finalOffset resolveOffset
  have : l.length ≠ 0 := by simpa using hl
  split
  · simp [this]
  · exact ⟨_, rfl⟩

theorem sortSlice_ne_nil (l : List ntpServer) (hl : l ≠ []) : sortSlice l ≠ [] := by
  intro h
  have := sortSlice_length l
  rw [h] at this
  exact hl (List.length_eq_zero.mp this.symm)

/-- The result of `getAccurateNTPTime` when no reading is accepted. -/
theorem getAccurateNTPTime_nil (w : World) (st : Sys)
    (h : acceptedFrom w st.calls.length servers = []) :
    (getAccurateNTPTime w st).1 = Outcome.error noReliable := by
  unfold getAccurateNTPTime
  have hv := queryLoop_valid w servers { sys := st, responses := [], validResponses := 0 }
  simp only [h, List.length_nil] at hv
  simp [hv]

/-- The result of `getAccurateNTPTime` when some reading is accepted. -/
theorem getAccurateNTPTime_cons (w : World) (st : Sys)
    (h : acceptedFrom w st.calls.length servers ≠ []) :
    ∃ off, finalOffset (sortSlice (acceptedFrom w st.calls.length servers)) = Outcome.value off ∧
      (getAccurateNTPTime w st).1 = Outcome.value (w.format (w.now + off)) := by
  obtain ⟨off, hoff⟩ := finalOffset_value _ (sortSlice_ne_nil _ h)
  refine ⟨off, hoff, ?_⟩
  unfold getAccurateNTPTime
  have hv := queryLoop_valid w servers { sys := st, responses := [], validResponses := 0 }
  have hr := queryLoop_responses w servers { sys := st, responses := [], validResponses := 0 }
  simp only [List.nil_append] at hr
  have hlen : (acceptedFrom w st.calls.length servers).length ≠ 0 := by simpa using h
  have hv0 : ¬ (queryLoop w { sys := st, responses := [], validResponses := 0 }
      servers).validResponses = 0 := by
    rw [hv]; simp only [zero_add]; exact_mod_cast hlen
  simp only [hv0, if_false, hr, hoff]
  cases hh : (sortSlice (acceptedFrom w st.calls.length servers)).head? with
  | none =>
    exact absurd (List.head?_eq_none_iff.mp hh) (sortSlice_ne_nil _ h)
  | some best => rfl

theorem getAccurateNTPTime_calls (w : World) (st : Sys) :
    (getAccurateNTPTime w st).2.calls = st.calls ++ servers := by
  have hc := queryLoop_calls w servers { sys := st, responses := [], validResponses := 0 }
  unfold getAccurateNTPTime
  dsimp only
  split
  · exact hc
  · split
    · split <;> exact hc
    · exact hc
    · exact hc

/-! ## the acceptance filter -/

theorem mem_acceptedFrom (w : World) (roster : List String) (k : Nat) (x : ntpServer) :
    x ∈ acceptedFrom w k roster ↔
      ∃ i server response, roster.get? i = some server ∧
        w.query (k + i) server = .ok response ∧ accepts response = true ∧
        x = mkServer server response := by
  induction roster generalizing k with
  | nil => simp [acceptedFrom]
  | cons s rest ih =>
    rw [acceptedFrom_cons, List.mem_append, ih (k + 1)]
    constructor
    · rintro (h | ⟨i, server, response, h1, h2, h3, h4⟩)
      · simp only [acceptedFrom] at h
        cases hq : w.query k s with
        | error err => rw [hq] at h; simp at h
        | ok response =>
          rw [hq] at h
          dsimp only at h
          by_cases ha : accepts response = true
          · simp only [ha, if_true, List.mem_singleton] at h
            exact ⟨0, s, response, by simp, by simpa using hq, ha, h⟩
          · simp [ha] at h
      · refine ⟨i + 1, server, response, by simpa using h1, ?_, h3, h4⟩
        rwa [show k + (i + 1) = k + 1 + i by omega]
    · rintro ⟨i, server, response, h1, h2, h3, h4⟩
      cases i with
      | zero =>
        left
        simp only [List.get?_cons_zero, Option.some.injEq] at h1
        subst h1
        simp only [Nat.add_zero] at h2
        simp [acceptedFrom, h2, h3, h4]
      | succ j =>
        right
        refine ⟨j, server, response, by simpa using h1, ?_, h3, h4⟩
        rwa [show k + 1 + j = k + (j + 1) by omega]

theorem servers_nodup : servers.Nodup := by decide

theorem servers_get_inj (i j : Nat) (s : String)
    (hi : servers.get? i = some s) (hj : servers.get? j = some s) : i = j := by
  have hi' := List.get?_eq_some.mp hi
  have hj' := List.get?_eq_some.mp hj
  obtain ⟨hil, hie⟩ := hi'
  obtain ⟨hjl, hje⟩ := hj'
  have := (List.Nodup.get_inj_iff servers_nodup (i := ⟨i, hil⟩) (j := ⟨j, hjl⟩)).mp
    (hie.trans hje.symm)
  exact Fin.mk.inj_iff.mp this

theorem accepts_iff (response : Response) :
    accepts response = true ↔
      (1 ≤ response.Stratum ∧ response.Stratum ≤ 4 ∧ response.RTT < 2 * Second) := by
  unfold accepts
  simp only [decide_eq_true_eq]
  constructor <;> rintro ⟨a, b, c⟩ <;> exact ⟨by omega, b, c⟩

theorem queryStep_withOffset (w : World) (j : Nat) (off : Int) (acc : Acquired) (s : String)
    (h : acc.sys.calls.length = j → acceptedAt w j s = false) :
    queryStep (w.withOffset j off) acc s = queryStep w acc s := by
  unfold queryStep World.withOffset
  by_cases hj : acc.sys.calls.length = j
  · have hrej := h hj
    unfold acceptedAt at hrej
    simp only [hj, if_true]
    cases hq : w.query j s with
    | error err => rfl
    | ok response =>
      rw [hq] at hrej
      dsimp only at hrej ⊢
      have : accepts { response with ClockOffset := off } = false := by
        rw [← hrej]; rfl
      simp [this, hrej]
  · simp only [hj, if_false]

theorem queryLoop_withOffset (w : World) (j : Nat) (off : Int) (roster : List String)
    (acc : Acquired)
    (h : ∀ p s, roster.get? p = some s → acc.sys.calls.length + p = j →
      acceptedAt w j s = false) :
    queryLoop (w.withOffset j off) acc roster = queryLoop w acc roster := by
  induction roster generalizing acc with
  | nil => rfl
  | cons s rest ih =>
    simp only [queryLoop, List.foldl_cons]
    have h0 : queryStep (w.withOffset j off) acc s = queryStep w acc s :=
      queryStep_withOffset w j off acc s (fun hj => h 0 s (by simp) (by simpa using hj))
    rw [h0]
    apply ih
    intro p s' hp hj
    rw [queryStep_calls] at hj
    simp only [List.length_append, List.length_singleton] at hj
    exact h (p + 1) s' (by simpa using hp) (by omega)

theorem getAccurateNTPTime_withOffset (w : World) (st : Sys) (i : Nat) (server : String)
    (off : Int) (hs : servers.get? i = some server)
    (hrej : acceptedAt w (st.calls.length + i) server = false) :
    getAccurateNTPTime (w.withOffset (st.calls.length + i) off) st = getAccurateNTPTime w st := by
  have hl : queryLoop (w.withOffset (st.calls.length + i) off)
      { sys := st, responses := [], validResponses := 0 } servers =
      queryLoop w { sys := st, responses := [], validResponses := 0 } servers := by
    apply queryLoop_withOffset
    intro p s hp hj
    have : p = i := by simpa using hj
    subst this
    rw [hs] at hp
    cases hp
    exact hrej
  unfold getAccurateNTPTime
  rw [hl]
  rfl

/-! ## C1: acceptance filter -/

/-- C1. For a roster source whose query succeeds, the reading is in the accepted list
if and only if `1 ≤ stratum ≤ 4` and `roundTripTime < 2 s`.  When the answer is outside
that envelope no reading of that source is in the list, and replacing its offset by any
other value changes neither the accepted list, nor the accumulated weights
(`totalWeight`, `weightedOffsetNs`), nor the result of `getAccurateNTPTime`. -/
theorem C1_acceptance_filter (w : World) (st : Sys) (i : Nat) (server : String)
    (response : Response) (hs : servers.get? i = some server)
    (hq : w.query (st.calls.length + i) server = .ok response) :
    (mkServer server response ∈
        (queryLoop w { sys := st, responses := [], validResponses := 0 } servers).responses ↔
      (1 ≤ response.Stratum ∧ response.Stratum ≤ 4 ∧ response.RTT < 2 * Second)) ∧
    (¬ (1 ≤ response.Stratum ∧ response.Stratum ≤ 4 ∧ response.RTT < 2 * Second) →
      (∀ x ∈ (queryLoop w { sys := st, responses := [], validResponses := 0 }
          servers).responses, x.address ≠ server) ∧
      ∀ off : Int,
        (queryLoop (w.withOffset (st.calls.length + i) off)
            { sys := st, responses := [], validResponses := 0 } servers).responses =
          (queryLoop w { sys := st, responses := [], validResponses := 0 } servers).responses ∧
        weightLoop (sortSlice (queryLoop (w.withOffset (st.calls.length + i) off)
            { sys := st, responses := [], validResponses := 0 } servers).responses) =
          weightLoop (sortSlice (queryLoop w
            { sys := st, responses := [], validResponses := 0 } servers).responses) ∧
        getAccurateNTPTime (w.withOffset (st.calls.length + i) off) st =
          getAccurateNTPTime w st) := by
  have hr := queryLoop_responses w servers { sys := st, responses := [], validResponses := 0 }
  simp only [List.nil_append] at hr
  have from_src : ∀ x ∈ acceptedFrom w st.calls.length servers, x.address = server →
      accepts response = true ∧ x = mkServer server response := by
    intro x hx hadd
    obtain ⟨j, s', r', h1, h2, h3, h4⟩ := (mem_acceptedFrom w servers st.calls.length x).mp hx
    have hs' : s' = server := by rw [h4] at hadd; exact hadd
    subst hs'
    have hji : j = i := servers_get_inj j i s' h1 hs
    subst hji
    rw [hq] at h2
    cases h2
    exact ⟨h3, h4⟩
  constructor
  · rw [hr, ← accepts_iff]
    constructor
    · intro hx
      exact (from_src _ hx rfl).1
    · intro ha
      exact (mem_acceptedFrom w servers st.calls.length _).mpr
        ⟨i, server, response, hs, hq, ha, rfl⟩
  · intro hrej
    rw [← accepts_iff] at hrej
    have hrej' : acceptedAt w (st.calls.length + i) server = false := by
      unfold acceptedAt; rw [hq]; simpa using hrej
    constructor
    · rw [hr]
      intro x hx hadd
      exact hrej (from_src x hx hadd).1
    · intro off
      have hl : queryLoop (w.withOffset (st.calls.length + i) off)
          { sys := st, responses := [], validResponses := 0 } servers =
          queryLoop w { sys := st, responses := [], validResponses := 0 } servers := by
        apply queryLoop_withOffset
        intro p s hp hj
        have : p = i := by simpa using hj
        subst this
        rw [hs] at hp
        cases hp
        exact hrej'
      refine ⟨by rw [hl], by rw [hl], ?_⟩
      exact getAccurateNTPTime_withOffset w st i server off hs hrej'

/-- C1, at a concrete input: in `sampleWorld` the second source answers with stratum 5;
its reading is not accepted and reporting the offset `123456789` instead of `999`
leaves the result of `getAccurateNTPTime` unchanged. -/
theorem C1_acceptance_filter_witness :
    (mkServer "time-a-g.nist.gov" (Response.mk 5 10000000 999) ∉
      (queryLoop sampleWorld { sys := freshSys, responses := [], validResponses := 0 }
        servers).responses) ∧
    getAccurateNTPTime (sampleWorld.withOffset 1 123456789) freshSys =
      getAccurateNTPTime sampleWorld freshSys := by
  have h := C1_acceptance_filter sampleWorld freshSys 1 "time-a-g.nist.gov"
    (Response.mk 5 10000000 999) rfl rfl
  have hrej : ¬ (1 ≤ (5 : Nat) ∧ (5 : Nat) ≤ 4 ∧ (10000000 : Int) < 2 * Second) := by
    intro h; omega
  constructor
  · intro hmem
    exact hrej (h.1.mp hmem)
  · exact ((h.2 hrej).2 123456789).2.2

/-! ## C2: failure exactly when nothing is accepted -/

/-- C2. `getAccurateNTPTime` returns the error "no reliable NTP servers available" if
and only if no roster source yields an accepted reading (each source either failed in
the transport or was rejected by the acceptance test); as soon as one source is
accepted the call returns a timestamp, whatever the other sources did. -/
theorem C2_no_reliable_source (w : World) (st : Sys) :
    ((getAccurateNTPTime w st).1 = Outcome.error noReliable ↔
      ∀ i server, servers.get? i = some server →
        acceptedAt w (st.calls.length + i) server = false) ∧
    ((∃ i server, servers.get? i = some server ∧
        acceptedAt w (st.calls.length + i) server = true) →
      ∃ timeStr, (getAccurateNTPTime w st).1 = Outcome.value timeStr) := by
  have key := acceptedFrom_eq_nil w servers st.calls.length
  constructor
  · constructor
    · intro h
      by_contra hne
      have hne' : acceptedFrom w st.calls.length servers ≠ [] := fun hnil => hne (key.mp hnil)
      obtain ⟨off, _, hv⟩ := getAccurateNTPTime_cons w st hne'
      rw [hv] at h
      cases h
    · intro h
      exact getAccurateNTPTime_nil w st (key.mpr h)
  · rintro ⟨i, server, hs, ha⟩
    have hne : acceptedFrom w st.calls.length servers ≠ [] := by
      intro hnil
      have := key.mp hnil i server hs
      rw [ha] at this
      cases this
    obtain ⟨off, _, hv⟩ := getAccurateNTPTime_cons w st hne
    exact ⟨_, hv⟩

/-- C2, at concrete inputs: in `sampleWorld` five of the six sources are rejected or
time out and the call still returns a timestamp; in `deadWorld` it fails. -/
theorem C2_no_reliable_source_witness :
    (∃ timeStr, (getAccurateNTPTime sampleWorld freshSys).1 = Outcome.value timeStr) ∧
    (getAccurateNTPTime deadWorld freshSys).1 = Outcome.error noReliable :=
  ⟨(C2_no_reliable_source sampleWorld freshSys).2 ⟨0, "time.nist.gov", rfl, rfl⟩,
   (C2_no_reliable_source deadWorld freshSys).1.mpr (fun _ _ _ => rfl)⟩

/-! ## C8: ranking -/

/-- C8. After the sort step the list is a permutation of the accepted readings and is
in ascending lexicographic order of `(stratum, rtt)`; so the reading reported as best,
`responses[0]`, exists when a reading was accepted and its pair is less than or equal
to that of every accepted reading.  In the three-reading scenario it is the stratum-1
entry. -/
theorem C8_ranking (responses : List ntpServer) :
    (sortSlice responses).Perm responses ∧
    (sortSlice responses).Pairwise lexLE ∧
    (responses ≠ [] → ∃ best, (sortSlice responses).head? = some best) ∧
    (∀ best, (sortSlice responses).head? = some best →
      best ∈ responses ∧ ∀ r ∈ responses, lexLE best r) ∧
    (sortSlice scenario).head? =
      some { address := "a", stratum := 1, rtt := 10000000, offset := 50000000 } := by
  refine ⟨sortSlice_perm responses, sortSlice_sorted responses, ?_, ?_, by decide⟩
  · intro hne
    cases h : sortSlice responses with
    | nil => exact absurd h (sortSlice_ne_nil responses hne)
    | cons b t => exact ⟨b, rfl⟩
  · intro best hbest
    have hs := sortSlice_sorted responses
    have hp := sortSlice_perm responses
    cases h : sortSlice responses with
    | nil => rw [h] at hbest; cases hbest
    | cons b t =>
      rw [h] at hbest hs hp
      simp only [List.head?_cons, Option.some.injEq] at hbest
      subst hbest
      refine ⟨hp.mem_iff.mp (List.mem_cons_self _ _), ?_⟩
      intro r hr
      rcases List.mem_cons.mp (hp.mem_iff.mpr hr) with hrb | hrt
      · rw [hrb]; exact lexLE_refl _
      · exact (List.pairwise_cons.mp hs).1 r hrt

/-- C8, at a concrete input: the head of the ranked scenario is below the
`(stratum 2, RTT 5 ms)` entry. -/
theorem C8_ranking_witness :
    lexLE { address := "a", stratum := 1, rtt := 10000000, offset := 50000000 }
      { address := "c", stratum := 2, rtt := 5000000, offset := 5000000 } :=
  ((C8_ranking scenario).2.2.2.1 _ (C8_ranking scenario).2.2.2.2).2 _ (by decide)

/-! ## C10: the orchestrator -/

set_option maxRecDepth 100000

/-- C10. `main` prints the timestamp returned by `getAccurateNTPTime` when that call
succeeds, and then the only transport calls of the run are the six roster queries (no
fallback query).  When `getAccurateNTPTime` fails, `main` makes exactly one further
transport call, to "0.beevik-ntp.pool.ntp.org", and prints the timestamp of
`getNTPTime` if it succeeds.  The process ends through `log.Fatal` (exit status 1)
exactly when both the consensus query and the fallback query fail, and then nothing is
printed; it never panics. -/
theorem C10_orchestrator (w : World) :
    (∀ timeStr, (getAccurateNTPTime w freshSys).1 = Outcome.value timeStr →
      (main w).stdout = [timeStr] ∧ (main w).exitCode = 0 ∧ (main w).sys.calls = servers) ∧
    (∀ err, (getAccurateNTPTime w freshSys).1 = Outcome.error err →
      (main w).sys.calls = servers ++ ["0.beevik-ntp.pool.ntp.org"] ∧
      (∀ response, w.query 6 "0.beevik-ntp.pool.ntp.org" = .ok response →
        (main w).stdout = [w.format (w.now + response.ClockOffset)] ∧
        (getNTPTime w (getAccurateNTPTime w freshSys).2 "0.beevik-ntp.pool.ntp.org").1 =
          Outcome.value (w.format (w.now + response.ClockOffset)) ∧
        (main w).exitCode = 0) ∧
      (∀ err2, w.query 6 "0.beevik-ntp.pool.ntp.org" = .error err2 →
        (main w).stdout = [] ∧ (main w).exitCode = 1)) ∧
    (((main w).exitCode = 1 ∧ (main w).stdout = []) ↔
      ((getAccurateNTPTime w freshSys).1 = Outcome.error noReliable ∧
        ∃ err2, w.query 6 "0.beevik-ntp.pool.ntp.org" = .error err2)) ∧
    ((main w).exitCode = 1 ↔ (main w).exitCode ≠ 0) := by
  have hcalls := getAccurateNTPTime_calls w freshSys
  have hlen : (getAccurateNTPTime w freshSys).2.calls.length = 6 := by
    rw [hcalls]; rfl
  by_cases hnil : acceptedFrom w freshSys.calls.length servers = []
  · have herr := getAccurateNTPTime_nil w freshSys hnil
    cases hq : w.query 6 "0.beevik-ntp.pool.ntp.org" with
    | error err2 =>
      have hm : main w = ⟨⟨servers ++ ["0.beevik-ntp.pool.ntp.org"],
          (getAccurateNTPTime w freshSys).2.logs ++ [LogLine.fallback noReliable] ++
            [LogLine.fatal err2]⟩, [], 1⟩ := by
        unfold main
        have e : getAccurateNTPTime w { calls := [], logs := [] } =
            (Outcome.error noReliable, (getAccurateNTPTime w freshSys).2) :=
          Prod.ext herr rfl
        rw [e]
        simp only [getNTPTime, hlen, hq, fallbackServer]
        rw [hcalls]
        rfl
      rw [hm, herr]
      refine ⟨?_, ?_, ?_, ?_⟩
      · intro t ht; cases ht
      · intro err _
        refine ⟨rfl, ?_, ?_⟩
        · intro r hr; cases hr
        · intro e2 _; exact ⟨rfl, rfl⟩
      · simp
      · simp
    | ok response =>
      have hm : main w = ⟨⟨servers ++ ["0.beevik-ntp.pool.ntp.org"],
          (getAccurateNTPTime w freshSys).2.logs ++ [LogLine.fallback noReliable]⟩,
          [w.format (w.now + response.ClockOffset)], 0⟩ := by
        unfold main
        have e : getAccurateNTPTime w { calls := [], logs := [] } =
            (Outcome.error noReliable, (getAccurateNTPTime w freshSys).2) :=
          Prod.ext herr rfl
        rw [e]
        simp only [getNTPTime, hlen, hq, fallbackServer]
        rw [hcalls]
        rfl
      have hg : (getNTPTime w (getAccurateNTPTime w freshSys).2
          "0.beevik-ntp.pool.ntp.org").1 =
          Outcome.value (w.format (w.now + response.ClockOffset)) := by
        simp only [getNTPTime, hlen, hq]
      rw [hm, herr]
      refine ⟨?_, ?_, ?_, ?_⟩
      · intro t ht; cases ht
      · intro err _
        refine ⟨rfl, ?_, ?_⟩
        · intro r hr
          cases hr
          exact ⟨rfl, hg, rfl⟩
        · intro e2 he2; cases he2
      · simp
      · simp
  · obtain ⟨off, _, hv⟩ := getAccurateNTPTime_cons w freshSys hnil
    have hm : main w = ⟨(getAccurateNTPTime w freshSys).2, [w.format (w.now + off)], 0⟩ := by
      unfold main
      have e : getAccurateNTPTime w { calls := [], logs := [] } =
          (Outcome.value (w.format (w.now + off)), (getAccurateNTPTime w freshSys).2) :=
        Prod.ext hv rfl
      rw [e]
    rw [hm, hv]
    refine ⟨?_, ?_, ?_, ?_⟩
    · intro t ht
      cases ht
      exact ⟨rfl, rfl, by simpa [freshSys] using hcalls⟩
    · intro err herr; cases herr
    · simp
    · simp

/-- C10, at concrete inputs: with one accepted source `main` prints the consensus
timestamp after six transport calls; when every roster source fails and the fallback
answers, the fallback timestamp is printed after seven calls; when all seven calls fail
the exit status is 1 and nothing is printed. -/
theorem C10_orchestrator_witness :
    ((main sampleWorld).stdout = ["2024-01-15T12:30:45Z"] ∧ (main sampleWorld).exitCode = 0 ∧
      (main sampleWorld).sys.calls = servers) ∧
    ((main fallbackWorld).stdout = ["2024-01-15T12:30:45Z"] ∧
      (main fallbackWorld).sys.calls = servers ++ ["0.beevik-ntp.pool.ntp.org"]) ∧
    ((main deadWorld).stdout = [] ∧ (main deadWorld).exitCode = 1) := by
  refine ⟨?_, ?_, ?_⟩
  · exact (C10_orchestrator sampleWorld).1 "2024-01-15T12:30:45Z" (by decide)
  · have h := (C10_orchestrator fallbackWorld).2.1 noReliable (by decide)
    exact ⟨(h.2.1 (Response.mk 2 10000000 50000000) rfl).1, h.1⟩
  · exact ((C10_orchestrator deadWorld).2.1 noReliable (by decide)).2.2 "timeout" rfl

/-! ## C3: the concrete scenario -/

set_option maxRecDepth 100000

/-- C3, as stated, fails: for the three readings of the scenario the weighting loop and
the offset resolution give 23 333 333 ns, which is +23.3 ms and not +19.4 ms when
rounded to a tenth of a millisecond. -/
theorem C3_scenario_counterexample :
    finalOffset (sortSlice scenario) = Outcome.value 23333333 ∧
    roundTenthMs 23333333 = 233 ∧ roundTenthMs 23333333 ≠ 194 := by
  refine ⟨by decide, by decide, by decide⟩

/-- C3, amended.  For the three readings of the scenario the weights are the binary64
numbers nearest to 0.1, 0.025 and 0.1, the total weight is the binary64 number nearest
to 0.225, and the final offset `(50*0.1 + (-10)*0.025 + 5*0.1)/0.225` is 23 333 333 ns,
that is +23.3 ms when rounded to a tenth of a millisecond. -/
theorem C3_scenario :
    scenario.map weightOf =
      [⟨7205759403792794, -56⟩, ⟨7205759403792794, -58⟩, ⟨7205759403792794, -56⟩] ∧
    F64.Near (F64.toRat ⟨7205759403792794, -56⟩) (1 / 10) ∧
    F64.Near (F64.toRat ⟨7205759403792794, -58⟩) (25 / 1000) ∧
    (weightLoop (sortSlice scenario)).totalWeight = ⟨8106479329266893, -55⟩ ∧
    F64.Near (F64.toRat ⟨8106479329266893, -55⟩) (225 / 1000) ∧
    finalOffset (sortSlice scenario) = Outcome.value 23333333 ∧
    roundTenthMs 23333333 = 233 := by
  refine ⟨by decide, ?_, ?_, by decide, ?_, by decide, by decide⟩
  · unfold F64.Near F64.toRat
    rw [abs_of_pos (show (0 : ℚ) < 1 / 10 by norm_num), abs_le]
    norm_num
  · unfold F64.Near F64.toRat
    rw [abs_of_pos (show (0 : ℚ) < 25 / 1000 by norm_num), abs_le]
    norm_num
  · unfold F64.Near F64.toRat
    rw [abs_of_pos (show (0 : ℚ) < 225 / 1000 by norm_num), abs_le]
    norm_num

/-! ## C9: the zero-weight branch -/

theorem wrapInt64_add_left (a b : Int) : wrapInt64 (wrapInt64 a + b) = wrapInt64 (a + b) := by
  unfold wrapInt64
  omega

theorem wrapInt64_of_range (a : Int) (h₁ : -2 ^ 63 ≤ a) (h₂ : a < 2 ^ 63) : wrapInt64 a = a := by
  unfold wrapInt64
  omega

theorem totalOffset_fold (l : List ntpServer) (init : Int) :
    l.foldl (fun total resp => wrapInt64 (total + resp.offset)) (wrapInt64 init) =
      wrapInt64 (init + (l.map (fun r => r.offset)).sum) := by
  induction l generalizing init with
  | nil => simp
  | cons x xs ih =>
    simp only [List.foldl_cons, List.map_cons, List.sum_cons]
    rw [wrapInt64_add_left, ih]
    congr 1
    ring

theorem totalOffsetOf_eq (l : List ntpServer) :
    totalOffsetOf l = wrapInt64 ((l.map (fun r => r.offset)).sum) := by
  have := totalOffset_fold l 0
  rw [show wrapInt64 0 = 0 by decide, zero_add] at this
  exact this

theorem offsets_sum_abs_le (l : List ntpServer) (B : Int) (h : ∀ r ∈ l, |r.offset| ≤ B) :
    |(l.map (fun r => r.offset)).sum| ≤ (l.length : Int) * B := by
  induction l with
  | nil => simp
  | cons x xs ih =>
    simp only [List.map_cons, List.sum_cons, List.length_cons]
    have h1 := h x (List.mem_cons_self _ _)
    have h2 := ih (fun r hr => h r (List.mem_cons_of_mem _ hr))
    have h3 := abs_add x.offset (xs.map (fun r => r.offset)).sum
    push_cast
    linarith

/-- C9, as stated, fails: the two accepted readings of `cancellingLarge` both report
the offset `2 ^ 62` ns and their weights cancel, so the loop ends with
`totalWeight == 0`; the arithmetic mean of the offsets is `2 ^ 62` ns and the computed
offset is `-2 ^ 62` ns, the int64 sum having wrapped.  The same value results for the
readings of `largeOffsets` once the total weight is set to zero. -/
theorem C9_zero_weight_fallback_counterexample :
    (∀ r ∈ cancellingLarge, Accepted r) ∧
    (weightLoop cancellingLarge).totalWeight.isZero = true ∧
    (cancellingLarge.map (fun r => r.offset)).sum / (cancellingLarge.length : Int) =
      4611686018427387904 ∧
    finalOffset cancellingLarge = Outcome.value (-4611686018427387904) ∧
    (∀ r ∈ largeOffsets, Accepted r ∧ 0 ≤ r.rtt) ∧
    resolveOffset { totalWeight := F64.zero, weightedOffsetNs := F64.zero } largeOffsets =
      Outcome.value (-4611686018427387904) := by
  refine ⟨by decide, by decide, by decide, by decide, by decide, by decide⟩

/-- C9, amended. For a non-empty list of readings for which the weighting loop ends
with `totalWeight == 0`, the computed offset is `totalOffset / len(responses)` in
`time.Duration` arithmetic: the sum of the offsets wrapped to an int64, divided by the
number of readings with truncation toward zero.  When the exact sum of the offsets
fits in an int64, in particular for at most six readings with offsets of at most
`2 ^ 60` ns in magnitude, this is the arithmetic mean of the offsets truncated toward
zero.  The same holds for the offset resolution started from any accumulators whose
total weight is zero. -/
theorem C9_zero_weight_fallback (responses : List ntpServer) (hne : responses ≠ [])
    (hz : (weightLoop responses).totalWeight.isZero = true) :
    finalOffset responses =
      Outcome.value (Int.tdiv (wrapInt64 ((responses.map (fun r => r.offset)).sum))
        (responses.length : Int)) ∧
    (-2 ^ 63 ≤ (responses.map (fun r => r.offset)).sum ∧
        (responses.map (fun r => r.offset)).sum < 2 ^ 63 →
      finalOffset responses =
        Outcome.value
          (Int.tdiv ((responses.map (fun r => r.offset)).sum) (responses.length : Int))) ∧
    (responses.length ≤ 6 → (∀ r ∈ responses, |r.offset| ≤ 2 ^ 60) →
      finalOffset responses =
        Outcome.value
          (Int.tdiv ((responses.map (fun r => r.offset)).sum) (responses.length : Int))) ∧
    (∀ wts : Weights, wts.totalWeight.isZero = true →
      resolveOffset wts responses =
        Outcome.value (Int.tdiv (wrapInt64 ((responses.map (fun r => r.offset)).sum))
          (responses.length : Int))) := by
  have hlen : responses.length ≠ 0 := by simpa using hne
  have forced : ∀ wts : Weights, wts.totalWeight.isZero = true →
      resolveOffset wts responses =
        Outcome.value (Int.tdiv (wrapInt64 ((responses.map (fun r => r.offset)).sum))
          (responses.length : Int)) := by
    intro wts hw
    unfold resolveOffset
    rw [← totalOffsetOf_eq]
    simp [hw, hlen]
  have h1 := forced (weightLoop responses) hz
  have fits : -2 ^ 63 ≤ (responses.map (fun r => r.offset)).sum ∧
        (responses.map (fun r => r.offset)).sum < 2 ^ 63 →
      finalOffset responses =
        Outcome.value
          (Int.tdiv ((responses.map (fun r => r.offset)).sum) (responses.length : Int)) := by
    rintro ⟨a, b⟩
    unfold finalOffset
    rw [h1, wrapInt64_of_range _ a b]
  refine ⟨h1, fits, ?_, forced⟩
  intro h6 hb
  apply fits
  have hs := abs_le.mp (offsets_sum_abs_le responses (2 ^ 60) hb)
  have hl : (responses.length : Int) ≤ 6 := by exact_mod_cast h6
  have hl0 : (0 : Int) ≤ responses.length := Int.natCast_nonneg _
  have hp : (responses.length : Int) * 2 ^ 60 ≤ 6 * 2 ^ 60 :=
    mul_le_mul_of_nonneg_right hl (by norm_num)
  have e63 : (2 : Int) ^ 63 = 8 * 2 ^ 60 := by norm_num
  constructor
  · rw [e63]; linarith [hs.1]
  · rw [e63]; linarith [hs.2]

/-- C9, amended, at a concrete input: the weights of the two readings of `cancelling`
(offsets +30 000 001 ns and -10 000 000 ns) cancel and the computed offset is the mean
10 000 000.5 ns truncated, 10 000 000 ns. -/
theorem C9_zero_weight_fallback_witness :
    finalOffset cancelling = Outcome.value 10000000 := by
  have h := (C9_zero_weight_fallback cancelling (by decide) (by decide)).2.2.1 (by decide)
    (by decide)
  rw [h]
  decide

namespace F64

/-! ## binary64: accumulated relative error -/

theorem Near.within {a x : ℚ} (h : Near a x) (hx : 0 < x) : Within (1 + 1 / 2 ^ 51) a x := by
  unfold Near at h
  rw [abs_of_pos hx, abs_le] at h
  unfold Within
  constructor
  · rw [div_le_iff₀ (by norm_num)]
    have : x * (1 - 1 / 2 ^ 53) ≤ a := by linarith [h.1]
    have h2 : x ≤ x * (1 - 1 / 2 ^ 53) * (1 + 1 / 2 ^ 51) := by
      have : (1 : ℚ) ≤ (1 - 1 / 2 ^ 53) * (1 + 1 / 2 ^ 51) := by norm_num
      nlinarith
    have h3 : x * (1 - 1 / 2 ^ 53) * (1 + 1 / 2 ^ 51) ≤ a * (1 + 1 / 2 ^ 51) :=
      mul_le_mul_of_nonneg_right this (by norm_num)
    linarith
  · have : a ≤ x * (1 + 1 / 2 ^ 53) := by linarith [h.2]
    have h2 : x * (1 + 1 / 2 ^ 53) ≤ x * (1 + 1 / 2 ^ 51) :=
      mul_le_mul_of_nonneg_left (by norm_num) hx.le
    linarith

theorem Within.value_pos {r a x : ℚ} (h : Within r a x) (hr : 0 < r) (hx : 0 < x) : 0 < a :=
  lt_of_lt_of_le (div_pos hx hr) h.1

theorem Within.inv {r a x : ℚ} (h : Within r a x) (hr : 0 < r) (hx : 0 < x) :
    Within r (1 / a) (1 / x) := by
  have ha := h.value_pos hr hx
  unfold Within at *
  constructor
  · rw [div_div, div_le_div_iff₀ (by positivity) ha]
    linarith [h.2]
  · rw [div_le_iff₀ ha]
    have := h.1
    rw [div_le_iff₀ hr] at this
    have e : 1 / x * r * a = (a * r) / x := by field_simp; ring
    rw [e, le_div_iff₀ hx]
    linarith

theorem Within.mul {r₁ r₂ a b x y : ℚ} (h₁ : Within r₁ a x) (h₂ : Within r₂ b y)
    (hr₁ : 0 < r₁) (hr₂ : 0 < r₂) (hx : 0 < x) (hy : 0 < y) :
    Within (r₁ * r₂) (a * b) (x * y) := by
  have ha := h₁.value_pos hr₁ hx
  have hb := h₂.value_pos hr₂ hy
  unfold Within at *
  constructor
  · have e : x * y / (r₁ * r₂) = (x / r₁) * (y / r₂) := by field_simp
    rw [e]
    exact mul_le_mul h₁.1 h₂.1 (div_pos hy hr₂).le ha.le
  · have e : x * y * (r₁ * r₂) = (x * r₁) * (y * r₂) := by ring
    rw [e]
    exact mul_le_mul h₁.2 h₂.2 hb.le (by positivity)

theorem Within.trans {r₁ r₂ a b x : ℚ} (h₁ : Within r₁ a b) (h₂ : Within r₂ b x)
    (hr₁ : 0 < r₁) (hr₂ : 0 < r₂) (hx : 0 < x) :
    Within (r₁ * r₂) a x := by
  have hb := h₂.value_pos hr₂ hx
  unfold Within at *
  constructor
  · have e : x / (r₁ * r₂) = (x / r₂) / r₁ := by rw [div_div, mul_comm]
    rw [e]
    exact le_trans (div_le_div_of_nonneg_right h₂.1 hr₁.le) h₁.1
  · have e : x * (r₁ * r₂) = (x * r₂) * r₁ := by ring
    rw [e]
    exact le_trans h₁.2 (mul_le_mul_of_nonneg_right h₂.2 hr₁.le)

theorem ofInt_man_ne_zero (i : Int) (hi : i ≠ 0) : (ofInt i).man ≠ 0 := by
  intro h
  exact (ofInt_near i).ne_zero (by exact_mod_cast hi) ((toRat_eq_zero_iff _).mpr h)

/-- The reciprocal `1.0 / float64(i)` of a positive integer, within two roundings. -/
theorem recip_within (i : Int) (hi : 0 < i) :
    Within ((1 + 1 / 2 ^ 51) * (1 + 1 / 2 ^ 51)) (toRat (div one (ofInt i))) (1 / (i : ℚ)) := by
  have hiq : (0 : ℚ) < i := by exact_mod_cast hi
  have hR : (0 : ℚ) < 1 + 1 / 2 ^ 51 := by norm_num
  have h1 : Within (1 + 1 / 2 ^ 51) (toRat (ofInt i)) i := (ofInt_near i).within hiq
  have hI : 0 < toRat (ofInt i) := h1.value_pos hR hiq
  have h2 := h1.inv hR hiq
  have h3 : Near (toRat (div one (ofInt i))) (1 / toRat (ofInt i)) := by
    have := div_near one (ofInt i) (ofInt_man_ne_zero i hi.ne')
    rwa [toRat_one] at this
  have h4 := h3.within (by positivity)
  exact h4.trans h2 hR hR (by positivity)

end F64

/-- The weight of a reading with positive stratum and positive `rttMs` is
`1 / (stratum * rttMs)` up to five roundings. -/
theorem weightFor_within (s m : Int) (hs : 0 < s) (hm : 0 < m) :
    F64.Within ((1 + 1 / 2 ^ 51) * ((1 + 1 / 2 ^ 51) * (1 + 1 / 2 ^ 51) *
        ((1 + 1 / 2 ^ 51) * (1 + 1 / 2 ^ 51))))
      (F64.toRat (weightFor s m)) (1 / (s : ℚ) * (1 / (m : ℚ))) := by
  have hsq : (0 : ℚ) < s := by exact_mod_cast hs
  have hmq : (0 : ℚ) < m := by exact_mod_cast hm
  have hR : (0 : ℚ) < 1 + 1 / 2 ^ 51 := by norm_num
  have hA := F64.recip_within s hs
  have hB := F64.recip_within m hm
  have hAB := hA.mul hB (by positivity) (by positivity) (by positivity) (by positivity)
  have hApos := hA.value_pos (by positivity) (by positivity)
  have hBpos := hB.value_pos (by positivity) (by positivity)
  have hW : F64.Near (F64.toRat (weightFor s m))
      (F64.toRat (F64.div F64.one (F64.ofInt s)) * F64.toRat (F64.div F64.one (F64.ofInt m))) :=
    F64.mul_near _ _
  have hW' := hW.within (by positivity)
  exact hW'.trans hAB hR (by positivity) (by positivity)

theorem weightFor_pos (s m : Int) (hs : 0 < s) (hm : 0 < m) :
    0 < F64.toRat (weightFor s m) := by
  have hsq : (0 : ℚ) < s := by exact_mod_cast hs
  have hmq : (0 : ℚ) < m := by exact_mod_cast hm
  exact (weightFor_within s m hs hm).value_pos (by positivity) (by positivity)

/-- Two weights whose exact values `1 / p₁ > 1 / p₂` (with `p = stratum * rttMs` at most
8000) are apart by more than the rounding error. -/
theorem weightFor_lt (s₁ m₁ s₂ m₂ : Int) (hs₁ : 0 < s₁) (hm₁ : 0 < m₁) (hs₂ : 0 < s₂)
    (hm₂ : 0 < m₂) (hlt : s₁ * m₁ < s₂ * m₂) (hb : s₁ * m₁ ≤ 8000) :
    F64.toRat (weightFor s₂ m₂) < F64.toRat (weightFor s₁ m₁) := by
  have h1 := (weightFor_within s₁ m₁ hs₁ hm₁).1
  have h2 := (weightFor_within s₂ m₂ hs₂ hm₂).2
  have hs₁q : (0 : ℚ) < s₁ := by exact_mod_cast hs₁
  have hm₁q : (0 : ℚ) < m₁ := by exact_mod_cast hm₁
  have hs₂q : (0 : ℚ) < s₂ := by exact_mod_cast hs₂
  have hm₂q : (0 : ℚ) < m₂ := by exact_mod_cast hm₂
  have hp : ((s₁ * m₁ : ℤ) : ℚ) + 1 ≤ ((s₂ * m₂ : ℤ) : ℚ) := by exact_mod_cast hlt
  have hb' : ((s₁ * m₁ : ℤ) : ℚ) ≤ 8000 := by exact_mod_cast hb
  push_cast at hp hb'
  set R : ℚ := (1 + 1 / 2 ^ 51) * ((1 + 1 / 2 ^ 51) * (1 + 1 / 2 ^ 51) *
        ((1 + 1 / 2 ^ 51) * (1 + 1 / 2 ^ 51))) with hR
  have hRpos : 0 < R := by rw [hR]; norm_num
  have hRR : R * R < 1 + 1 / 8000 := by rw [hR]; norm_num
  have e1 : 1 / (s₁ : ℚ) * (1 / (m₁ : ℚ)) = 1 / ((s₁ : ℚ) * m₁) := by field_simp
  have e2 : 1 / (s₂ : ℚ) * (1 / (m₂ : ℚ)) = 1 / ((s₂ : ℚ) * m₂) := by field_simp
  rw [e1] at h1
  rw [e2] at h2
  have p1 : (0 : ℚ) < (s₁ : ℚ) * m₁ := by positivity
  have p2 : (0 : ℚ) < (s₂ : ℚ) * m₂ := by positivity
  clear_value R
  generalize (s₁ : ℚ) * m₁ = P₁ at *
  generalize (s₂ : ℚ) * m₂ = P₂ at *
  have key : 1 / P₂ * R < 1 / P₁ / R := by
    rw [one_div_mul_eq_div, div_div, div_lt_div_iff₀ p2 (by positivity)]
    have h3 : P₁ * (R * R) < P₁ * (1 + 1 / 8000) := mul_lt_mul_of_pos_left hRR p1
    have h4 : R * (P₁ * R) = P₁ * (R * R) := by ring
    rw [h4]
    linarith
  linarith

theorem rttMsOf_bounds (r : ntpServer) (h₀ : 0 ≤ r.rtt) (h₁ : r.rtt < 2 * Second) :
    1 ≤ rttMsOf r ∧ rttMsOf r ≤ 1999 := by
  unfold rttMsOf Milliseconds Second at *
  rw [Int.tdiv_eq_ediv h₀ (by norm_num)]
  dsimp only
  split <;> omega

theorem rttMsOf_mono (r₁ r₂ : ntpServer) (h₀ : 0 ≤ r₁.rtt) (h : r₁.rtt ≤ r₂.rtt) :
    rttMsOf r₁ ≤ rttMsOf r₂ := by
  unfold rttMsOf Milliseconds
  rw [Int.tdiv_eq_ediv h₀ (by norm_num), Int.tdiv_eq_ediv (le_trans h₀ h) (by norm_num)]
  dsimp only
  split <;> split <;> omega

/-! ## C5: monotonicity in the stratum -/

/-- C5. Two accepted readings with the same (non-negative) round-trip time and
different stratum: the weight `stratumWeight * rttWeight` of the lower-stratum reading
is strictly greater, as a number and under the comparison of `float64` values. -/
theorem C5_weight_monotone_stratum (r₁ r₂ : ntpServer) (h₁ : Accepted r₁) (h₂ : Accepted r₂)
    (hrtt : 0 ≤ r₁.rtt) (heq : r₁.rtt = r₂.rtt) (hlt : r₁.stratum < r₂.stratum) :
    F64.toRat (weightOf r₂) < F64.toRat (weightOf r₁) ∧
    F64.blt (weightOf r₂) (weightOf r₁) = true := by
  obtain ⟨a1, a2, a3⟩ := h₁
  obtain ⟨b1, b2, b3⟩ := h₂
  obtain ⟨m1, m2⟩ := rttMsOf_bounds r₁ hrtt a3
  have hm : rttMsOf r₂ = rttMsOf r₁ := by unfold rttMsOf; rw [heq]
  have key : F64.toRat (weightOf r₂) < F64.toRat (weightOf r₁) := by
    unfold weightOf
    rw [hm]
    apply weightFor_lt <;> nlinarith
  exact ⟨key, (F64.blt_iff _ _).mpr key⟩

/-- C5, at a concrete input: stratum 1 against stratum 2, both with a round-trip time
of 20 ms. -/
theorem C5_weight_monotone_stratum_witness :
    F64.blt (weightOf { address := "b", stratum := 2, rtt := 20000000, offset := -10000000 })
      (weightOf { address := "a", stratum := 1, rtt := 20000000, offset := 50000000 }) = true :=
  (C5_weight_monotone_stratum
    { address := "a", stratum := 1, rtt := 20000000, offset := 50000000 }
    { address := "b", stratum := 2, rtt := 20000000, offset := -10000000 }
    (by decide) (by decide) (by decide) rfl (by decide)).2

/-! ## C6: monotonicity in the round-trip time -/

/-- C6, as stated, fails: two accepted readings with the same stratum and round-trip
times of 10 ms and 10.5 ms have the same `rttMs` and therefore the same weight. -/
theorem C6_weight_monotone_rtt_counterexample :
    Accepted { address := "a", stratum := 1, rtt := 10000000, offset := 0 } ∧
    Accepted { address := "b", stratum := 1, rtt := 10500000, offset := 0 } ∧
    (10000000 : Int) < 10500000 ∧
    ¬ F64.toRat (weightOf { address := "b", stratum := 1, rtt := 10500000, offset := 0 }) <
      F64.toRat (weightOf { address := "a", stratum := 1, rtt := 10000000, offset := 0 }) := by
  refine ⟨by decide, by decide, by decide, ?_⟩
  have : weightOf { address := "b", stratum := 1, rtt := 10500000, offset := 0 } =
      weightOf { address := "a", stratum := 1, rtt := 10000000, offset := 0 } := by decide
  rw [this]
  exact lt_irrefl _

/-- C6, amended. Two accepted readings with the same stratum, the first with the lower
(non-negative) round-trip time: the weight of the first is greater than or equal to the
weight of the second; it is strictly greater exactly when the two readings differ in
`rttMs`, the round-trip time in whole milliseconds with 0 replaced by 1, and the two
weights are equal when `rttMs` is the same. -/
theorem C6_weight_monotone_rtt (r₁ r₂ : ntpServer) (h₁ : Accepted r₁) (h₂ : Accepted r₂)
    (hrtt : 0 ≤ r₁.rtt) (hs : r₁.stratum = r₂.stratum) (hlt : r₁.rtt < r₂.rtt) :
    F64.toRat (weightOf r₂) ≤ F64.toRat (weightOf r₁) ∧
    (rttMsOf r₁ < rttMsOf r₂ ↔ F64.toRat (weightOf r₂) < F64.toRat (weightOf r₁)) ∧
    (rttMsOf r₁ = rttMsOf r₂ → weightOf r₂ = weightOf r₁) := by
  obtain ⟨a1, a2, a3⟩ := h₁
  obtain ⟨b1, b2, b3⟩ := h₂
  obtain ⟨m1, m2⟩ := rttMsOf_bounds r₁ hrtt a3
  obtain ⟨n1, n2⟩ := rttMsOf_bounds r₂ (by omega) b3
  have hmono := rttMsOf_mono r₁ r₂ hrtt hlt.le
  have heq : rttMsOf r₁ = rttMsOf r₂ → weightOf r₂ = weightOf r₁ := by
    intro h; unfold weightOf; rw [h, hs]
  have hstrict : rttMsOf r₁ < rttMsOf r₂ →
      F64.toRat (weightOf r₂) < F64.toRat (weightOf r₁) := by
    intro h
    unfold weightOf
    rw [hs]
    apply weightFor_lt <;> nlinarith
  refine ⟨?_, ⟨hstrict, ?_⟩, heq⟩
  · rcases lt_or_eq_of_le hmono with h | h
    · exact (hstrict h).le
    · rw [heq h]
  · intro h
    rcases lt_or_eq_of_le hmono with h' | h'
    · exact h'
    · rw [heq h'] at h
      exact absurd h (lt_irrefl _)

/-- C6 amended, at a concrete input: round-trip times of 5 ms and 20 ms at stratum 2. -/
theorem C6_weight_monotone_rtt_witness :
    F64.toRat (weightOf { address := "b", stratum := 2, rtt := 20000000, offset := -10000000 }) <
      F64.toRat (weightOf { address := "c", stratum := 2, rtt := 5000000, offset := 5000000 }) :=
  (C6_weight_monotone_rtt
    { address := "c", stratum := 2, rtt := 5000000, offset := 5000000 }
    { address := "b", stratum := 2, rtt := 20000000, offset := -10000000 }
    (by decide) (by decide) (by decide) rfl (by decide)).2.1.mp (by decide)

/-! ## C4: a single accepted reading -/

namespace F64

theorem Near.abs_le {a b : ℚ} (h : Near a b) : |a| ≤ |b| * (1 + 1 / 2 ^ 53) := by
  unfold Near at h
  have : |a| ≤ |b| + |a - b| := by
    have := abs_add (a - b) b
    rw [sub_add_cancel] at this
    linarith
  linarith

/-- Dividing a rounded product by the factor it was multiplied with. -/
theorem Near.div_cancel {p x w : ℚ} (h : Near p (x * w)) (hw : w ≠ 0) : Near (p / w) x := by
  unfold Near at *
  have hw' : 0 < |w| := abs_pos.mpr hw
  have e : p / w - x = (p - x * w) / w := by field_simp; ring
  rw [e, abs_div, div_le_iff₀ hw']
  rw [abs_mul] at h
  calc |p - x * w| ≤ |x| * |w| / 2 ^ 53 := h
    _ = |x| / 2 ^ 53 * |w| := by ring

end F64

theorem weightOf_ne_zero (r : ntpServer) (hs : r.stratum ≠ 0) : (weightOf r).man ≠ 0 := by
  have hm : rttMsOf r ≠ 0 := by
    unfold rttMsOf
    dsimp only
    split <;> simp_all
  have hA : F64.toRat (F64.div F64.one (F64.ofInt r.stratum)) ≠ 0 := by
    have := F64.div_near F64.one (F64.ofInt r.stratum) (F64.ofInt_man_ne_zero _ hs)
    refine this.ne_zero ?_
    rw [F64.toRat_one]
    have : F64.toRat (F64.ofInt r.stratum) ≠ 0 :=
      (F64.ofInt_near _).ne_zero (by exact_mod_cast hs)
    exact one_div_ne_zero this
  have hB : F64.toRat (F64.div F64.one (F64.ofInt (rttMsOf r))) ≠ 0 := by
    have := F64.div_near F64.one (F64.ofInt (rttMsOf r)) (F64.ofInt_man_ne_zero _ hm)
    refine this.ne_zero ?_
    rw [F64.toRat_one]
    have : F64.toRat (F64.ofInt (rttMsOf r)) ≠ 0 :=
      (F64.ofInt_near _).ne_zero (by exact_mod_cast hm)
    exact one_div_ne_zero this
  intro h
  have hz := (F64.toRat_eq_zero_iff _).mpr h
  exact (F64.mul_near _ _).ne_zero (mul_ne_zero hA hB) hz

theorem weightLoop_singleton (r : ntpServer) :
    weightLoop [r] =
      { totalWeight := weightOf r,
        weightedOffsetNs := F64.mul (F64.ofInt r.offset) (weightOf r) } := by
  unfold weightLoop
  simp only [List.foldl_cons, List.foldl_nil, weightStep]
  rw [F64.add_zero_left _ (F64.mul_canonical _ _)]
  have : F64.Canonical (weightOf r) := F64.mul_canonical _ _
  rw [F64.add_zero_left _ this]

/-- The quotient computed for a single reading is less than one nanosecond away from
its offset, for offsets of at most `2 ^ 51` ns. -/
theorem single_quotient_close (r : ntpServer) (hs : r.stratum ≠ 0)
    (hoff : |r.offset| ≤ 2 ^ 51) :
    |F64.toRat (F64.div (F64.mul (F64.ofInt r.offset) (weightOf r)) (weightOf r)) -
      (r.offset : ℚ)| < 1 := by
  have hw := weightOf_ne_zero r hs
  have hwq : F64.toRat (weightOf r) ≠ 0 := fun h => hw ((F64.toRat_eq_zero_iff _).mp h)
  have n0 := F64.ofInt_near r.offset
  have n1 := (F64.mul_near (F64.ofInt r.offset) (weightOf r)).div_cancel hwq
  have n2 := F64.div_near (F64.mul (F64.ofInt r.offset) (weightOf r)) (weightOf r) hw
  have hx : |(r.offset : ℚ)| ≤ 2 ^ 51 := by exact_mod_cast hoff
  set x : ℚ := (r.offset : ℚ) with hxdef
  set X : ℚ := F64.toRat (F64.ofInt r.offset) with hX
  set Q : ℚ := F64.toRat (F64.mul (F64.ofInt r.offset) (weightOf r)) / F64.toRat (weightOf r)
    with hQ
  set Y : ℚ := F64.toRat (F64.div (F64.mul (F64.ofInt r.offset) (weightOf r)) (weightOf r))
    with hY
  have b0 := n0.abs_le
  have b1 := n1.abs_le
  unfold F64.Near at n0 n1 n2
  have hxn : 0 ≤ |x| := abs_nonneg x
  have hXn : 0 ≤ |X| := abs_nonneg X
  have hQn : 0 ≤ |Q| := abs_nonneg Q
  have t : |Y - x| ≤ |Y - Q| + |Q - X| + |X - x| := by
    have e : Y - x = (Y - Q) + (Q - X) + (X - x) := by ring
    rw [e]
    exact le_trans (abs_add _ _) (add_le_add_right (abs_add _ _) _)
  have c1 : |X| ≤ 2 ^ 51 * (1 + 1 / 2 ^ 53) :=
    le_trans b0 (mul_le_mul_of_nonneg_right hx (by norm_num))
  have c2 : |Q| ≤ 2 ^ 51 * (1 + 1 / 2 ^ 53) * (1 + 1 / 2 ^ 53) :=
    le_trans b1 (mul_le_mul_of_nonneg_right c1 (by norm_num))
  have d0 : |x| / 2 ^ 53 ≤ 2 ^ 51 / 2 ^ 53 := div_le_div_of_nonneg_right hx (by norm_num)
  have d1 : |X| / 2 ^ 53 ≤ 2 ^ 51 * (1 + 1 / 2 ^ 53) / 2 ^ 53 :=
    div_le_div_of_nonneg_right c1 (by norm_num)
  have d2 : |Q| / 2 ^ 53 ≤ 2 ^ 51 * (1 + 1 / 2 ^ 53) * (1 + 1 / 2 ^ 53) / 2 ^ 53 :=
    div_le_div_of_nonneg_right c2 (by norm_num)
  have num : (2 : ℚ) ^ 51 / 2 ^ 53 + 2 ^ 51 * (1 + 1 / 2 ^ 53) / 2 ^ 53 +
      2 ^ 51 * (1 + 1 / 2 ^ 53) * (1 + 1 / 2 ^ 53) / 2 ^ 53 < 1 := by norm_num
  linarith

/-- C4, as stated, fails: a single accepted reading with stratum 1, a round-trip time
of 7 ms and an offset of 1 ms (1 000 000 ns) gives the final offset 999 999 ns. -/
theorem C4_single_source_counterexample :
    Accepted { address := "a", stratum := 1, rtt := 7000000, offset := 1000000 } ∧
    finalOffset [{ address := "a", stratum := 1, rtt := 7000000, offset := 1000000 }] =
      Outcome.value 999999 := by
  refine ⟨by decide, by decide⟩

/-- C4, amended. For a single accepted reading whose offset is at most `2 ^ 51` ns in
magnitude (about 26 days), the final offset `weightedOffsetNs / totalWeight` converted
to a `Duration` is the offset of the reading or the neighbouring nanosecond value on
the side of zero; in particular it differs from the offset by at most 1 ns. -/
theorem C4_single_source (r : ntpServer) (h : Accepted r) (hoff : |r.offset| ≤ 2 ^ 51) :
    ∃ off, finalOffset [r] = Outcome.value off ∧
      (off = r.offset ∨ (0 < r.offset ∧ off = r.offset - 1) ∨
        (r.offset < 0 ∧ off = r.offset + 1)) ∧
      |off - r.offset| ≤ 1 := by
  have hs : r.stratum ≠ 0 := by
    obtain ⟨a, _, _⟩ := h
    omega
  have hw := weightOf_ne_zero r hs
  have hz : (weightOf r).isZero = false := by simp [F64.isZero, hw]
  have hclose := single_quotient_close r hs hoff
  have hx : |r.offset| < 2 ^ 62 := lt_of_le_of_lt hoff (by norm_num)
  have key := F64.toInt64_near _ r.offset hx hclose
  refine ⟨F64.toInt64 (F64.div (F64.mul (F64.ofInt r.offset) (weightOf r)) (weightOf r)),
    ?_, key, ?_⟩
  · unfold finalOffset resolveOffset
    rw [weightLoop_singleton]
    simp [hz]
  · rcases key with k | ⟨_, k⟩ | ⟨_, k⟩ <;> rw [k] <;> simp

/-- C4 amended, at a concrete input: stratum 2, round-trip time 20 ms, offset -10 ms. -/
theorem C4_single_source_witness :
    ∃ off, finalOffset [{ address := "b", stratum := 2, rtt := 20000000, offset := -10000000 }] =
        Outcome.value off ∧
      (off = -10000000 ∨ ((0 : Int) < -10000000 ∧ off = -10000000 - 1) ∨
        ((-10000000 : Int) < 0 ∧ off = -10000000 + 1)) ∧
      |off - (-10000000)| ≤ 1 :=
  C4_single_source { address := "b", stratum := 2, rtt := 20000000, offset := -10000000 }
    (by decide) (by decide)

/-! ## accumulated error of the weighting loop -/

namespace F64

/-- Summation in binary64, left to right: the error is at most
`(1 + 2 ^ (-53)) ^ n - 1` times the sum of the magnitudes. -/
theorem foldl_add_err (vs : List F64) (a : F64) :
    |toRat (vs.foldl add a) - (toRat a + (vs.map toRat).sum)| ≤
      ((1 + 1 / 2 ^ 53) ^ vs.length - 1) *
        (|toRat a| + (vs.map (fun v => |toRat v|)).sum) := by
  induction vs generalizing a with
  | nil => simp
  | cons v vs ih =>
    simp only [List.foldl_cons, List.map_cons, List.sum_cons, List.length_cons]
    have h := ih (add a v)
    have hn := add_near a v
    have hb := hn.abs_le
    unfold Near at hn
    set A := toRat a
    set V := toRat v
    set A' := toRat (add a v)
    set R := toRat (vs.foldl add (add a v))
    set S := (vs.map toRat).sum
    set Sa := (vs.map (fun v => |toRat v|)).sum
    set E : ℚ := (1 + 1 / 2 ^ 53) ^ vs.length - 1 with hE
    have hE0 : 0 ≤ E := by
      rw [hE, sub_nonneg]
      exact one_le_pow₀ (by norm_num)
    have hSa : 0 ≤ Sa := by
      apply List.sum_nonneg
      intro x hx
      obtain ⟨y, _, rfl⟩ := List.mem_map.mp hx
      exact abs_nonneg _
    have hAV : |A + V| ≤ |A| + |V| := abs_add A V
    have e1 : (1 + 1 / 2 ^ 53 : ℚ) ^ (vs.length + 1) - 1 = (E + 1) * (1 + 1 / 2 ^ 53) - 1 := by
      rw [hE, pow_succ]; ring
    rw [e1]
    have t : |R - (A + (V + S))| ≤ |R - (A' + S)| + |A' - (A + V)| := by
      have e : R - (A + (V + S)) = (R - (A' + S)) + (A' - (A + V)) := by ring
      rw [e]; exact abs_add _ _
    have h1 : |R - (A' + S)| ≤ E * (|A + V| * (1 + 1 / 2 ^ 53) + Sa) :=
      le_trans h (mul_le_mul_of_nonneg_left (by linarith) hE0)
    have h2 : E * (|A + V| * (1 + 1 / 2 ^ 53) + Sa) ≤
        E * ((|A| + |V|) * (1 + 1 / 2 ^ 53) + Sa) := by
      apply mul_le_mul_of_nonneg_left _ hE0
      have := mul_le_mul_of_nonneg_right hAV (show (0 : ℚ) ≤ 1 + 1 / 2 ^ 53 by norm_num)
      linarith
    have h3 : |A' - (A + V)| ≤ (|A| + |V|) / 2 ^ 53 :=
      le_trans hn (div_le_div_of_nonneg_right hAV (by norm_num))
    have hA : 0 ≤ |A| := abs_nonneg A
    have hV : 0 ≤ |V| := abs_nonneg V
    have h4 : 0 ≤ E * Sa := mul_nonneg hE0 hSa
    have h5 : 0 ≤ Sa / 2 ^ 53 := by positivity
    have expand : ((E + 1) * (1 + 1 / 2 ^ 53) - 1) * (|A| + (|V| + Sa)) =
        E * ((|A| + |V|) * (1 + 1 / 2 ^ 53) + Sa) + (|A| + |V|) / 2 ^ 53 +
          (E * Sa / 2 ^ 53 + Sa / 2 ^ 53) := by ring
    rw [expand]
    have h6 : 0 ≤ E * Sa / 2 ^ 53 := by positivity
    linarith

end F64

theorem weightLoop_fold (l : List ntpServer) (acc : Weights) :
    l.foldl weightStep acc =
      { totalWeight := (l.map weightOf).foldl F64.add acc.totalWeight,
        weightedOffsetNs := (l.map termOf).foldl F64.add acc.weightedOffsetNs } := by
  induction l generalizing acc with
  | nil => rfl
  | cons r rs ih =>
    simp only [List.foldl_cons, List.map_cons]
    rw [ih]
    rfl

theorem weightOf_pos (r : ntpServer) (h : Accepted r) (hrtt : 0 ≤ r.rtt) :
    0 < F64.toRat (weightOf r) := by
  obtain ⟨a1, a2, a3⟩ := h
  obtain ⟨m1, m2⟩ := rttMsOf_bounds r hrtt a3
  exact weightFor_pos _ _ (by omega) (by omega)

theorem termOf_abs_le (r : ntpServer) (hw : 0 < F64.toRat (weightOf r)) :
    |F64.toRat (termOf r)| ≤
      |(r.offset : ℚ)| * ((1 + 1 / 2 ^ 53) * (1 + 1 / 2 ^ 53)) * F64.toRat (weightOf r) := by
  have h1 := (F64.mul_near (F64.ofInt r.offset) (weightOf r)).abs_le
  have h0 := (F64.ofInt_near r.offset).abs_le
  rw [abs_mul, abs_of_pos hw] at h1
  unfold termOf
  have h2 : |F64.toRat (F64.ofInt r.offset)| * F64.toRat (weightOf r) * (1 + 1 / 2 ^ 53) ≤
      |(r.offset : ℚ)| * (1 + 1 / 2 ^ 53) * F64.toRat (weightOf r) * (1 + 1 / 2 ^ 53) :=
    mul_le_mul_of_nonneg_right (mul_le_mul_of_nonneg_right h0 hw.le) (by norm_num)
  calc |F64.toRat (F64.mul (F64.ofInt r.offset) (weightOf r))|
      ≤ |F64.toRat (F64.ofInt r.offset)| * F64.toRat (weightOf r) * (1 + 1 / 2 ^ 53) := h1
    _ ≤ |(r.offset : ℚ)| * (1 + 1 / 2 ^ 53) * F64.toRat (weightOf r) * (1 + 1 / 2 ^ 53) := h2
    _ = |(r.offset : ℚ)| * ((1 + 1 / 2 ^ 53) * (1 + 1 / 2 ^ 53)) * F64.toRat (weightOf r) := by
        ring

theorem weightSum_pos (l : List ntpServer) (hl : l ≠ [])
    (hg : ∀ r ∈ l, Accepted r ∧ 0 ≤ r.rtt) : 0 < weightSum l := by
  unfold weightSum
  induction l with
  | nil => exact absurd rfl hl
  | cons r rs ih =>
    simp only [List.map_cons, List.sum_cons]
    have hr := hg r (List.mem_cons_self _ _)
    have hp := weightOf_pos r hr.1 hr.2
    by_cases hrs : rs = []
    · subst hrs; simpa using hp
    · have := ih hrs (fun x hx => hg x (List.mem_cons_of_mem _ hx))
      linarith

theorem weightSum_abs (l : List ntpServer) (hg : ∀ r ∈ l, Accepted r ∧ 0 ≤ r.rtt) :
    ((l.map weightOf).map (fun v => |F64.toRat v|)).sum = weightSum l := by
  unfold weightSum
  induction l with
  | nil => rfl
  | cons r rs ih =>
    simp only [List.map_cons, List.sum_cons]
    have hr := hg r (List.mem_cons_self _ _)
    rw [abs_of_pos (weightOf_pos r hr.1 hr.2), ih (fun x hx => hg x (List.mem_cons_of_mem _ hx))]

theorem termSum_abs_le (l : List ntpServer) : |termSum l| ≤ termAbsSum l := by
  unfold termSum termAbsSum
  induction l with
  | nil => simp
  | cons r rs ih =>
    simp only [List.map_cons, List.sum_cons]
    exact le_trans (abs_add _ _) (by linarith)

theorem termAbsSum_le (l : List ntpServer) (B : ℚ)
    (hg : ∀ r ∈ l, Accepted r ∧ 0 ≤ r.rtt ∧ |(r.offset : ℚ)| ≤ B) :
    termAbsSum l ≤ B * ((1 + 1 / 2 ^ 53) * (1 + 1 / 2 ^ 53)) * weightSum l := by
  unfold termAbsSum weightSum
  induction l with
  | nil => simp
  | cons r rs ih =>
    simp only [List.map_cons, List.sum_cons]
    have hr := hg r (List.mem_cons_self _ _)
    have hw := weightOf_pos r hr.1 hr.2.1
    have h1 := termOf_abs_le r hw
    have h2 : |(r.offset : ℚ)| * ((1 + 1 / 2 ^ 53) * (1 + 1 / 2 ^ 53)) * F64.toRat (weightOf r) ≤
        B * ((1 + 1 / 2 ^ 53) * (1 + 1 / 2 ^ 53)) * F64.toRat (weightOf r) :=
      mul_le_mul_of_nonneg_right (mul_le_mul_of_nonneg_right hr.2.2 (by norm_num)) hw.le
    have h3 := ih (fun x hx => hg x (List.mem_cons_of_mem _ hx))
    rw [mul_add]
    linarith

theorem weightSum_perm {l l' : List ntpServer} (h : l.Perm l') : weightSum l = weightSum l' :=
  (h.map _).sum_eq

theorem termSum_perm {l l' : List ntpServer} (h : l.Perm l') : termSum l = termSum l' :=
  (h.map _).sum_eq

/-- The quotient of two sums that carry a relative error of `2 ^ (-50)` each, rounded
once more, is within 3/8 of the exact quotient when the terms are at most about
`2 ^ 47` times the weights. -/
theorem quotient_close (Sw Sp Sa T N y : ℚ) (hSw : 0 < Sw) (hT : |T - Sw| ≤ Sw / 2 ^ 50)
    (hN : |N - Sp| ≤ Sa / 2 ^ 50) (hSp : |Sp| ≤ Sa) (hSa : Sa ≤ (2 ^ 47 + 1) * Sw)
    (hy : F64.Near y (N / T)) :
    0 < T ∧ |y - Sp / Sw| ≤ 3 / 8 ∧ |y| ≤ 2 ^ 48 := by
  have hT' := abs_le.mp hT
  have hTlow : Sw * (1 - 1 / 2 ^ 50) ≤ T := by linarith [hT'.1]
  have hTpos : 0 < T := lt_of_lt_of_le (mul_pos hSw (by norm_num)) hTlow
  have hSa0 : 0 ≤ Sa := le_trans (abs_nonneg _) hSp
  have hM : |Sp / Sw| ≤ 2 ^ 47 + 1 := by
    rw [abs_div, abs_of_pos hSw, div_le_iff₀ hSw]
    linarith
  have hMT : |Sp / Sw * (Sw - T)| ≤ Sa / 2 ^ 50 := by
    rw [abs_mul, abs_div, abs_of_pos hSw, abs_sub_comm Sw T]
    calc |Sp| / Sw * |T - Sw| ≤ |Sp| / Sw * (Sw / 2 ^ 50) :=
          mul_le_mul_of_nonneg_left hT (by positivity)
      _ = |Sp| / 2 ^ 50 := by field_simp
      _ ≤ Sa / 2 ^ 50 := div_le_div_of_nonneg_right hSp (by norm_num)
  have hNMT : |N - Sp / Sw * T| ≤ 2 * Sa / 2 ^ 50 := by
    have e : N - Sp / Sw * T = (N - Sp) + Sp / Sw * (Sw - T) := by field_simp; ring
    rw [e]
    have := abs_add (N - Sp) (Sp / Sw * (Sw - T))
    linarith
  have hSaT : Sa ≤ (2 ^ 47 + 1) * (T / (1 - 1 / 2 ^ 50)) := by
    have : Sw ≤ T / (1 - 1 / 2 ^ 50) := by
      rw [le_div_iff₀ (by norm_num)]; exact hTlow
    have := mul_le_mul_of_nonneg_left this (show (0 : ℚ) ≤ 2 ^ 47 + 1 by norm_num)
    linarith
  have hq : |N / T - Sp / Sw| ≤ 2 * (2 ^ 47 + 1) / (1 - 1 / 2 ^ 50) / 2 ^ 50 := by
    have e : N / T - Sp / Sw = (N - Sp / Sw * T) / T := by field_simp; ring
    rw [e, abs_div, abs_of_pos hTpos, div_le_iff₀ hTpos]
    have e2 : 2 * (2 ^ 47 + 1) / (1 - 1 / 2 ^ 50) / 2 ^ 50 * T =
        2 * ((2 ^ 47 + 1) * (T / (1 - 1 / 2 ^ 50))) / 2 ^ 50 := by ring
    rw [e2]
    have : 2 * Sa / 2 ^ 50 ≤ 2 * ((2 ^ 47 + 1) * (T / (1 - 1 / 2 ^ 50))) / 2 ^ 50 :=
      div_le_div_of_nonneg_right (by linarith) (by norm_num)
    linarith
  have hqabs : |N / T| ≤ (2 ^ 47 + 1) + 2 * (2 ^ 47 + 1) / (1 - 1 / 2 ^ 50) / 2 ^ 50 := by
    have := abs_add (N / T - Sp / Sw) (Sp / Sw)
    rw [sub_add_cancel] at this
    linarith
  have hyq : |y - N / T| ≤
      ((2 ^ 47 + 1) + 2 * (2 ^ 47 + 1) / (1 - 1 / 2 ^ 50) / 2 ^ 50) / 2 ^ 53 :=
    le_trans hy (div_le_div_of_nonneg_right hqabs (by norm_num))
  have tri : |y - Sp / Sw| ≤ |y - N / T| + |N / T - Sp / Sw| := by
    have e : y - Sp / Sw = (y - N / T) + (N / T - Sp / Sw) := by ring
    rw [e]; exact abs_add _ _
  have num : ((2 : ℚ) ^ 47 + 1 + 2 * (2 ^ 47 + 1) / (1 - 1 / 2 ^ 50) / 2 ^ 50) / 2 ^ 53 +
      2 * (2 ^ 47 + 1) / (1 - 1 / 2 ^ 50) / 2 ^ 50 ≤ 3 / 8 := by norm_num
  have hfinal : |y - Sp / Sw| ≤ 3 / 8 := by linarith
  refine ⟨hTpos, hfinal, ?_⟩
  have := abs_add (y - Sp / Sw) (Sp / Sw)
  rw [sub_add_cancel] at this
  have : (2 : ℚ) ^ 47 + 1 + 3 / 8 ≤ 2 ^ 48 := by norm_num
  linarith

namespace F64

/-- Conversions of two values less than one apart differ by at most one. -/
theorem toInt64_close (f g : F64) (hf : |toRat f| ≤ 2 ^ 48) (hg : |toRat g| ≤ 2 ^ 48)
    (h : |toRat f - toRat g| < 1) : |toInt64 f - toInt64 g| ≤ 1 := by
  have range : ∀ k : F64, |toRat k| ≤ 2 ^ 48 → toInt64 k = trunc k ∧
      (0 ≤ toRat k → (trunc k : ℚ) ≤ toRat k ∧ toRat k < trunc k + 1) ∧
      (toRat k ≤ 0 → toRat k ≤ trunc k ∧ (trunc k : ℚ) - 1 < toRat k) := by
    intro k hk
    obtain ⟨sp, sn⟩ := trunc_spec k
    rw [abs_le] at hk
    have hr : -2 ^ 63 ≤ trunc k ∧ trunc k < 2 ^ 63 := by
      rcases le_total 0 (toRat k) with hv | hv
      · obtain ⟨t0, t1, t2⟩ := sp hv
        have : (trunc k : ℚ) < 2 ^ 63 := by
          have : (2 : ℚ) ^ 48 < 2 ^ 63 := by norm_num
          linarith [hk.2]
        have : trunc k < 2 ^ 63 := by exact_mod_cast this
        have : (2 : ℤ) ^ 63 = 9223372036854775808 := by norm_num
        omega
      · obtain ⟨t0, t1, t2⟩ := sn hv
        have : (-2 : ℚ) ^ 63 ≤ (trunc k : ℚ) := by
          have : (-2 : ℚ) ^ 63 < -2 ^ 48 := by norm_num
          linarith [hk.1]
        have : (-2 : ℤ) ^ 63 ≤ trunc k := by exact_mod_cast this
        have : (2 : ℤ) ^ 63 = 9223372036854775808 := by norm_num
        have : (-2 : ℤ) ^ 63 = -9223372036854775808 := by norm_num
        omega
    refine ⟨?_, fun hv => (sp hv).2, fun hv => (sn hv).2⟩
    unfold toInt64
    simp only [hr, and_self, if_true]
  obtain ⟨ef, pf, nf⟩ := range f hf
  obtain ⟨eg, pg, ng⟩ := range g hg
  rw [ef, eg]
  rw [abs_lt] at h
  have goal : ((trunc f - trunc g : ℤ) : ℚ) < 2 ∧ (-2 : ℚ) < ((trunc f - trunc g : ℤ) : ℚ) := by
    push_cast
    rcases le_total 0 (toRat f) with hvf | hvf <;> rcases le_total 0 (toRat g) with hvg | hvg
    · have a := pf hvf; have b := pg hvg
      constructor <;> linarith [h.1, h.2]
    · have a := pf hvf; have b := ng hvg
      constructor <;> linarith [h.1, h.2]
    · have a := nf hvf; have b := pg hvg
      constructor <;> linarith [h.1, h.2]
    · have a := nf hvf; have b := ng hvg
      constructor <;> linarith [h.1, h.2]
  have g1 : trunc f - trunc g < 2 := by exact_mod_cast goal.1
  have g2 : -2 < trunc f - trunc g := by exact_mod_cast goal.2
  rw [abs_le]
  omega

end F64

theorem pow_six_bound (n : Nat) (hn : n ≤ 6) :
    (1 + 1 / 2 ^ 53 : ℚ) ^ n - 1 ≤ 1 / 2 ^ 50 := by
  have h1 : (1 + 1 / 2 ^ 53 : ℚ) ^ n ≤ (1 + 1 / 2 ^ 53) ^ 6 :=
    pow_le_pow_right₀ (by norm_num) hn
  have h2 : (1 + 1 / 2 ^ 53 : ℚ) ^ 6 - 1 ≤ 1 / 2 ^ 50 := by norm_num
  linarith

/-- The weighted branch on a list of at most six accepted readings with non-negative
round-trip times and offsets of at most `2 ^ 47` ns: the quotient that is converted to
the final offset is within 3/8 ns of the exact quotient of the sums, which does not
depend on the order of the list. -/
theorem finalOffset_spec (l : List ntpServer) (hl : l ≠ []) (hlen : l.length ≤ 6)
    (hg : ∀ r ∈ l, Accepted r ∧ 0 ≤ r.rtt ∧ |r.offset| ≤ 2 ^ 47) :
    ∃ f : F64, finalOffset l = Outcome.value (F64.toInt64 f) ∧
      |F64.toRat f - termSum l / weightSum l| ≤ 3 / 8 ∧ |F64.toRat f| ≤ 2 ^ 48 ∧
      0 < F64.toRat (weightLoop l).totalWeight := by
  have hg' : ∀ r ∈ l, Accepted r ∧ 0 ≤ r.rtt := fun r hr => ⟨(hg r hr).1, (hg r hr).2.1⟩
  have hgq : ∀ r ∈ l, Accepted r ∧ 0 ≤ r.rtt ∧ |(r.offset : ℚ)| ≤ 2 ^ 47 := by
    intro r hr
    refine ⟨(hg r hr).1, (hg r hr).2.1, ?_⟩
    exact_mod_cast (hg r hr).2.2
  have hSw := weightSum_pos l hl hg'
  have hE := pow_six_bound l.length hlen
  have hloop : weightLoop l =
      { totalWeight := (l.map weightOf).foldl F64.add F64.zero,
        weightedOffsetNs := (l.map termOf).foldl F64.add F64.zero } := by
    unfold weightLoop
    rw [weightLoop_fold]
  set Tf := (l.map weightOf).foldl F64.add F64.zero with hTf
  set Nf := (l.map termOf).foldl F64.add F64.zero with hNf
  have eT := F64.foldl_add_err (l.map weightOf) F64.zero
  have eN := F64.foldl_add_err (l.map termOf) F64.zero
  rw [← hTf] at eT
  rw [← hNf] at eN
  rw [F64.toRat_zero, abs_zero, zero_add, zero_add, List.length_map] at eT eN
  rw [weightSum_abs l hg'] at eT
  have m1 : ((l.map weightOf).map F64.toRat).sum = weightSum l := by
    unfold weightSum; rw [List.map_map]; rfl
  have m2 : ((l.map termOf).map F64.toRat).sum = termSum l := by
    unfold termSum; rw [List.map_map]; rfl
  have m3 : ((l.map termOf).map (fun v => |F64.toRat v|)).sum = termAbsSum l := by
    unfold termAbsSum; rw [List.map_map]; rfl
  rw [m1] at eT
  rw [m2, m3] at eN
  have hSa0 : 0 ≤ termAbsSum l := le_trans (abs_nonneg _) (termSum_abs_le l)
  have hT : |F64.toRat Tf - weightSum l| ≤ weightSum l / 2 ^ 50 := by
    have := mul_le_mul_of_nonneg_right hE hSw.le
    rw [div_eq_mul_one_div, mul_comm (weightSum l)]
    linarith
  have hN : |F64.toRat Nf - termSum l| ≤ termAbsSum l / 2 ^ 50 := by
    have := mul_le_mul_of_nonneg_right hE hSa0
    rw [div_eq_mul_one_div, mul_comm (termAbsSum l)]
    linarith
  have hSa : termAbsSum l ≤ (2 ^ 47 + 1) * weightSum l := by
    have h1 := termAbsSum_le l (2 ^ 47) hgq
    have h2 : (2 : ℚ) ^ 47 * ((1 + 1 / 2 ^ 53) * (1 + 1 / 2 ^ 53)) ≤ 2 ^ 47 + 1 := by norm_num
    have := mul_le_mul_of_nonneg_right h2 hSw.le
    linarith
  have hTpos : 0 < F64.toRat Tf := by
    have hT' := abs_le.mp hT
    have : weightSum l * (1 - 1 / 2 ^ 50) ≤ F64.toRat Tf := by linarith [hT'.1]
    exact lt_of_lt_of_le (mul_pos hSw (by norm_num)) this
  have hTman : Tf.man ≠ 0 := fun h => hTpos.ne' ((F64.toRat_eq_zero_iff _).mpr h)
  have hy := F64.div_near Nf Tf hTman
  obtain ⟨_, c1, c2⟩ := quotient_close (weightSum l) (termSum l) (termAbsSum l) (F64.toRat Tf)
    (F64.toRat Nf) (F64.toRat (F64.div Nf Tf)) hSw hT hN (termSum_abs_le l) hSa hy
  refine ⟨F64.div Nf Tf, ?_, c1, c2, ?_⟩
  · unfold finalOffset resolveOffset
    rw [hloop]
    have hz : Tf.isZero = false := by simp [F64.isZero, hTman]
    simp [hz]
  · rw [hloop]; exact hTpos

theorem perm_pair (x y : ntpServer) (l : List ntpServer) (h : l.Perm [x, y]) :
    l = [x, y] ∨ l = [y, x] := by
  have hlen := h.length_eq
  match l, hlen with
  | [a, b], _ =>
    have ha : a ∈ [x, y] := h.mem_iff.mp (List.mem_cons_self _ _)
    simp only [List.mem_cons, List.mem_singleton, List.not_mem_nil, or_false] at ha
    rcases ha with rfl | rfl
    · have := (List.perm_cons a).mp h
      have := List.perm_singleton.mp this
      left; simp_all
    · have h2 : [a, b].Perm [a, x] := h.trans (List.Perm.swap a x [])
      have := (List.perm_cons a).mp h2
      have := List.perm_singleton.mp this
      right; simp_all

theorem finalOffset_swap (x y : ntpServer) : finalOffset [x, y] = finalOffset [y, x] := by
  have hw : weightLoop [x, y] = weightLoop [y, x] := by
    unfold weightLoop
    simp only [List.foldl_cons, List.foldl_nil, weightStep]
    rw [F64.add_zero_left _ (F64.mul_canonical _ _), F64.add_zero_left _ (F64.mul_canonical _ _)]
    have cx : F64.Canonical (weightOf x) := F64.mul_canonical _ _
    have cy : F64.Canonical (weightOf y) := F64.mul_canonical _ _
    rw [F64.add_zero_left _ cx, F64.add_zero_left _ cy]
    rw [F64.add_comm (weightOf x) (weightOf y),
      F64.add_comm (F64.mul (F64.ofInt x.offset) (weightOf x))]
  have ht : totalOffsetOf [x, y] = totalOffsetOf [y, x] := by
    rw [totalOffsetOf_eq, totalOffsetOf_eq]
    simp only [List.map_cons, List.map_nil, List.sum_cons, List.sum_nil]
    congr 1
    ring
  unfold finalOffset resolveOffset
  rw [hw, ht]
  rfl

/-! ## C7: the ranking and the computed offset -/

/-- C7, as stated, fails: for the three accepted readings of `rosterOrder` the final
offset computed on the ranked list is -27 999 999 ns, while the same computation on the
list in roster order gives -28 000 000 ns (the binary64 sums depend on the order of the
additions). -/
theorem C7_ranking_offset_counterexample :
    (∀ r ∈ rosterOrder, Accepted r) ∧
    (sortSlice rosterOrder).Perm rosterOrder ∧
    finalOffset (sortSlice rosterOrder) = Outcome.value (-27999999) ∧
    finalOffset rosterOrder = Outcome.value (-28000000) := by
  refine ⟨by decide, sortSlice_perm _, by decide, by decide⟩

/-- C7, amended. For a non-empty list of at most six accepted readings with
non-negative round-trip times and offsets of at most `2 ^ 47` ns in magnitude (about 39
hours), the final offset computed on any permutation of the list, in particular on the
ranked list, differs from the one computed on the list itself by at most 1 ns; for a
list of at most two readings the two values are equal. -/
theorem C7_ranking_offset (l l' : List ntpServer) (hp : l'.Perm l) (hl : l ≠ [])
    (hlen : l.length ≤ 6)
    (hg : ∀ r ∈ l, Accepted r ∧ 0 ≤ r.rtt ∧ |r.offset| ≤ 2 ^ 47) :
    (∃ a b, finalOffset l' = Outcome.value a ∧ finalOffset l = Outcome.value b ∧
      |a - b| ≤ 1) ∧
    (∃ a b, finalOffset (sortSlice l) = Outcome.value a ∧ finalOffset l = Outcome.value b ∧
      |a - b| ≤ 1) ∧
    (l.length ≤ 2 → finalOffset l' = finalOffset l ∧ finalOffset (sortSlice l) = finalOffset l) := by
  have close : ∀ k : List ntpServer, k.Perm l →
      ∃ a b, finalOffset k = Outcome.value a ∧ finalOffset l = Outcome.value b ∧
        |a - b| ≤ 1 := by
    intro k hk
    have hk0 : k ≠ [] := by
      intro h; subst h
      exact hl (List.length_eq_zero.mp hk.length_eq.symm)
    have hklen : k.length ≤ 6 := by rw [hk.length_eq]; exact hlen
    have hkg : ∀ r ∈ k, Accepted r ∧ 0 ≤ r.rtt ∧ |r.offset| ≤ 2 ^ 47 :=
      fun r hr => hg r (hk.mem_iff.mp hr)
    obtain ⟨f, f1, f2, f3, _⟩ := finalOffset_spec k hk0 hklen hkg
    obtain ⟨g, g1, g2, g3, _⟩ := finalOffset_spec l hl hlen hg
    refine ⟨_, _, f1, g1, ?_⟩
    apply F64.toInt64_close f g f3 g3
    rw [termSum_perm hk, weightSum_perm hk] at f2
    have tri : |F64.toRat f - F64.toRat g| ≤
        |F64.toRat f - termSum l / weightSum l| + |F64.toRat g - termSum l / weightSum l| := by
      have e : F64.toRat f - F64.toRat g =
          (F64.toRat f - termSum l / weightSum l) - (F64.toRat g - termSum l / weightSum l) := by
        ring
      rw [e]; exact abs_sub _ _
    have : (3 : ℚ) / 8 + 3 / 8 < 1 := by norm_num
    linarith
  have small : ∀ k : List ntpServer, k.Perm l → l.length ≤ 2 → finalOffset k = finalOffset l := by
    intro k hk h2
    match l, h2 with
    | [], _ => exact absurd rfl hl
    | [x], _ => rw [List.perm_singleton.mp hk]
    | [x, y], _ =>
      rcases perm_pair x y k hk with h | h
      · rw [h]
      · rw [h]; exact finalOffset_swap y x
  exact ⟨close l' hp, close _ (sortSlice_perm l),
    fun h2 => ⟨small l' hp h2, small _ (sortSlice_perm l) h2⟩⟩

/-- C7 amended, at a concrete input: on `rosterOrder` the ranked and the unranked
computation differ by at most 1 ns. -/
theorem C7_ranking_offset_witness :
    ∃ a b, finalOffset (sortSlice rosterOrder) = Outcome.value a ∧
      finalOffset rosterOrder = Outcome.value b ∧ |a - b| ≤ 1 :=
  (C7_ranking_offset rosterOrder (sortSlice rosterOrder) (sortSlice_perm _) (by decide)
    (by decide) (by decide)).1

/-! ## C14: the zero-weight branch -/

/-- A binary64 sum of positive values that starts from a non-negative value with at
least one summand, or from a positive value, is positive. -/
theorem foldl_add_pos (vs : List F64) (a : F64) (ha : 0 ≤ F64.toRat a)
    (hv : ∀ v ∈ vs, 0 < F64.toRat v) (h : 0 < F64.toRat a ∨ vs ≠ []) :
    0 < F64.toRat (vs.foldl F64.add a) := by
  induction vs generalizing a with
  | nil =>
    rcases h with h | h
    · exact h
    · exact absurd rfl h
  | cons v vs ih =>
    simp only [List.foldl_cons]
    have hpos : 0 < F64.toRat (F64.add a v) :=
      (F64.add_near a v).pos_of_pos (by
        have := hv v (List.mem_cons_self _ _)
        linarith)
    exact ih _ hpos.le (fun x hx => hv x (List.mem_cons_of_mem _ hx)) (Or.inl hpos)

/-- C14. For every non-empty list of accepted readings with non-negative round-trip
times (of any length) every weight is strictly positive, the accumulated
`totalWeight` is strictly positive, the test `totalWeight == 0` is false, and the
offset resolution takes the weighted branch: `finalOffset` is the conversion of
`weightedOffsetNs / totalWeight`. -/
theorem C14_zero_branch_unreachable (l : List ntpServer) (hl : l ≠ [])
    (hg : ∀ r ∈ l, Accepted r ∧ 0 ≤ r.rtt) :
    (∀ r ∈ l, 0 < F64.toRat (weightOf r)) ∧
    0 < F64.toRat (weightLoop l).totalWeight ∧
    (weightLoop l).totalWeight.isZero = false ∧
    finalOffset l = Outcome.value
      (F64.toInt64 (F64.div (weightLoop l).weightedOffsetNs (weightLoop l).totalWeight)) := by
  have hw : ∀ r ∈ l, 0 < F64.toRat (weightOf r) := fun r hr =>
    weightOf_pos r (hg r hr).1 (hg r hr).2
  have hT : 0 < F64.toRat (weightLoop l).totalWeight := by
    unfold weightLoop
    rw [weightLoop_fold]
    apply foldl_add_pos
    · simp [F64.toRat_zero]
    · intro v hv
      obtain ⟨r, hr, rfl⟩ := List.mem_map.mp hv
      exact hw r hr
    · right
      simpa using hl
  have hz : (weightLoop l).totalWeight.isZero = false := by
    cases hb : (weightLoop l).totalWeight.isZero with
    | false => rfl
    | true =>
      have := (F64.isZero_iff _).mp hb
      linarith
  refine ⟨hw, hT, hz, ?_⟩
  unfold finalOffset resolveOffset
  simp [hz]

/-- C14, at a concrete input: the three readings of the scenario. -/
theorem C14_zero_branch_unreachable_witness :
    (weightLoop scenario).totalWeight.isZero = false ∧
    finalOffset scenario = Outcome.value
      (F64.toInt64 (F64.div (weightLoop scenario).weightedOffsetNs
        (weightLoop scenario).totalWeight)) :=
  (C14_zero_branch_unreachable scenario (by decide) (by decide)).2.2

/-! ## C16: safety of the steps after the filter -/

/-- C16. After the query loop `validResponses` equals `len(responses)`, the number of
accepted readings.  When the check `validResponses == 0` does not return, that number
is at least 1 and the sort keeps it; the offset resolution yields a value whatever the
accumulated weights are (the division by `len(responses)` of the unweighted branch is
not by zero); `responses[0]` exists; the call returns a timestamp and appends exactly
one line to the log, whose count is the number of accepted readings.  In no case does
`getAccurateNTPTime` end in a run-time panic. -/
theorem C16_post_filter_safety (w : World) (st : Sys)
    (h : (queryLoop w { sys := st, responses := [], validResponses := 0 }
      servers).validResponses ≠ 0) :
    (queryLoop w { sys := st, responses := [], validResponses := 0 } servers).validResponses =
      ((queryLoop w { sys := st, responses := [], validResponses := 0 }
        servers).responses.length : Int) ∧
    (queryLoop w { sys := st, responses := [], validResponses := 0 } servers).responses =
      acceptedFrom w st.calls.length servers ∧
    1 ≤ (sortSlice (queryLoop w { sys := st, responses := [], validResponses := 0 }
      servers).responses).length ∧
    (∀ wts : Weights, ∃ off, resolveOffset wts (sortSlice (queryLoop w
      { sys := st, responses := [], validResponses := 0 } servers).responses) =
        Outcome.value off) ∧
    (∃ best off, (sortSlice (queryLoop w { sys := st, responses := [], validResponses := 0 }
        servers).responses).head? = some best ∧
      getAccurateNTPTime w st =
        (Outcome.value (w.format (w.now + off)),
         { calls := st.calls ++ servers,
           logs := (queryLoop w { sys := st, responses := [], validResponses := 0 }
             servers).sys.logs ++
               [LogLine.used ((acceptedFrom w st.calls.length servers).length : Int)
                 best.address best.stratum best.rtt] })) ∧
    ∀ msg, (getAccurateNTPTime w st).1 ≠ Outcome.panic msg := by
  have hv := queryLoop_valid w servers { sys := st, responses := [], validResponses := 0 }
  have hr := queryLoop_responses w servers { sys := st, responses := [], validResponses := 0 }
  have hc := queryLoop_calls w servers { sys := st, responses := [], validResponses := 0 }
  simp only [List.nil_append] at hr
  simp only [zero_add] at hv
  dsimp only at hc
  have hne : acceptedFrom w st.calls.length servers ≠ [] := by
    intro hnil
    apply h
    rw [hv, hnil]
    rfl
  have hsne := sortSlice_ne_nil _ hne
  have hlen : 1 ≤ (sortSlice (acceptedFrom w st.calls.length servers)).length :=
    List.length_pos.mpr hsne
  obtain ⟨off, hoff⟩ := finalOffset_value _ hsne
  refine ⟨by rw [hv, hr], hr, by rw [hr]; exact hlen, ?_, ?_, ?_⟩
  · intro wts
    rw [hr]
    unfold resolveOffset
    have : (sortSlice (acceptedFrom w st.calls.length servers)).length ≠ 0 := by omega
    split
    · simp [this]
    · exact ⟨_, rfl⟩
  · rw [hr]
    cases hh : (sortSlice (acceptedFrom w st.calls.length servers)).head? with
    | none => exact absurd (List.head?_eq_none_iff.mp hh) hsne
    | some best =>
      refine ⟨best, off, rfl, ?_⟩
      unfold getAccurateNTPTime
      have h0 : ((acceptedFrom w st.calls.length servers).length : Int) ≠ 0 := by
        rw [← hv]; exact h
      simp only [hr, hoff, hh, hv]
      rw [if_neg h0, ← hc]
  · intro msg hp
    obtain ⟨off', _, hval⟩ := getAccurateNTPTime_cons w st hne
    rw [hval] at hp
    cases hp

/-- C16, at a concrete input: in `sampleWorld` one reading is accepted; the call
returns the formatted time and logs that one server was used, the stratum-1 one. -/
theorem C16_post_filter_safety_witness :
    ∃ best off, (sortSlice (queryLoop sampleWorld
        { sys := freshSys, responses := [], validResponses := 0 } servers).responses).head? =
          some best ∧
      getAccurateNTPTime sampleWorld freshSys =
        (Outcome.value (sampleWorld.format (sampleWorld.now + off)),
         { calls := freshSys.calls ++ servers,
           logs := (queryLoop sampleWorld { sys := freshSys, responses := [], validResponses := 0 }
             servers).sys.logs ++
               [LogLine.used ((acceptedFrom sampleWorld freshSys.calls.length servers).length : Int)
                 best.address best.stratum best.rtt] }) :=
  (C16_post_filter_safety sampleWorld freshSys (by decide)).2.2.2.2.1

/-! ## C13: the weight of one reading -/

/-- The value `rttMs` is never zero, so `1.0 / float64(rttMs)` does not divide by zero. -/
theorem rttMsOf_ne_zero (r : ntpServer) : rttMsOf r ≠ 0 := by
  unfold rttMsOf
  dsimp only
  split <;> omega

/-- The value `rttMs` is `max(1, whole milliseconds)` exactly for the round-trip times
above minus one millisecond; a round-trip time of minus one millisecond or less is
used with its negative number of milliseconds. -/
theorem rttMsOf_eq_max_iff (r : ntpServer) :
    rttMsOf r = max 1 (Milliseconds r.rtt) ↔ -Millisecond < r.rtt := by
  unfold rttMsOf Milliseconds Millisecond
  dsimp only
  rcases le_total 0 r.rtt with hp | hn
  · rw [Int.tdiv_eq_ediv hp (by norm_num)]
    split <;> omega
  · have e : Int.tdiv r.rtt 1000000 = -((-r.rtt) / 1000000) := by
      have : r.rtt = -(-r.rtt) := by omega
      rw [this, Int.neg_tdiv, Int.tdiv_eq_ediv (by omega) (by norm_num)]
      simp
    rw [e]
    split <;> omega

/-- C13. For an accepted reading with a non-negative round-trip time the value `rttMs`
is `max(1, whole milliseconds of the round-trip time)` and the weight is the binary64
value of `(1.0 / float64(stratum)) * (1.0 / float64(rttMs))`; a round-trip time below
one millisecond gives `rttMs = 1`.  Neither divisor is zero, the weight is the exact
product `(1 / stratum) * (1 / rttMs)` up to the five roundings of the computation, and
it lies strictly between `2 ^ (-13)` and `2`, far inside the range of normal binary64
numbers. -/
theorem C13_weight_formula (r : ntpServer) (h : Accepted r) (hrtt : 0 ≤ r.rtt) :
    rttMsOf r = max 1 (Milliseconds r.rtt) ∧
    weightOf r =
      F64.mul (F64.div F64.one (F64.ofInt r.stratum))
        (F64.div F64.one (F64.ofInt (max 1 (Milliseconds r.rtt)))) ∧
    (r.rtt < Millisecond → rttMsOf r = 1 ∧ weightOf r = weightFor r.stratum 1) ∧
    (F64.ofInt r.stratum).isZero = false ∧
    (F64.ofInt (rttMsOf r)).isZero = false ∧
    F64.Within ((1 + 1 / 2 ^ 51) * ((1 + 1 / 2 ^ 51) * (1 + 1 / 2 ^ 51) *
        ((1 + 1 / 2 ^ 51) * (1 + 1 / 2 ^ 51))))
      (F64.toRat (weightOf r))
      (1 / (r.stratum : ℚ) * (1 / ((max 1 (Milliseconds r.rtt) : Int) : ℚ))) ∧
    (1 : ℚ) / 2 ^ 13 < F64.toRat (weightOf r) ∧ F64.toRat (weightOf r) < 2 := by
  obtain ⟨a1, a2, a3⟩ := h
  obtain ⟨m1, m2⟩ := rttMsOf_bounds r hrtt a3
  have hmax : rttMsOf r = max 1 (Milliseconds r.rtt) :=
    (rttMsOf_eq_max_iff r).mpr (by unfold Millisecond; omega)
  have hs : (0 : Int) < r.stratum := by omega
  have hm : (0 : Int) < rttMsOf r := by omega
  have hW := weightFor_within r.stratum (rttMsOf r) hs hm
  have nz : ∀ i : Int, i ≠ 0 → (F64.ofInt i).isZero = false := by
    intro i hi
    have := F64.ofInt_man_ne_zero i hi
    simp [F64.isZero, this]
  have hsub : r.rtt < Millisecond → rttMsOf r = 1 := by
    intro hlt
    unfold rttMsOf Milliseconds
    unfold Millisecond at hlt
    rw [Int.tdiv_eq_ediv hrtt (by norm_num)]
    dsimp only
    have : r.rtt / 1000000 = 0 := Int.ediv_eq_zero_of_lt hrtt hlt
    simp [this]
  have hsq : (1 : ℚ) ≤ r.stratum := by exact_mod_cast a1
  have hsq4 : (r.stratum : ℚ) ≤ 4 := by exact_mod_cast a2
  have hmq : (1 : ℚ) ≤ (rttMsOf r : ℚ) := by exact_mod_cast m1
  have hmq4 : ((rttMsOf r : Int) : ℚ) ≤ 1999 := by exact_mod_cast m2
  have hx1 : 1 / (r.stratum : ℚ) * (1 / (rttMsOf r : ℚ)) ≤ 1 := by
    have e : 1 / (r.stratum : ℚ) * (1 / (rttMsOf r : ℚ)) = 1 / ((r.stratum : ℚ) * rttMsOf r) := by
      field_simp
    rw [e, div_le_one (by positivity)]
    nlinarith
  have hx2 : (1 : ℚ) / 7996 ≤ 1 / (r.stratum : ℚ) * (1 / (rttMsOf r : ℚ)) := by
    have e : 1 / (r.stratum : ℚ) * (1 / (rttMsOf r : ℚ)) = 1 / ((r.stratum : ℚ) * rttMsOf r) := by
      field_simp
    rw [e]
    apply one_div_le_one_div_of_le (by positivity)
    nlinarith
  refine ⟨hmax, ?_, fun hlt => ⟨hsub hlt, ?_⟩, nz _ (by omega), nz _ (by omega), ?_, ?_, ?_⟩
  · unfold weightOf weightFor
    rw [hmax]
  · unfold weightOf
    rw [hsub hlt]
  · rw [← hmax]
    exact hW
  · have h1 := hW.1
    unfold weightOf
    set R : ℚ := (1 + 1 / 2 ^ 51) * ((1 + 1 / 2 ^ 51) * (1 + 1 / 2 ^ 51) *
        ((1 + 1 / 2 ^ 51) * (1 + 1 / 2 ^ 51))) with hR
    have hRpos : 0 < R := by rw [hR]; norm_num
    have hR2 : R < 8192 / 7996 := by rw [hR]; norm_num
    clear_value R
    have h2 : (1 : ℚ) / 7996 / R ≤ 1 / (r.stratum : ℚ) * (1 / (rttMsOf r : ℚ)) / R :=
      div_le_div_of_nonneg_right hx2 hRpos.le
    have h3 : (1 : ℚ) / 2 ^ 13 < 1 / 7996 / R := by
      rw [div_div, div_lt_div_iff₀ (by norm_num) (by positivity)]
      norm_num
      linarith
    linarith
  · have h1 := hW.2
    unfold weightOf
    set R : ℚ := (1 + 1 / 2 ^ 51) * ((1 + 1 / 2 ^ 51) * (1 + 1 / 2 ^ 51) *
        ((1 + 1 / 2 ^ 51) * (1 + 1 / 2 ^ 51))) with hR
    have hRpos : 0 < R := by rw [hR]; norm_num
    have hR2 : R < 2 := by rw [hR]; norm_num
    clear_value R
    have h2 : 1 / (r.stratum : ℚ) * (1 / (rttMsOf r : ℚ)) * R ≤ 1 * R :=
      mul_le_mul_of_nonneg_right hx1 hRpos.le
    linarith

/-- C13, at a concrete input: a stratum-2 reading with a round-trip time of 0.4 ms is
weighted like one with 1 ms. -/
theorem C13_weight_formula_witness :
    rttMsOf { address := "a", stratum := 2, rtt := 400000, offset := 0 } = 1 ∧
    weightOf { address := "a", stratum := 2, rtt := 400000, offset := 0 } = weightFor 2 1 :=
  (C13_weight_formula { address := "a", stratum := 2, rtt := 400000, offset := 0 }
    (by decide) (by decide)).2.2.1 (by decide)

/-! ## C15: the computed offset and the range of the accepted offsets -/

namespace F64

/-- Conversion of a value of magnitude at most `2 ^ 48`: the integer part. -/
theorem toInt64_of_small (f : F64) (hf : |toRat f| ≤ 2 ^ 48) : toInt64 f = trunc f := by
  obtain ⟨sp, sn⟩ := trunc_spec f
  rw [abs_le] at hf
  have hr : -2 ^ 63 ≤ trunc f ∧ trunc f < 2 ^ 63 := by
    rcases le_total 0 (toRat f) with hv | hv
    · obtain ⟨t0, t1, t2⟩ := sp hv
      have : (trunc f : ℚ) < 2 ^ 63 := by
        have : (2 : ℚ) ^ 48 < 2 ^ 63 := by norm_num
        linarith [hf.2]
      have : trunc f < 2 ^ 63 := by exact_mod_cast this
      have : (2 : ℤ) ^ 63 = 9223372036854775808 := by norm_num
      omega
    · obtain ⟨t0, t1, t2⟩ := sn hv
      have : (-2 : ℚ) ^ 63 ≤ (trunc f : ℚ) := by
        have : (-2 : ℚ) ^ 63 < -2 ^ 48 := by norm_num
        linarith [hf.1]
      have : (-2 : ℤ) ^ 63 ≤ trunc f := by exact_mod_cast this
      have : (2 : ℤ) ^ 63 = 9223372036854775808 := by norm_num
      have : (-2 : ℤ) ^ 63 = -9223372036854775808 := by norm_num
      omega
  unfold toInt64
  simp only [hr, and_self, if_true]

/-- The integer part of a value that is less than half a unit outside the integer
interval from `a` to `b` is at most one unit outside it, and only on the side of
zero. -/
theorem trunc_between (f : F64) (a b : ℤ) (h₁ : (a : ℚ) - 1 / 2 < toRat f)
    (h₂ : toRat f < (b : ℚ) + 1 / 2) :
    a - 1 ≤ trunc f ∧ trunc f ≤ b + 1 ∧ (0 ≤ a → trunc f ≤ b) ∧ (b ≤ 0 → a ≤ trunc f) := by
  obtain ⟨sp, sn⟩ := trunc_spec f
  have hab : a ≤ b := by
    have : (a : ℚ) < ((b + 1 : ℤ) : ℚ) := by push_cast; linarith
    have : a < b + 1 := by exact_mod_cast this
    omega
  rcases le_total 0 (toRat f) with hv | hv
  · obtain ⟨t0, t1, t2⟩ := sp hv
    have c1 : ((a - 1 : ℤ) : ℚ) < (trunc f : ℚ) + 1 := by push_cast; linarith
    have c2 : (trunc f : ℚ) < ((b + 1 : ℤ) : ℚ) := by push_cast; linarith
    have c1' : a - 1 < trunc f + 1 := by exact_mod_cast c1
    have c2' : trunc f < b + 1 := by exact_mod_cast c2
    refine ⟨by omega, by omega, fun _ => by omega, fun _ => by omega⟩
  · obtain ⟨t0, t1, t2⟩ := sn hv
    have c1 : ((a - 1 : ℤ) : ℚ) < (trunc f : ℚ) := by push_cast; linarith
    have c2 : (trunc f : ℚ) - 1 < ((b + 1 : ℤ) : ℚ) := by push_cast; linarith
    have c1' : a - 1 < trunc f := by exact_mod_cast c1
    have c2' : trunc f - 1 < b + 1 := by exact_mod_cast c2
    refine ⟨by omega, by omega, fun _ => by omega, fun _ => by omega⟩

end F64

/-- The term `float64(offset) * weight` of a reading with an offset of at most
`2 ^ 47` ns is within a sixteenth of the weight of the exact product. -/
theorem termOf_close (r : ntpServer) (hw : 0 < F64.toRat (weightOf r))
    (hx : |(r.offset : ℚ)| ≤ 2 ^ 47) :
    |F64.toRat (termOf r) - (r.offset : ℚ) * F64.toRat (weightOf r)| ≤
      F64.toRat (weightOf r) / 16 := by
  have h1 := F64.mul_near (F64.ofInt r.offset) (weightOf r)
  have h0 := F64.ofInt_near r.offset
  have h0' := h0.abs_le
  unfold F64.Near at h1 h0
  unfold termOf
  set P := F64.toRat (F64.mul (F64.ofInt r.offset) (weightOf r))
  set X := F64.toRat (F64.ofInt r.offset)
  set W := F64.toRat (weightOf r)
  set x : ℚ := (r.offset : ℚ)
  rw [abs_mul, abs_of_pos hw] at h1
  have t : |P - x * W| ≤ |P - X * W| + |X - x| * W := by
    have e : P - x * W = (P - X * W) + (X - x) * W := by ring
    rw [e]
    refine le_trans (abs_add _ _) ?_
    rw [abs_mul, abs_of_pos hw]
  have hx0 : 0 ≤ |x| := abs_nonneg x
  have b1 : |X| * W / 2 ^ 53 ≤ |x| * (1 + 1 / 2 ^ 53) * W / 2 ^ 53 :=
    div_le_div_of_nonneg_right (mul_le_mul_of_nonneg_right h0' hw.le) (by norm_num)
  have b2 : |X - x| * W ≤ |x| / 2 ^ 53 * W := mul_le_mul_of_nonneg_right h0 hw.le
  have b3 : |x| * (1 + 1 / 2 ^ 53) * W / 2 ^ 53 + |x| / 2 ^ 53 * W =
      |x| * W * ((1 + 1 / 2 ^ 53) / 2 ^ 53 + 1 / 2 ^ 53) := by ring
  have b4 : |x| * W * ((1 + 1 / 2 ^ 53) / 2 ^ 53 + 1 / 2 ^ 53) ≤
      2 ^ 47 * W * ((1 + 1 / 2 ^ 53) / 2 ^ 53 + 1 / 2 ^ 53) :=
    mul_le_mul_of_nonneg_right (mul_le_mul_of_nonneg_right hx hw.le) (by norm_num)
  have b5 : (2 : ℚ) ^ 47 * W * ((1 + 1 / 2 ^ 53) / 2 ^ 53 + 1 / 2 ^ 53) ≤ W / 16 := by
    have : (2 : ℚ) ^ 47 * ((1 + 1 / 2 ^ 53) / 2 ^ 53 + 1 / 2 ^ 53) ≤ 1 / 16 := by norm_num
    have := mul_le_mul_of_nonneg_right this hw.le
    linarith
  linarith

/-- The exact sum of the terms lies between the sums of the weights multiplied by a
lower and by an upper bound of the offsets, widened by a sixteenth. -/
theorem termSum_bounds (l : List ntpServer) (a b : ℚ)
    (hg : ∀ r ∈ l, Accepted r ∧ 0 ≤ r.rtt ∧ |(r.offset : ℚ)| ≤ 2 ^ 47)
    (hab : ∀ r ∈ l, a ≤ (r.offset : ℚ) ∧ (r.offset : ℚ) ≤ b) :
    (a - 1 / 16) * weightSum l ≤ termSum l ∧ termSum l ≤ (b + 1 / 16) * weightSum l := by
  unfold termSum weightSum
  induction l with
  | nil => simp
  | cons r rs ih =>
    simp only [List.map_cons, List.sum_cons]
    have hr := hg r (List.mem_cons_self _ _)
    have hw := weightOf_pos r hr.1 hr.2.1
    have hc := abs_le.mp (termOf_close r hw hr.2.2)
    have hr2 := hab r (List.mem_cons_self _ _)
    have ih' := ih (fun x hx => hg x (List.mem_cons_of_mem _ hx))
      (fun x hx => hab x (List.mem_cons_of_mem _ hx))
    have l1 : a * F64.toRat (weightOf r) ≤ (r.offset : ℚ) * F64.toRat (weightOf r) :=
      mul_le_mul_of_nonneg_right hr2.1 hw.le
    have l2 : (r.offset : ℚ) * F64.toRat (weightOf r) ≤ b * F64.toRat (weightOf r) :=
      mul_le_mul_of_nonneg_right hr2.2 hw.le
    constructor
    · rw [mul_add]; linarith [hc.1, ih'.1]
    · rw [mul_add]; linarith [hc.2, ih'.2]

/-- C15, as stated, fails: two accepted readings with non-negative round-trip times
(stratum 1 with 3 ms and stratum 2 with 7 ms) both report the offset 1 000 000 ns and
the computed offset is 999 999 ns, below the smallest accepted offset. -/
theorem C15_offset_in_range_counterexample :
    (∀ r ∈ equalOffsets, Accepted r ∧ 0 ≤ r.rtt ∧ r.offset = 1000000) ∧
    finalOffset equalOffsets = Outcome.value 999999 := by
  constructor
  · decide
  · decide

/-- C15, amended. For every non-empty list of at most six accepted readings with
non-negative round-trip times and offsets of at most `2 ^ 47` ns in magnitude, whose
offsets all lie between `a` and `b` (in particular for `a` the smallest and `b` the
largest accepted offset), the computed offset lies between `a - 1` and `b + 1`; it can
leave the interval from `a` to `b` only on the side of zero (it is at most `b` when
`a` is non-negative and at least `a` when `b` is non-positive).  If all readings
report the same offset `d` the computed offset differs from `d` by at most 1 ns. -/
theorem C15_offset_in_range (l : List ntpServer) (a b : Int) (hl : l ≠ [])
    (hlen : l.length ≤ 6)
    (hg : ∀ r ∈ l, Accepted r ∧ 0 ≤ r.rtt ∧ |r.offset| ≤ 2 ^ 47)
    (hab : ∀ r ∈ l, a ≤ r.offset ∧ r.offset ≤ b) :
    ∃ off, finalOffset l = Outcome.value off ∧ a - 1 ≤ off ∧ off ≤ b + 1 ∧
      (0 ≤ a → off ≤ b) ∧ (b ≤ 0 → a ≤ off) ∧
      (∀ d, (∀ r ∈ l, r.offset = d) → |off - d| ≤ 1) := by
  obtain ⟨f, hf, hq, hsmall, _⟩ := finalOffset_spec l hl hlen hg
  have hgq : ∀ r ∈ l, Accepted r ∧ 0 ≤ r.rtt ∧ |(r.offset : ℚ)| ≤ 2 ^ 47 := by
    intro r hr
    refine ⟨(hg r hr).1, (hg r hr).2.1, ?_⟩
    exact_mod_cast (hg r hr).2.2
  have hSw := weightSum_pos l hl (fun r hr => ⟨(hg r hr).1, (hg r hr).2.1⟩)
  have range : ∀ a' b' : Int, (∀ r ∈ l, a' ≤ r.offset ∧ r.offset ≤ b') →
      (a' : ℚ) - 1 / 2 < F64.toRat f ∧ F64.toRat f < (b' : ℚ) + 1 / 2 := by
    intro a' b' h'
    have hb := termSum_bounds l a' b' hgq (by
      intro r hr
      constructor
      · exact_mod_cast (h' r hr).1
      · exact_mod_cast (h' r hr).2)
    have q1 : (a' : ℚ) - 1 / 16 ≤ termSum l / weightSum l := by
      rw [le_div_iff₀ hSw]; exact hb.1
    have q2 : termSum l / weightSum l ≤ (b' : ℚ) + 1 / 16 := by
      rw [div_le_iff₀ hSw]; exact hb.2
    have hq' := abs_le.mp hq
    constructor <;> linarith [hq'.1, hq'.2]
  refine ⟨F64.toInt64 f, hf, ?_⟩
  rw [F64.toInt64_of_small f hsmall]
  obtain ⟨r1, r2⟩ := range a b hab
  obtain ⟨t1, t2, t4, t5⟩ := F64.trunc_between f a b r1 r2
  refine ⟨t1, t2, t4, t5, ?_⟩
  intro d hd
  obtain ⟨s1, s2⟩ := range d d (fun r hr => by rw [hd r hr]; exact ⟨le_refl _, le_refl _⟩)
  obtain ⟨u1, u2, _⟩ := F64.trunc_between f d d s1 s2
  rw [abs_le]
  constructor <;> omega

/-- C15, amended, at a concrete input: the three readings of the scenario have
offsets between -10 ms and +50 ms, and so has the computed offset, up to 1 ns. -/
theorem C15_offset_in_range_witness :
    ∃ off, finalOffset scenario = Outcome.value off ∧ -10000000 - 1 ≤ off ∧
      off ≤ 50000000 + 1 :=
  let ⟨off, h1, h2, h3, _⟩ := C15_offset_in_range scenario (-10000000) 50000000 (by decide)
    (by decide) (by decide) (by decide)
  ⟨off, h1, h2, h3⟩

/-! ## the calendar of the timestamp layout -/

theorem isLeap_iff (year : Int) :
    isLeap year = true ↔ year % 4 = 0 ∧ (year % 100 ≠ 0 ∨ year % 400 = 0) := by
  simp [isLeap]

/-- The cutting of cycles, with the quotients named: `a` cycles of 400 years, `n100`
of 100 years, `n4` of 4 years and `n1` years, and `yday` days left. -/
theorem absYear_split (d : Int) :
    ∃ a n100 n4 n1 yday : Int, absYear d = (400 * a + 100 * n100 + 4 * n4 + n1 + 1, yday) ∧
      d = 146097 * a + 36524 * n100 + 1461 * n4 + 365 * n1 + yday ∧
      0 ≤ n100 ∧ n100 ≤ 3 ∧ 0 ≤ n4 ∧ n4 ≤ 24 ∧ 0 ≤ n1 ∧ n1 ≤ 3 ∧ 0 ≤ yday ∧ yday ≤ 365 ∧
      (yday = 365 → n1 = 3 ∧ (n4 ≠ 24 ∨ n100 = 3)) ∧ (n4 = 24 → n1 = 3 → n100 ≠ 3 → yday ≤ 364) := by
  simp only [absYear]
  have ha : 146097 * (d / 146097) ≤ d ∧ d < 146097 * (d / 146097) + 146097 := by omega
  generalize d / 146097 = a at *
  have hc : 36524 * ((d - 146097 * a) / 36524) ≤ d - 146097 * a ∧
      d - 146097 * a < 36524 * ((d - 146097 * a) / 36524) + 36524 := by omega
  generalize (d - 146097 * a) / 36524 = c at *
  have hc4 : (c ≤ 3 ∧ c / 4 = 0) ∨ (c = 4 ∧ c / 4 = 1) := by omega
  generalize c / 4 = e at *
  have hf : 1461 * ((d - 146097 * a - 36524 * (c - e)) / 1461) ≤ d - 146097 * a - 36524 * (c - e) ∧
      d - 146097 * a - 36524 * (c - e) < 1461 * ((d - 146097 * a - 36524 * (c - e)) / 1461) + 1461 := by
    omega
  generalize (d - 146097 * a - 36524 * (c - e)) / 1461 = f at *
  have hg : 365 * ((d - 146097 * a - 36524 * (c - e) - 1461 * f) / 365) ≤
        d - 146097 * a - 36524 * (c - e) - 1461 * f ∧
      d - 146097 * a - 36524 * (c - e) - 1461 * f <
        365 * ((d - 146097 * a - 36524 * (c - e) - 1461 * f) / 365) + 365 := by
    omega
  generalize (d - 146097 * a - 36524 * (c - e) - 1461 * f) / 365 = g at *
  have hg4 : (g ≤ 3 ∧ g / 4 = 0) ∨ (g = 4 ∧ g / 4 = 1) := by omega
  generalize g / 4 = i at *
  refine ⟨a, c - e, f, g - i, d - 146097 * a - 36524 * (c - e) - 1461 * f - 365 * (g - i),
    rfl, ?_, ?_, ?_, ?_, ?_, ?_, ?_, ?_, ?_, ?_, ?_⟩ <;> omega

theorem daysSinceEpoch_split (a n100 n4 n1 : Int) (h₁ : 0 ≤ n100) (h₂ : n100 ≤ 3)
    (h₃ : 0 ≤ n4) (h₄ : n4 ≤ 24) (h₅ : 0 ≤ n1) (h₆ : n1 ≤ 3) :
    daysSinceEpoch (400 * a + 100 * n100 + 4 * n4 + n1 + 1) =
      146097 * a + 36524 * n100 + 1461 * n4 + 365 * n1 := by
  simp only [daysSinceEpoch]
  have e1 : (400 * a + 100 * n100 + 4 * n4 + n1 + 1 - 1) / 400 = a := by omega
  rw [e1]
  have e2 : (400 * a + 100 * n100 + 4 * n4 + n1 + 1 - 1 - 400 * a) / 100 = n100 := by omega
  rw [e2]
  have e3 : (400 * a + 100 * n100 + 4 * n4 + n1 + 1 - 1 - 400 * a - 100 * n100) / 4 = n4 := by
    omega
  rw [e3]
  omega

theorem isLeap_split (a n100 n4 n1 : Int) (h₁ : 0 ≤ n100) (h₂ : n100 ≤ 3)
    (h₃ : 0 ≤ n4) (h₄ : n4 ≤ 24) (h₅ : 0 ≤ n1) (h₆ : n1 ≤ 3) :
    isLeap (400 * a + 100 * n100 + 4 * n4 + n1 + 1) = true ↔
      n1 = 3 ∧ (n4 ≠ 24 ∨ n100 = 3) := by
  rw [isLeap_iff]
  constructor
  · rintro ⟨q1, q2⟩
    have : n1 = 3 := by omega
    refine ⟨this, ?_⟩
    rcases q2 with q2 | q2
    · left; omega
    · right; omega
  · rintro ⟨q1, q2⟩
    refine ⟨by omega, ?_⟩
    by_cases h24 : n4 = 24
    · have : n100 = 3 := by
        rcases q2 with q2 | q2
        · exact absurd h24 q2
        · exact q2
      right; omega
    · left; omega

/-- The year and the day of the year: the day is within the year, and the days
before the year and the day of the year add up to the day number. -/
theorem absYear_spec (d : Int) :
    0 ≤ (absYear d).2 ∧ (absYear d).2 < (if isLeap (absYear d).1 = true then 366 else 365) ∧
      daysSinceEpoch (absYear d).1 + (absYear d).2 = d := by
  obtain ⟨a, n100, n4, n1, yday, hy, hd, b1, b2, b3, b4, b5, b6, b7, b8, b9, b10⟩ :=
    absYear_split d
  rw [hy]
  dsimp only
  rw [daysSinceEpoch_split a n100 n4 n1 b1 b2 b3 b4 b5 b6]
  have hl := isLeap_split a n100 n4 n1 b1 b2 b3 b4 b5 b6
  refine ⟨b7, ?_, by omega⟩
  by_cases hleap : isLeap (400 * a + 100 * n100 + 4 * n4 + n1 + 1) = true
  · rw [if_pos hleap]; omega
  · rw [if_neg hleap]
    have : ¬ (n1 = 3 ∧ (n4 ≠ 24 ∨ n100 = 3)) := fun h => hleap (hl.mpr h)
    by_contra hge
    have h365 : yday = 365 := by omega
    exact this (b9 h365)

/-- Day numbers of the years 0 to 9999. -/
theorem absYear_range (d : Int) (h₁ : -366 ≤ d) (h₂ : d < 3652059) :
    0 ≤ (absYear d).1 ∧ (absYear d).1 ≤ 9999 := by
  obtain ⟨a, n100, n4, n1, yday, hy, hd, b1, b2, b3, b4, b5, b6, b7, b8, b9, b10⟩ :=
    absYear_split d
  rw [hy]
  dsimp only
  have ha : -1 ≤ a ∧ a ≤ 24 := by omega
  rcases (by omega : a = -1 ∨ 0 ≤ a) with h | h
  · subst h
    have : n100 = 3 ∧ n4 = 24 ∧ n1 = 3 := by omega
    omega
  · rcases (by omega : a ≤ 23 ∨ a = 24) with h' | h'
    · omega
    · subst h'
      omega

theorem daysBefore_values :
    daysBefore 0 = 0 ∧ daysBefore 1 = 31 ∧ daysBefore 2 = 59 ∧ daysBefore 3 = 90 ∧
    daysBefore 4 = 120 ∧ daysBefore 5 = 151 ∧ daysBefore 6 = 181 ∧ daysBefore 7 = 212 ∧
    daysBefore 8 = 243 ∧ daysBefore 9 = 273 ∧ daysBefore 10 = 304 ∧ daysBefore 11 = 334 ∧
    daysBefore 12 = 365 := by decide

/-- The month and the day of the month: both in range, and the days before the month
and the day of the month add up to the day of the year. -/
theorem monthDay_spec (leap : Bool) (yday : Int) (h₀ : 0 ≤ yday)
    (h₁ : yday < (if leap = true then 366 else 365)) :
    1 ≤ (monthDay leap yday).1 ∧ (monthDay leap yday).1 ≤ 12 ∧ 1 ≤ (monthDay leap yday).2 ∧
      (monthDay leap yday).2 ≤
        (if (monthDay leap yday).1 = 2 ∧ leap = true then 29
         else daysBefore (monthDay leap yday).1 - daysBefore ((monthDay leap yday).1 - 1)) ∧
      daysBefore ((monthDay leap yday).1 - 1) +
        (if leap = true ∧ (monthDay leap yday).1 ≥ 3 then 1 else 0) +
          ((monthDay leap yday).2 - 1) = yday := by
  obtain ⟨t0, t1, t2, t3, t4, t5, t6, t7, t8, t9, t10, t11, t12⟩ := daysBefore_values
  unfold monthDay
  by_cases hl : leap = true ∧ yday = 59
  · rw [if_pos hl]
    obtain ⟨hl1, hl2⟩ := hl
    subst hl1 hl2
    simp [daysBefore]
  · rw [if_neg hl]
    dsimp only
    generalize hday : (if leap = true ∧ yday > 59 then yday - 1 else yday) = day
    have hday' : 0 ≤ day ∧ day ≤ 364 ∧
        ((leap = true ∧ yday > 59 ∧ day = yday - 1) ∨ (¬ (leap = true ∧ yday > 59) ∧ day = yday)) := by
      by_cases hc : leap = true ∧ yday > 59
      · rw [if_pos hc] at hday
        rw [if_pos hc.1] at h₁
        exact ⟨by omega, by omega, Or.inl ⟨hc.1, hc.2, hday.symm⟩⟩
      · rw [if_neg hc] at hday
        refine ⟨by omega, ?_, Or.inr ⟨hc, hday.symm⟩⟩
        by_cases hb : leap = true
        · have : ¬ yday > 59 := fun h => hc ⟨hb, h⟩
          omega
        · rw [if_neg hb] at h₁; omega
    have hm : day / 31 = 0 ∨ day / 31 = 1 ∨ day / 31 = 2 ∨ day / 31 = 3 ∨ day / 31 = 4 ∨
        day / 31 = 5 ∨ day / 31 = 6 ∨ day / 31 = 7 ∨ day / 31 = 8 ∨ day / 31 = 9 ∨
        day / 31 = 10 ∨ day / 31 = 11 := by omega
    have hm' : 31 * (day / 31) ≤ day ∧ day < 31 * (day / 31) + 31 := by omega
    generalize day / 31 = m at *
    obtain ⟨d0, d1, d2⟩ := hday'
    have hyd : yday ≠ 59 ∨ leap = false := by
      by_cases hb : leap = true
      · left; exact fun h => hl ⟨hb, h⟩
      · right; simpa using hb
    clear hl hday
    rcases hm with h | h | h | h | h | h | h | h | h | h | h | h <;> subst h <;>
      norm_num only [t0, t1, t2, t3, t4, t5, t6, t7, t8, t9, t10, t11, t12] <;>
      split_ifs <;>
      norm_num only [t0, t1, t2, t3, t4, t5, t6, t7, t8, t9, t10, t11, t12] at * <;>
      cases leap <;> simp only [Bool.false_eq_true, false_and, true_and, not_false_eq_true,
        not_true_eq_false, and_true, and_false, if_true, if_false, or_false, false_or,
        ne_eq, or_true, true_or, Bool.true_eq_false] at * <;> omega

/-! ## the characters of the timestamp layout -/

theorem digitChar_toNat (n : Nat) : (digitChar n).toNat = 48 + n % 10 := by
  unfold digitChar
  have h : n % 10 < 10 := Nat.mod_lt _ (by norm_num)
  generalize n % 10 = k at h
  interval_cases k <;> rfl

/-- A field of two digits is read back as the number written. -/
theorem parseUint_two (u : Nat) (lo hi : Int) (hu : u < 100) (h₁ : lo ≤ u) (h₂ : (u : Int) ≤ hi) :
    parseUint [digitChar (u / 10), digitChar (u % 10)] lo hi = some (u : Int) := by
  have e : ((((0 : Int) * 10 + ((48 + u / 10 % 10 - 48 : Nat) : Int)) * 10 +
      ((48 + u % 10 % 10 - 48 : Nat) : Int))) = u := by
    simp only [Nat.add_sub_cancel_left]
    omega
  simp only [parseUint, List.foldl_cons, List.foldl_nil, digitChar_toNat]
  have c1 : ¬ (48 + u / 10 % 10 < 48 ∨ 57 < 48 + u / 10 % 10) := by omega
  have c2 : ¬ (48 + u % 10 % 10 < 48 ∨ 57 < 48 + u % 10 % 10) := by omega
  rw [if_neg c1]
  dsimp only
  rw [if_neg c2]
  dsimp only
  rw [e, if_neg (by omega)]

/-- A field of four digits is read back as the number written. -/
theorem parseUint_four (u : Nat) (lo hi : Int) (hu : u < 10000) (h₁ : lo ≤ u)
    (h₂ : (u : Int) ≤ hi) :
    parseUint [digitChar (u / 100 / 10), digitChar (u / 100 % 10), digitChar (u % 100 / 10),
      digitChar (u % 100 % 10)] lo hi = some (u : Int) := by
  have e : ((((((0 : Int) * 10 + ((48 + u / 100 / 10 % 10 - 48 : Nat) : Int)) * 10 +
      ((48 + u / 100 % 10 % 10 - 48 : Nat) : Int)) * 10 +
      ((48 + u % 100 / 10 % 10 - 48 : Nat) : Int)) * 10 +
      ((48 + u % 100 % 10 % 10 - 48 : Nat) : Int))) = u := by
    simp only [Nat.add_sub_cancel_left]
    omega
  simp only [parseUint, List.foldl_cons, List.foldl_nil, digitChar_toNat]
  have c1 : ¬ (48 + u / 100 / 10 % 10 < 48 ∨ 57 < 48 + u / 100 / 10 % 10) := by omega
  have c2 : ¬ (48 + u / 100 % 10 % 10 < 48 ∨ 57 < 48 + u / 100 % 10 % 10) := by omega
  have c3 : ¬ (48 + u % 100 / 10 % 10 < 48 ∨ 57 < 48 + u % 100 / 10 % 10) := by omega
  have c4 : ¬ (48 + u % 100 % 10 % 10 < 48 ∨ 57 < 48 + u % 100 % 10 % 10) := by omega
  rw [if_neg c1]
  dsimp only
  rw [if_neg c2]
  dsimp only
  rw [if_neg c3]
  dsimp only
  rw [if_neg c4]
  dsimp only
  rw [e, if_neg (by omega)]

theorem appendInt_two (x : Int) (h₀ : 0 ≤ x) (h₁ : x < 100) :
    appendInt x 2 = [digitChar (x.natAbs / 10), digitChar (x.natAbs % 10)] := by
  unfold appendInt
  have hu : x.natAbs < 100 := by omega
  have hs : ¬ x < 0 := by omega
  simp [hu, hs]

theorem appendInt_four (x : Int) (h₀ : 0 ≤ x) (h₁ : x < 10000) :
    appendInt x 4 = [digitChar (x.natAbs / 100 / 10), digitChar (x.natAbs / 100 % 10),
      digitChar (x.natAbs % 100 / 10), digitChar (x.natAbs % 100 % 10)] := by
  unfold appendInt
  have hu : x.natAbs < 10000 := by omega
  have hs : ¬ x < 0 := by omega
  simp [hu, hs]

theorem daysIn_le (m year : Int) (h₁ : 1 ≤ m) (h₂ : m ≤ 12) : daysIn m year ≤ 31 := by
  obtain ⟨t0, t1, t2, t3, t4, t5, t6, t7, t8, t9, t10, t11, t12⟩ := daysBefore_values
  unfold daysIn
  have hm : m = 1 ∨ m = 2 ∨ m = 3 ∨ m = 4 ∨ m = 5 ∨ m = 6 ∨ m = 7 ∨ m = 8 ∨ m = 9 ∨
      m = 10 ∨ m = 11 ∨ m = 12 := by omega
  rcases hm with h | h | h | h | h | h | h | h | h | h | h | h <;> subst h <;>
    split_ifs <;>
    norm_num only [t0, t1, t2, t3, t4, t5, t6, t7, t8, t9, t10, t11, t12]

/-- The date of a day number of the years 0 to 9999: the fields are in the ranges
that the parser accepts and `time.Date` maps them back to the day number. -/
theorem absDate_spec (d : Int) (h₁ : -366 ≤ d) (h₂ : d < 3652059) :
    0 ≤ (absDate d).1 ∧ (absDate d).1 ≤ 9999 ∧ 1 ≤ (absDate d).2.1 ∧ (absDate d).2.1 ≤ 12 ∧
      1 ≤ (absDate d).2.2 ∧ (absDate d).2.2 ≤ daysIn (absDate d).2.1 (absDate d).1 ∧
      daysSinceEpoch (absDate d).1 + daysBefore ((absDate d).2.1 - 1) +
        (if isLeap (absDate d).1 = true ∧ (absDate d).2.1 ≥ 3 then 1 else 0) +
          ((absDate d).2.2 - 1) = d := by
  obtain ⟨y0, y1, y2⟩ := absYear_spec d
  obtain ⟨r0, r1⟩ := absYear_range d h₁ h₂
  obtain ⟨m0, m1, m2, m3, m4⟩ := monthDay_spec (isLeap (absYear d).1) (absYear d).2 y0 y1
  unfold absDate daysIn
  dsimp only
  refine ⟨r0, r1, m0, m1, m2, m3, ?_⟩
  rw [add_assoc, add_assoc, ← add_assoc (daysBefore _), m4]
  exact y2

/-- Reading back the date and the clock written in the layout: the result is decided
by the zone designator that follows. -/
theorem parse_fields (y m d h n s : Int) (zp : List Char) (hy : 0 ≤ y ∧ y ≤ 9999)
    (hm : 1 ≤ m ∧ m ≤ 12) (hd : 1 ≤ d ∧ d ≤ daysIn m y) (hh : 0 ≤ h ∧ h ≤ 23)
    (hn : 0 ≤ n ∧ n ≤ 59) (hs : 0 ≤ s ∧ s ≤ 59) :
    parseRFC3339 (String.mk (appendInt y 4 ++ '-' :: appendInt m 2 ++ '-' :: appendInt d 2 ++
      'T' :: appendInt h 2 ++ ':' :: appendInt n 2 ++ ':' :: appendInt s 2 ++ zp)) =
      match parseZone (parseFraction zp).2 with
      | some zoneOffset =>
        some { unixNano := (dateUnix y m d h n s - zoneOffset) * 1000000000 +
                 (parseFraction zp).1,
               offset := zoneOffset }
      | none => none := by
  have hd31 := daysIn_le m y hm.1 hm.2
  rw [appendInt_four y hy.1 (by omega), appendInt_two m (by omega) (by omega),
    appendInt_two d (by omega) (by omega), appendInt_two h (by omega) (by omega),
    appendInt_two n (by omega) (by omega), appendInt_two s (by omega) (by omega)]
  have ey : ((y.natAbs : Nat) : Int) = y := by omega
  have em : ((m.natAbs : Nat) : Int) = m := by omega
  have ed : ((d.natAbs : Nat) : Int) = d := by omega
  have eh : ((h.natAbs : Nat) : Int) = h := by omega
  have en : ((n.natAbs : Nat) : Int) = n := by omega
  have es : ((s.natAbs : Nat) : Int) = s := by omega
  have py := parseUint_four y.natAbs 0 9999 (by omega) (by omega) (by omega)
  have pm := parseUint_two m.natAbs 1 12 (by omega) (by omega) (by omega)
  have pd := parseUint_two d.natAbs 1 (daysIn m y) (by omega) (by omega) (by omega)
  have ph := parseUint_two h.natAbs 0 23 (by omega) (by omega) (by omega)
  have pn := parseUint_two n.natAbs 0 59 (by omega) (by omega) (by omega)
  have ps := parseUint_two s.natAbs 0 59 (by omega) (by omega) (by omega)
  rw [ey] at py
  rw [em] at pm
  rw [ed] at pd
  rw [eh] at ph
  rw [en] at pn
  rw [es] at ps
  simp only [parseRFC3339, List.cons_append, List.nil_append, py, pm, pd, ph, pn, ps,
    and_self, if_true]

/-- The date and the clock of a local time of the years 0 to 9999, read as a date in
UTC, give the local time back. -/
theorem dateUnix_absDate (abs : Int) (h₁ : -62167219200 ≤ abs) (h₂ : abs < 253402300800) :
    dateUnix (absDate (abs / 86400 + 719162)).1 (absDate (abs / 86400 + 719162)).2.1
      (absDate (abs / 86400 + 719162)).2.2 (abs % 86400 / 3600) (abs % 86400 % 3600 / 60)
      (abs % 86400 % 60) = abs := by
  obtain ⟨_, _, _, _, _, _, hd⟩ := absDate_spec (abs / 86400 + 719162) (by omega) (by omega)
  unfold dateUnix
  dsimp only
  rw [hd]
  omega

/-- The zone designator written for a non-zero offset of whole minutes, less than a
day, is read back as that offset. -/
theorem parseZone_written (offset : Int) (h₀ : offset ≠ 0) (h₁ : offset % 60 = 0)
    (h₂ : -86400 < offset) (h₃ : offset < 86400) :
    parseFraction ((if Int.tdiv offset 60 < 0 then '-' else '+') ::
        appendInt ((if Int.tdiv offset 60 < 0 then -Int.tdiv offset 60 else Int.tdiv offset 60) / 60) 2 ++
        ':' :: appendInt
          ((if Int.tdiv offset 60 < 0 then -Int.tdiv offset 60 else Int.tdiv offset 60) % 60) 2) =
      (0, (if Int.tdiv offset 60 < 0 then '-' else '+') ::
        appendInt ((if Int.tdiv offset 60 < 0 then -Int.tdiv offset 60 else Int.tdiv offset 60) / 60) 2 ++
        ':' :: appendInt
          ((if Int.tdiv offset 60 < 0 then -Int.tdiv offset 60 else Int.tdiv offset 60) % 60) 2) ∧
    parseZone ((if Int.tdiv offset 60 < 0 then '-' else '+') ::
        appendInt ((if Int.tdiv offset 60 < 0 then -Int.tdiv offset 60 else Int.tdiv offset 60) / 60) 2 ++
        ':' :: appendInt
          ((if Int.tdiv offset 60 < 0 then -Int.tdiv offset 60 else Int.tdiv offset 60) % 60) 2) =
      some offset := by
  have hz : (0 ≤ offset ∧ Int.tdiv offset 60 = offset / 60) ∨
      (offset < 0 ∧ Int.tdiv offset 60 = -((-offset) / 60)) := by
    rcases le_total 0 offset with hp | hn
    · left
      exact ⟨hp, Int.tdiv_eq_ediv hp (by norm_num)⟩
    · right
      refine ⟨by omega, ?_⟩
      have : offset = -(-offset) := by omega
      rw [this, Int.neg_tdiv, Int.tdiv_eq_ediv (by omega) (by norm_num)]
      simp
  generalize Int.tdiv offset 60 = zone at hz
  generalize hzz : (if zone < 0 then -zone else zone) = z
  have hzr : 0 ≤ z ∧ z ≤ 1439 ∧ (zone < 0 → offset = -(z * 60)) ∧ (¬ zone < 0 → offset = z * 60) := by
    by_cases hneg : zone < 0
    · rw [if_pos hneg] at hzz
      refine ⟨by omega, by omega, fun _ => by omega, fun h => absurd hneg h⟩
    · rw [if_neg hneg] at hzz
      refine ⟨by omega, by omega, fun h => absurd h hneg, fun _ => by omega⟩
  obtain ⟨z0, z1, z2, z3⟩ := hzr
  rw [appendInt_two (z / 60) (by omega) (by omega), appendInt_two (z % 60) (by omega) (by omega)]
  have ehr : (((z / 60).natAbs : Nat) : Int) = z / 60 := by omega
  have emm : (((z % 60).natAbs : Nat) : Int) = z % 60 := by omega
  have phr := parseUint_two (z / 60).natAbs 0 23 (by omega) (by omega) (by omega)
  have pmm := parseUint_two (z % 60).natAbs 0 59 (by omega) (by omega) (by omega)
  rw [ehr] at phr
  rw [emm] at pmm
  by_cases hneg : zone < 0
  · simp only [if_pos hneg, List.cons_append, List.nil_append]
    refine ⟨rfl, ?_⟩
    simp only [parseZone, phr, pmm]
    have := z2 hneg
    simp
    omega
  · simp only [if_neg hneg, List.cons_append, List.nil_append]
    refine ⟨rfl, ?_⟩
    simp only [parseZone, phr, pmm]
    have := z3 hneg
    simp
    omega

/-- The timestamp written for an instant whose local date is of the years 0 to 9999,
in a zone whose offset is a whole number of minutes, less than a day, is read back as
that instant and that offset. -/
theorem parse_appendFormat (offset unixSec : Int) (h₁ : -62167219200 ≤ unixSec + offset)
    (h₂ : unixSec + offset < 253402300800) (h₃ : offset % 60 = 0) (h₄ : -86400 < offset)
    (h₅ : offset < 86400) :
    parseRFC3339 (String.mk (appendFormatRFC3339 offset unixSec)) =
      some { unixNano := unixSec * 1000000000, offset := offset } := by
  obtain ⟨s0, s1, s2, s3, s4, s5, _⟩ :=
    absDate_spec ((unixSec + offset) / 86400 + 719162) (by omega) (by omega)
  have hdate := dateUnix_absDate (unixSec + offset) h₁ h₂
  have hfields := fun zp => parse_fields (absDate ((unixSec + offset) / 86400 + 719162)).1
    (absDate ((unixSec + offset) / 86400 + 719162)).2.1
    (absDate ((unixSec + offset) / 86400 + 719162)).2.2
    ((unixSec + offset) % 86400 / 3600) ((unixSec + offset) % 86400 % 3600 / 60)
    ((unixSec + offset) % 86400 % 60) zp ⟨s0, s1⟩ ⟨s2, s3⟩ ⟨s4, s5⟩
    (by omega) (by omega) (by omega)
  unfold appendFormatRFC3339
  dsimp only
  by_cases h0 : offset = 0
  · rw [if_pos h0, hfields, hdate]
    simp [parseFraction, parseZone, h0]
  · obtain ⟨z1, z2⟩ := parseZone_written offset h0 h₃ h₄ h₅
    rw [if_neg h0, List.append_assoc, hfields, hdate, z1]
    dsimp only
    rw [z2]
    simp

/-! ## C11: the single-source query -/

/-- The timestamp of the layout is never the empty string. -/
theorem formatRFC3339_ne_empty (loc : Int → Int) (t : Int) : formatRFC3339 loc t ≠ "" := by
  intro h
  have hd := congrArg String.data h
  unfold formatRFC3339 appendFormatRFC3339 at hd
  dsimp only at hd
  split at hd <;> simp at hd

/-- The two forms of the result of `getNTPTime` agree: the error is reported when the
Go function returns a non-nil error, and otherwise the string is the value. -/
theorem getNTPTime_eq_result (w : World) (st : Sys) (server : String) :
    getNTPTime w st server =
      (match (getNTPTimeResult w st server).1 with
        | (_, some err) => Outcome.error err
        | (timeStr, none) => Outcome.value timeStr,
       (getNTPTimeResult w st server).2) := by
  unfold getNTPTime getNTPTimeResult
  cases w.query st.calls.length server <;> rfl

/-- C11. `getNTPTime(server)` makes exactly one transport call, for `server`, and
writes nothing to the log.  It returns an error exactly when that call fails, the
error is then the one of the transport and the string is empty; when the call
succeeds it returns a nil error and the formatting of the local time plus the clock
offset of the response, which is a non-empty string when the formatting is that of
the RFC 3339 layout. -/
theorem C11_single_source_query (w : World) (st : Sys) (server : String) :
    (getNTPTimeResult w st server).2.calls = st.calls ++ [server] ∧
    (getNTPTimeResult w st server).2.logs = st.logs ∧
    (∀ err, (getNTPTimeResult w st server).1.2 = some err ↔
      w.query st.calls.length server = .error err) ∧
    (∀ err, w.query st.calls.length server = .error err →
      (getNTPTimeResult w st server).1 = ("", some err) ∧
      (getNTPTime w st server).1 = Outcome.error err) ∧
    (∀ response, w.query st.calls.length server = .ok response →
      (getNTPTimeResult w st server).1 = (w.format (w.now + response.ClockOffset), none) ∧
      (getNTPTime w st server).1 = Outcome.value (w.format (w.now + response.ClockOffset))) ∧
    (∀ loc : Int → Int, (∀ t, w.format t = formatRFC3339 loc t) →
      (getNTPTimeResult w st server).1.2 = none → (getNTPTimeResult w st server).1.1 ≠ "") := by
  unfold getNTPTimeResult getNTPTime
  cases hq : w.query st.calls.length server with
  | error e =>
    refine ⟨rfl, rfl, ?_, ?_, ?_, ?_⟩
    · intro err
      simp
    · intro err herr
      cases herr
      exact ⟨rfl, rfl⟩
    · intro response hr
      cases hr
    · intro loc _ hnone
      cases hnone
  | ok r =>
    refine ⟨rfl, rfl, ?_, ?_, ?_, ?_⟩
    · intro err
      simp
    · intro err herr
      cases herr
    · intro response hr
      cases hr
      exact ⟨rfl, rfl⟩
    · intro loc hf _
      dsimp only
      rw [hf]
      exact formatRFC3339_ne_empty loc _

/-- C11, at a concrete input: in `utcWorld` the transport answers the first call with
a clock offset of 50 ms; the string returned is the timestamp of that second. -/
theorem C11_single_source_query_witness :
    (getNTPTimeResult utcWorld freshSys "time.nist.gov").1 = ("2024-01-15T12:30:45Z", none) ∧
    (getNTPTimeResult utcWorld freshSys "time.nist.gov").1.1 ≠ "" :=
  ⟨((C11_single_source_query utcWorld freshSys "time.nist.gov").2.2.2.2.1
      (Response.mk 1 10000000 50000000) rfl).1,
   (C11_single_source_query utcWorld freshSys "time.nist.gov").2.2.2.2.2 utc (fun _ => rfl) rfl⟩

/-! ## C12: the round trip of the output format -/

/-- C12. Every string returned by `getNTPTime` or `getAccurateNTPTime` is the
formatting of an instant `t`: the local time plus the clock offset of the response,
or plus the computed offset.  When the formatting is that of the RFC 3339 layout in a
location `loc`, the string written for an instant that the layout can represent (the
year of the local date from 0 to 9999, the zone offset a whole number of minutes, less
than a day) is parsed by the same layout, and the result is the instant `t` cut down
to whole seconds, with the zone offset of `t`.  The instant 2024-01-15 12:30:45 UTC
is written `2024-01-15T12:30:45Z`. -/
theorem C12_format_round_trip (w : World) (loc : Int → Int)
    (hf : ∀ t, w.format t = formatRFC3339 loc t) :
    (∀ t, Representable loc t →
      parseRFC3339 (w.format t) =
        some { unixNano := t / 1000000000 * 1000000000, offset := loc (t / 1000000000) }) ∧
    (∀ st server timeStr, (getNTPTime w st server).1 = Outcome.value timeStr →
      ∃ response, w.query st.calls.length server = .ok response ∧
        timeStr = w.format (w.now + response.ClockOffset)) ∧
    (∀ st timeStr, (getAccurateNTPTime w st).1 = Outcome.value timeStr →
      ∃ off, finalOffset (sortSlice (acceptedFrom w st.calls.length servers)) =
          Outcome.value off ∧ timeStr = w.format (w.now + off)) ∧
    formatRFC3339 utc 1705321845000000000 = "2024-01-15T12:30:45Z" := by
  refine ⟨?_, ?_, ?_, by decide⟩
  · intro t ⟨h1, h2, h3, h4, h5⟩
    rw [hf]
    exact parse_appendFormat (loc (t / 1000000000)) (t / 1000000000) h1 h2 h3 h4 h5
  · intro st server timeStr h
    unfold getNTPTime at h
    cases hq : w.query st.calls.length server with
    | error e =>
      rw [hq] at h
      cases h
    | ok r =>
      rw [hq] at h
      refine ⟨r, rfl, ?_⟩
      have : Outcome.value (w.format (w.now + r.ClockOffset)) = Outcome.value timeStr := h
      cases this
      rfl
  · intro st timeStr h
    by_cases hne : acceptedFrom w st.calls.length servers = []
    · rw [getAccurateNTPTime_nil w st hne] at h
      cases h
    · obtain ⟨off, hoff, hval⟩ := getAccurateNTPTime_cons w st hne
      rw [hval] at h
      cases h
      exact ⟨off, hoff, rfl⟩

/-- C12, at a concrete input: the timestamp written in `utcWorld` for the local time
plus 50 ms is read back as the instant of the whole second. -/
theorem C12_format_round_trip_witness :
    parseRFC3339 (utcWorld.format 1705321845050000000) =
      some { unixNano := 1705321845000000000, offset := 0 } :=
  (C12_format_round_trip utcWorld utc (fun _ => rfl)).1 1705321845050000000 (by decide)

end NtpTime
